import Mathlib

/-!
# AES-128 / CMAC (NIST SP 800-38B) : a shallow embedding of `AESMAC_NISTSP80038B.cpp`

Conventions of the embedding.

* A `byte` (`uint8_t`) is a natural number; where the C code narrows an `int` that can
  exceed 255 (the result of a left shift) back to `byte`, the embedding carries an explicit
  `% 256`; the XOR of two bytes is a byte with or without it.  Inputs are bytes when
  `IsBytes` holds.
* A C array is a `List Nat`.  Every array read and write is *checked*: it yields `none`
  when the index is outside the array, so `some _` as the result of a function means that
  the run performed no out-of-bounds access.
* A pointer `p + k` into an array is the suffix `List.drop k`.
* Output parameters (`byte out[16]`) are passed in as the buffer the caller owns and the
  function returns the buffer after its writes.  Local arrays without an initialiser are
  taken to hold zeros (each of them is completely written before it is read).
* `size_t` arithmetic is arithmetic modulo `2 ^ 64`; `int` values stay far away from the
  limits of `int` and are plain integers (`/` and `%` of C are `Int.tdiv` and `Int.tmod`).
* `byte state[4][4]` is the flat row-major array of 16 bytes: `state[r][c]` is the
  element `r * 4 + c`.
-/

namespace AESCMAC

/-! ## Checked memory and loops -/

/-- The modulus of `size_t` arithmetic. -/
def SIZE_MOD : Nat := 2 ^ 64

/-- A list of bytes: every element is below 256. -/
def IsBytes (l : List Nat) : Prop := ∀ b ∈ l, b < 256

/-- The byte `a[i]` of an array, for the statements of the properties (0 outside the
array). -/
def byteAt (a : List Nat) (i : Nat) : Nat := a.getD i 0

/-- A 16-byte array of bytes: the shape of the AES state and of every block. -/
def Block (a : List Nat) : Prop := a.length = 16 ∧ IsBytes a

/-- Checked read `a[i]`. -/
def rd (a : List Nat) (i : Nat) : Option Nat := a[i]?

/-- Checked write `a[i] = v`. -/
def wr (a : List Nat) (i : Nat) (v : Nat) : Option (List Nat) :=
  if i < a.length then some (a.set i v) else none

/-- Checked read `a[i]` with an `int` index. -/
def rdI (a : List Nat) (i : Int) : Option Nat :=
  if 0 ≤ i then rd a i.toNat else none

/-- Checked write `a[i] = v` with an `int` index. -/
def wrI (a : List Nat) (i : Int) (v : Nat) : Option (List Nat) :=
  if 0 ≤ i then wr a i.toNat v else none

/-- The loop `for (i = start; i < start + count; i++) body`, run on the state `s`. -/
def forLoop {σ : Type} (body : Nat → σ → Option σ) : Nat → Nat → σ → Option σ
  | 0, _, s => some s
  | count + 1, i, s => (body i s).bind (forLoop body count (i + 1))

/-- The loop `for (i = count - 1; i >= 0; i--) body`, run on the state `s`. -/
def forDown {σ : Type} (body : Nat → σ → Option σ) : Nat → σ → Option σ
  | 0, s => some s
  | count + 1, s => (body count s).bind (forDown body count)

/-- The loop `for (int i = start; ...; i++) body` with `count` iterations. -/
def forLoopI {σ : Type} (body : Int → σ → Option σ) : Nat → Int → σ → Option σ
  | 0, _, s => some s
  | count + 1, i, s => (body i s).bind (forLoopI body count (i + 1))

/-- Library call `memcpy(dst, src, n)`: reads `src[0..n)`, writes `dst[0..n)`. -/
def memcpy (dst src : List Nat) (n : Nat) : Option (List Nat) :=
  if n ≤ src.length ∧ n ≤ dst.length then some (src.take n ++ dst.drop n) else none

/-- Library call `memset(dst, v, n)`: writes `dst[0..n)`. -/
def memset (dst : List Nat) (v : Nat) (n : Nat) : Option (List Nat) :=
  if n ≤ dst.length then some (List.replicate n v ++ dst.drop n) else none

/-- A local `byte b[16]`. -/
def block16 : List Nat := List.replicate 16 0

/-! ## AES-128 -/

/-- AES S-box (FIPS 197). -/
def sbox : List Nat := [
  0x63,0x7c,0x77,0x7b,0xf2,0x6b,0x6f,0xc5,0x30,0x01,0x67,0x2b,0xfe,0xd7,0xab,0x76,
  0xca,0x82,0xc9,0x7d,0xfa,0x59,0x47,0xf0,0xad,0xd4,0xa2,0xaf,0x9c,0xa4,0x72,0xc0,
  0xb7,0xfd,0x93,0x26,0x36,0x3f,0xf7,0xcc,0x34,0xa5,0xe5,0xf1,0x71,0xd8,0x31,0x15,
  0x04,0xc7,0x23,0xc3,0x18,0x96,0x05,0x9a,0x07,0x12,0x80,0xe2,0xeb,0x27,0xb2,0x75,
  0x09,0x83,0x2c,0x1a,0x1b,0x6e,0x5a,0xa0,0x52,0x3b,0xd6,0xb3,0x29,0xe3,0x2f,0x84,
  0x53,0xd1,0x00,0xed,0x20,0xfc,0xb1,0x5b,0x6a,0xcb,0xbe,0x39,0x4a,0x4c,0x58,0xcf,
  0xd0,0xef,0xaa,0xfb,0x43,0x4d,0x33,0x85,0x45,0xf9,0x02,0x7f,0x50,0x3c,0x9f,0xa8,
  0x51,0xa3,0x40,0x8f,0x92,0x9d,0x38,0xf5,0xbc,0xb6,0xda,0x21,0x10,0xff,0xf3,0xd2,
  0xcd,0x0c,0x13,0xec,0x5f,0x97,0x44,0x17,0xc4,0xa7,0x7e,0x3d,0x64,0x5d,0x19,0x73,
  0x60,0x81,0x4f,0xdc,0x22,0x2a,0x90,0x88,0x46,0xee,0xb8,0x14,0xde,0x5e,0x0b,0xdb,
  0xe0,0x32,0x3a,0x0a,0x49,0x06,0x24,0x5c,0xc2,0xd3,0xac,0x62,0x91,0x95,0xe4,0x79,
  0xe7,0xc8,0x37,0x6d,0x8d,0xd5,0x4e,0xa9,0x6c,0x56,0xf4,0xea,0x65,0x7a,0xae,0x08,
  0xba,0x78,0x25,0x2e,0x1c,0xa6,0xb4,0xc6,0xe8,0xdd,0x74,0x1f,0x4b,0xbd,0x8b,0x8a,
  0x70,0x3e,0xb5,0x66,0x48,0x03,0xf6,0x0e,0x61,0x35,0x57,0xb9,0x86,0xc1,0x1d,0x9e,
  0xe1,0xf8,0x98,0x11,0x69,0xd9,0x8e,0x94,0x9b,0x1e,0x87,0xe9,0xce,0x55,0x28,0xdf,
  0x8c,0xa1,0x89,0x0d,0xbf,0xe6,0x42,0x68,0x41,0x99,0x2d,0x0f,0xb0,0x54,0xbb,0x16]

/-- Round constants for key expansion. -/
def Rcon : List Nat := [
  0x00, 0x01, 0x02, 0x04, 0x08,
  0x10, 0x20, 0x40, 0x80, 0x1B,
  0x36]

/-- Multiply by 2 in GF(2^8): `(byte)((x << 1) ^ ((x & 0x80) ? 0x1b : 0))`. -/
def xtime (x : Nat) : Nat :=
  ((x <<< 1) ^^^ (if x &&& 0x80 ≠ 0 then 0x1b else 0)) % 256

/-- `KeyExpansion`, first inner loop: `temp[i] = roundKeys[bytesGenerated - 4 + i]`. -/
def KeyExpansion_temp (roundKeys : List Nat) (bytesGenerated : Nat) : Option (List Nat) :=
  forLoop (fun i temp => (rd roundKeys (bytesGenerated - 4 + i)).bind (wr temp i))
    4 0 [0, 0, 0, 0]

/-- `KeyExpansion`, the block under `if (bytesGenerated % 16 == 0)`: RotWord, SubWord and
the XOR with the round constant, on `temp`. -/
def KeyExpansion_core (temp : List Nat) (rconIteration : Nat) : Option (List Nat) :=
  -- RotWord: cyclic left shift.
  (rd temp 0).bind fun t =>
  ((rd temp 1).bind (wr temp 0)).bind fun temp =>
  ((rd temp 2).bind (wr temp 1)).bind fun temp =>
  ((rd temp 3).bind (wr temp 2)).bind fun temp =>
  (wr temp 3 t).bind fun temp =>
  -- SubWord: apply the S-box.
  (forLoop (fun i temp => ((rd temp i).bind (rd sbox)).bind (wr temp i)) 4 0 temp).bind
    fun temp =>
  -- XOR with round constant.
  (rd temp 0).bind fun t0 =>
  (rd Rcon rconIteration).bind fun rc =>
  wr temp 0 (t0 ^^^ rc)

/-- `KeyExpansion`, last inner loop, on the state `(roundKeys, bytesGenerated)`:
`roundKeys[bytesGenerated] = roundKeys[bytesGenerated - 16] ^ temp[i]; bytesGenerated++`. -/
def KeyExpansion_store (temp : List Nat) (rb : List Nat × Nat) : Option (List Nat × Nat) :=
  forLoop (fun i rb =>
    (rd rb.1 (rb.2 - 16)).bind fun a =>
    (rd temp i).bind fun t =>
    (wr rb.1 rb.2 (a ^^^ t)).bind fun rk =>
    some (rk, rb.2 + 1)) 4 0 rb

/-- One pass of the `while` loop of `KeyExpansion`, on the state
`(roundKeys, bytesGenerated, rconIteration)`. -/
def KeyExpansion_body (st : List Nat × Nat × Nat) : Option (List Nat × Nat × Nat) :=
  let roundKeys := st.1
  let bytesGenerated := st.2.1
  let rconIteration := st.2.2
  (KeyExpansion_temp roundKeys bytesGenerated).bind fun temp =>
  (if bytesGenerated % 16 = 0 then
      (KeyExpansion_core temp rconIteration).bind fun temp => some (temp, rconIteration + 1)
    else some (temp, rconIteration)).bind fun tr =>
  (KeyExpansion_store tr.1 (roundKeys, bytesGenerated)).bind fun rb =>
  some (rb.1, rb.2, tr.2)

/-- The loop `while (bytesGenerated < 176)` of `KeyExpansion`, with a bound on the number
of passes; `none` when the bound is used up before the loop ends. -/
def KeyExpansion_while : Nat → List Nat × Nat × Nat → Option (List Nat × Nat × Nat)
  | 0, st => if st.2.1 < 176 then none else some st
  | fuel + 1, st =>
    if st.2.1 < 176 then (KeyExpansion_body st).bind (KeyExpansion_while fuel) else some st

/-- Expands a 16-byte AES key into a 176-byte round key array. -/
def KeyExpansion (key roundKeys : List Nat) : Option (List Nat) :=
  (memcpy roundKeys key 16).bind fun roundKeys =>
  (KeyExpansion_while 176 (roundKeys, 16, 1)).bind fun st =>
  some st.1

/-! ## Key schedule: the words of the specification -/

/-- Word `w` of a round-key array: its bytes `4w .. 4w+3`. -/
def keyWord (rk : List Nat) (w : Nat) : List Nat :=
  [byteAt rk (4 * w), byteAt rk (4 * w + 1), byteAt rk (4 * w + 2), byteAt rk (4 * w + 3)]

/-- A word rotated left by one byte. -/
def RotWord (t : List Nat) : List Nat := t.drop 1 ++ t.take 1

/-- A word substituted byte-wise through `sbox`. -/
def SubWord (t : List Nat) : List Nat := t.map (byteAt sbox)

/-- The word `T` that is XORed onto word `w - 4` to give word `w`: word `w - 1` when `w`
is not a multiple of 4; otherwise word `w - 1` rotated left by one byte, substituted through
`sbox`, with its first byte XORed with `Rcon[w / 4]`. -/
def keyT (rk : List Nat) (w : Nat) : List Nat :=
  if w % 4 = 0 then
    let t := SubWord (RotWord (keyWord rk (w - 1)))
    t.set 0 (byteAt t 0 ^^^ byteAt Rcon (w / 4))
  else keyWord rk (w - 1)

/-- The four writes of the last inner loop of `KeyExpansion`. -/
def set4 (rk : List Nat) (bg v0 v1 v2 v3 : Nat) : List Nat :=
  (((rk.set bg v0).set (bg + 1) v1).set (bg + 2) v2).set (bg + 3) v3

/-- Invariant of the `while` loop of `KeyExpansion` after `k` passes, on the state
`(roundKeys, bytesGenerated, rconIteration)`. -/
def KeyInv (key : List Nat) (k : Nat) (st : List Nat × Nat × Nat) : Prop :=
  st.2.1 = 16 + 4 * k ∧ st.2.2 = 1 + (k + 3) / 4 ∧ st.1.length = 176 ∧ IsBytes st.1 ∧
  st.1.take 16 = key ∧
  ∀ w, 4 ≤ w → w < 4 + k →
    keyWord st.1 w = List.zipWith (· ^^^ ·) (keyWord st.1 (w - 4)) (keyT st.1 w)

/-- AddRoundKey: XORs the state with the round key (`state[r][c] ^= roundKey[c * 4 + r]`). -/
def AddRoundKey (state roundKey : List Nat) : Option (List Nat) :=
  forLoop (fun r state =>
    forLoop (fun c state =>
      (rd state (r * 4 + c)).bind fun s =>
      (rd roundKey (c * 4 + r)).bind fun k =>
      wr state (r * 4 + c) (s ^^^ k)) 4 0 state) 4 0 state

/-- SubBytes: applies the S-box to every byte of the state. -/
def SubBytes (state : List Nat) : Option (List Nat) :=
  forLoop (fun r state =>
    forLoop (fun c state =>
      ((rd state (r * 4 + c)).bind (rd sbox)).bind (wr state (r * 4 + c))) 4 0 state) 4 0 state

/-- ShiftRows, row 1: shift by 1 (through `temp[0..3]`). -/
def ShiftRows_row1 (state : List Nat) : Option (List Nat) :=
  (rd state (1 * 4 + 0)).bind fun t0 => (rd state (1 * 4 + 1)).bind fun t1 =>
  (rd state (1 * 4 + 2)).bind fun t2 => (rd state (1 * 4 + 3)).bind fun t3 =>
  (wr state (1 * 4 + 0) t1).bind fun state => (wr state (1 * 4 + 1) t2).bind fun state =>
  (wr state (1 * 4 + 2) t3).bind fun state => wr state (1 * 4 + 3) t0

/-- ShiftRows, row 2: shift by 2. -/
def ShiftRows_row2 (state : List Nat) : Option (List Nat) :=
  (rd state (2 * 4 + 0)).bind fun t0 => (rd state (2 * 4 + 1)).bind fun t1 =>
  (rd state (2 * 4 + 2)).bind fun t2 => (rd state (2 * 4 + 3)).bind fun t3 =>
  (wr state (2 * 4 + 0) t2).bind fun state => (wr state (2 * 4 + 1) t3).bind fun state =>
  (wr state (2 * 4 + 2) t0).bind fun state => wr state (2 * 4 + 3) t1

/-- ShiftRows, row 3: shift by 3 (or right by 1). -/
def ShiftRows_row3 (state : List Nat) : Option (List Nat) :=
  (rd state (3 * 4 + 0)).bind fun t0 => (rd state (3 * 4 + 1)).bind fun t1 =>
  (rd state (3 * 4 + 2)).bind fun t2 => (rd state (3 * 4 + 3)).bind fun t3 =>
  (wr state (3 * 4 + 0) t3).bind fun state => (wr state (3 * 4 + 1) t0).bind fun state =>
  (wr state (3 * 4 + 2) t1).bind fun state => wr state (3 * 4 + 3) t2

/-- ShiftRows: cyclically shifts each row of the state to the left by its row index (the
three groups of statements of the source, one after the other). -/
def ShiftRows (state : List Nat) : Option (List Nat) :=
  (ShiftRows_row1 state).bind fun state =>
  (ShiftRows_row2 state).bind fun state =>
  ShiftRows_row3 state

/-- MixColumns: mixes the columns of the state. -/
def MixColumns (state : List Nat) : Option (List Nat) :=
  forLoop (fun c state =>
    (rd state (0 * 4 + c)).bind fun a0 =>
    (rd state (1 * 4 + c)).bind fun a1 =>
    (rd state (2 * 4 + c)).bind fun a2 =>
    (rd state (3 * 4 + c)).bind fun a3 =>
    let r0 := (xtime a0 ^^^ (a1 ^^^ xtime a1) ^^^ a2 ^^^ a3) % 256
    let r1 := (a0 ^^^ xtime a1 ^^^ (a2 ^^^ xtime a2) ^^^ a3) % 256
    let r2 := (a0 ^^^ a1 ^^^ xtime a2 ^^^ (a3 ^^^ xtime a3)) % 256
    let r3 := ((a0 ^^^ xtime a0) ^^^ a1 ^^^ a2 ^^^ xtime a3) % 256
    (wr state (0 * 4 + c) r0).bind fun state =>
    (wr state (1 * 4 + c) r1).bind fun state =>
    (wr state (2 * 4 + c) r2).bind fun state =>
    wr state (3 * 4 + c) r3) 4 0 state

/-- The first loop of `AES_Encrypt_Block`: copy input into state (column-major order). -/
def AES_load (inp : List Nat) : Option (List Nat) :=
  forLoop (fun c state =>
    forLoop (fun r state => (rd inp (c * 4 + r)).bind (wr state (r * 4 + c))) 4 0 state)
      4 0 block16

/-- The body of the round loop of `AES_Encrypt_Block`. -/
def AES_round (roundKeys : List Nat) (round : Nat) (state : List Nat) : Option (List Nat) :=
  (SubBytes state).bind fun state =>
  (ShiftRows state).bind fun state =>
  (MixColumns state).bind fun state =>
  AddRoundKey state (roundKeys.drop (round * 16))

/-- The last loop of `AES_Encrypt_Block`: copy state to output. -/
def AES_store (state out : List Nat) : Option (List Nat) :=
  forLoop (fun c out =>
    forLoop (fun r out => (rd state (r * 4 + c)).bind (wr out (c * 4 + r))) 4 0 out) 4 0 out

/-- Encrypts a single 16-byte block using AES-128 (`in` is read, `out` is written). -/
def AES_Encrypt_Block (inp out roundKeys : List Nat) : Option (List Nat) :=
  (AES_load inp).bind fun state =>
  (AddRoundKey state roundKeys).bind fun state =>
  -- for (round = 1; round <= 9; round++)
  (forLoop (AES_round roundKeys) 9 1 state).bind fun state =>
  -- Final round (without MixColumns).
  (SubBytes state).bind fun state =>
  (ShiftRows state).bind fun state =>
  (AddRoundKey state (roundKeys.drop (10 * 16))).bind fun state =>
  AES_store state out

/-- The array that `AES_store` leaves in `out`: byte `k` is `state[k % 4][k / 4]`. -/
def storeImage (state : List Nat) : List Nat :=
  (List.range 16).map fun k => byteAt state (k % 4 * 4 + k / 4)

/-! ## CMAC -/

/-- LeftShiftBlock: left shifts a 16-byte block by one bit; the loop state is
`(out, carry)`. -/
def LeftShiftBlock (inp out : List Nat) : Option (List Nat) :=
  (forDown (fun i oc =>
    (rd inp i).bind fun x =>
    (wr oc.1 i (((x <<< 1) ||| oc.2) % 256)).bind fun out =>
    some (out, if x &&& 0x80 ≠ 0 then 1 else 0)) 16 (out, 0)).bind fun oc =>
  some oc.1

/-- XorBlocks: XORs two 16-byte blocks (`out = a xor b`).  When the caller passes the same
array for `a` and `out`, the read of `a[i]` comes before any write to that element. -/
def XorBlocks (a b out : List Nat) : Option (List Nat) :=
  forLoop (fun i out =>
    (rd a i).bind fun x =>
    (rd b i).bind fun y =>
    wr out i (x ^^^ y)) 16 0 out

/-- One subkey step of `GenerateSubkeys`: `LeftShiftBlock(B, tmp); if (B[0] & 0x80)
tmp[15] ^= 0x87;`, returning `tmp`. -/
def GenerateSubkeys_step (B tmp : List Nat) : Option (List Nat) :=
  (LeftShiftBlock B tmp).bind fun tmp =>
  (rd B 0).bind fun b0 =>
  if b0 &&& 0x80 ≠ 0 then (rd tmp 15).bind fun t => wr tmp 15 ((t ^^^ 0x87) % 256)
  else some tmp

/-- GenerateSubkeys: the subkey generation (Section 6.1 of NIST SP 800-38B); returns
`(K1, K2)`. -/
def GenerateSubkeys (key K1 K2 : List Nat) : Option (List Nat × List Nat) :=
  (KeyExpansion key (List.replicate 176 0)).bind fun roundKeys =>
  -- Step 1: L = CIPHK(0^128)
  (AES_Encrypt_Block block16 block16 roundKeys).bind fun L =>
  -- Step 2
  (GenerateSubkeys_step L block16).bind fun tmp =>
  (memcpy K1 tmp 16).bind fun K1 =>
  -- Step 3
  (GenerateSubkeys_step K1 tmp).bind fun tmp =>
  (memcpy K2 tmp 16).bind fun K2 =>
  some (K1, K2)

/-- Step 2 of `CMAC`: the pair `(n, complete)`. -/
def CMAC_blocks (messageLen : Nat) : Nat × Bool :=
  let n := (messageLen + 15) % SIZE_MOD / 16
  if messageLen = 0 then (1, false) else (n, decide (messageLen % 16 = 0))

/-- Step 3 of `CMAC`: the last block `M_last`. -/
def CMAC_M_last (message : List Nat) (messageLen : Nat) (K1 K2 : List Nat) :
    Option (List Nat) :=
  let n := (CMAC_blocks messageLen).1
  let complete := (CMAC_blocks messageLen).2
  let M_last := block16
  if complete then
    (memcpy M_last (message.drop ((n + SIZE_MOD - 1) % SIZE_MOD * 16 % SIZE_MOD)) 16).bind
      fun M_last =>
    XorBlocks M_last K1 M_last
  else
    let rem := messageLen % 16
    (memset M_last 0 16).bind fun M_last =>
    (if rem > 0 then
        memcpy M_last (message.drop ((n + SIZE_MOD - 1) % SIZE_MOD * 16 % SIZE_MOD)) rem
      else some M_last).bind fun M_last =>
    (wr M_last rem 0x80).bind fun M_last =>
    XorBlocks M_last K2 M_last

/-- Step 5 of `CMAC`: the loop over the first `n - 1` blocks, on the state
`(X, Y, block)`. -/
def CMAC_loop (message : List Nat) (n : Nat) (roundKeys : List Nat)
    (st : List Nat × List Nat × List Nat) : Option (List Nat × List Nat × List Nat) :=
  forLoop (fun i st =>
    (memcpy st.2.2 (message.drop (i * 16 % SIZE_MOD)) 16).bind fun block =>
    (XorBlocks st.1 block st.2.1).bind fun Y =>
    (AES_Encrypt_Block Y st.1 roundKeys).bind fun X =>
    some (X, Y, block)) ((n + SIZE_MOD - 1) % SIZE_MOD) 0 st

/-- Step 7 of `CMAC`: truncation of `mac` to `Tlen` bits. -/
def CMAC_truncate (Tlen : Int) (mac : List Nat) : Option (List Nat) :=
  let fullBytes := Tlen.tdiv 8
  let remBits := Tlen.tmod 8
  if Tlen < 128 then
    (forLoopI (fun i mac => wrI mac i 0) (16 - fullBytes).toNat fullBytes mac).bind fun mac =>
    if remBits ≠ 0 ∧ fullBytes < 16 then
      (rdI mac fullBytes).bind fun m =>
      wrI mac fullBytes ((m &&& (0xFF <<< (8 - remBits).toNat)) % 256)
    else some mac
  else some mac

/-- CMAC: computes the CMAC of `message` (of `messageLen` bytes) using `key`; `Tlen` is
the output length in bits; the tag is written into `mac`. -/
def CMAC (key message : List Nat) (messageLen : Nat) (Tlen : Int) (mac : List Nat) :
    Option (List Nat) :=
  -- 1. Generate subkeys K1 and K2.
  (GenerateSubkeys key block16 block16).bind fun K =>
  -- 2., 3. Prepare the last block.
  (CMAC_M_last message messageLen K.1 K.2).bind fun M_last =>
  -- Precompute round keys for AES.
  (KeyExpansion key (List.replicate 176 0)).bind fun roundKeys =>
  -- 4., 5.
  (CMAC_loop message (CMAC_blocks messageLen).1 roundKeys (block16, block16, block16)).bind
    fun st =>
  -- 6. Process the last block.
  (XorBlocks st.1 M_last st.2.1).bind fun Y =>
  (AES_Encrypt_Block Y st.1 roundKeys).bind fun X =>
  (memcpy mac X 16).bind fun mac =>
  -- 7.
  CMAC_truncate Tlen mac

/-! ## Subkeys and message formatting: the words of the specification -/

/-- A block read as a big-endian unsigned integer (byte 0 most significant). -/
def blockVal (B : List Nat) : Nat := B.foldl (fun v b => v * 256 + b) 0

/-- The 16-byte big-endian block of an integer below `2 ^ 128`. -/
def valBlock (v : Nat) : List Nat := (List.range 16).map fun i => v / 256 ^ (15 - i) % 256

/-- The 128-bit left shift of a block by one bit (the bit shifted out is dropped). -/
def shiftLeft128 (B : List Nat) : List Nat := valBlock (blockVal B * 2 % 2 ^ 128)

/-- The doubling of a block: the 128-bit left shift by one bit, whose last byte is XORed
with `0x87` exactly when the most-significant bit of the block (bit 7 of byte 0) is set. -/
def dbl (B : List Nat) : List Nat :=
  if (byteAt B 0).testBit 7 then
    (shiftLeft128 B).set 15 (byteAt (shiftLeft128 B) 15 ^^^ 0x87)
  else shiftLeft128 B

/-- The XOR of two blocks, byte by byte. -/
def xorBlock (a b : List Nat) : List Nat := List.zipWith (· ^^^ ·) a b

/-- The padded last block of a message whose length is 0 or not a multiple of 16: the
final `len mod 16` message bytes, then the byte `0x80`, then zero bytes up to 16. -/
def padBlock (message : List Nat) : List Nat :=
  message.drop (message.length - message.length % 16) ++
    0x80 :: List.replicate (15 - message.length % 16) 0

/-- The chaining values over the leading blocks of a message, each block taken verbatim:
`X_0` is the zero block and `X_(i+1) = AES_Encrypt_Block(X_i XOR M_(i+1))`. -/
def chainX (roundKeys message : List Nat) : Nat → List Nat
  | 0 => block16
  | i + 1 =>
    (AES_Encrypt_Block
      (xorBlock (chainX roundKeys message i) ((message.drop (16 * i)).take 16))
      block16 roundKeys).getD []

/-- The number of blocks of a message of `len` bytes: `ceil(len / 16)`, and 1 for the empty
message. -/
def blockCount (len : Nat) : Nat := if len = 0 then 1 else (len + 15) / 16

/-! ## Test data of `main` -/

/-- The array `key3` of `main`: 2b7e151628aed2a6abf7158809cf4f3c. -/
def key3 : List Nat :=
  [0x2b,0x7e,0x15,0x16,0x28,0xae,0xd2,0xa6,0xab,0xf7,0x15,0x88,0x09,0xcf,0x4f,0x3c]

/-- The array `Message2` of `main` (64 bytes). -/
def Message2 : List Nat :=
  [0x6b,0xc1,0xbe,0xe2,0x2e,0x40,0x9f,0x96,0xe9,0x3d,0x7e,0x11,0x73,0x93,0x17,0x2a,
   0xae,0x2d,0x8a,0x57,0x1e,0x03,0xac,0x9c,0x9e,0xb7,0x6f,0xac,0x45,0xaf,0x8e,0x51,
   0x30,0xc8,0x1c,0x46,0xa3,0x5c,0xe4,0x11,0xe5,0xfb,0xc1,0x19,0x1a,0x0a,0x52,0xef,
   0xf6,0x9f,0x24,0x45,0xdf,0x4f,0x9b,0x17,0xad,0x2b,0x41,0x7b,0xe6,0x6c,0x37,0x10]

/-- The round keys of `key3`: the eleven 16-byte round keys, in order. -/
def rk3 : List Nat :=
  [0x2b,0x7e,0x15,0x16,0x28,0xae,0xd2,0xa6,0xab,0xf7,0x15,0x88,0x09,0xcf,0x4f,0x3c,
   0xa0,0xfa,0xfe,0x17,0x88,0x54,0x2c,0xb1,0x23,0xa3,0x39,0x39,0x2a,0x6c,0x76,0x05,
   0xf2,0xc2,0x95,0xf2,0x7a,0x96,0xb9,0x43,0x59,0x35,0x80,0x7a,0x73,0x59,0xf6,0x7f,
   0x3d,0x80,0x47,0x7d,0x47,0x16,0xfe,0x3e,0x1e,0x23,0x7e,0x44,0x6d,0x7a,0x88,0x3b,
   0xef,0x44,0xa5,0x41,0xa8,0x52,0x5b,0x7f,0xb6,0x71,0x25,0x3b,0xdb,0x0b,0xad,0x00,
   0xd4,0xd1,0xc6,0xf8,0x7c,0x83,0x9d,0x87,0xca,0xf2,0xb8,0xbc,0x11,0xf9,0x15,0xbc,
   0x6d,0x88,0xa3,0x7a,0x11,0x0b,0x3e,0xfd,0xdb,0xf9,0x86,0x41,0xca,0x00,0x93,0xfd,
   0x4e,0x54,0xf7,0x0e,0x5f,0x5f,0xc9,0xf3,0x84,0xa6,0x4f,0xb2,0x4e,0xa6,0xdc,0x4f,
   0xea,0xd2,0x73,0x21,0xb5,0x8d,0xba,0xd2,0x31,0x2b,0xf5,0x60,0x7f,0x8d,0x29,0x2f,
   0xac,0x77,0x66,0xf3,0x19,0xfa,0xdc,0x21,0x28,0xd1,0x29,0x41,0x57,0x5c,0x00,0x6e,
   0xd0,0x14,0xf9,0xa8,0xc9,0xee,0x25,0x89,0xe1,0x3f,0x0c,0xc8,0xb6,0x63,0x0c,0xa6]

/-! ## Truncation, the field GF(2^8) and the S-box: the words of the specification -/

/-- Bit `p` of a tag, bit 0 being the most-significant bit of byte 0. -/
def bitAt (tag : List Nat) (p : Nat) : Bool := (byteAt tag (p / 8)).testBit (7 - p % 8)

/-- The product of two polynomials over GF(2), each given by its bits (carry-less
multiplication by a polynomial of degree below 8). -/
def clmul (a b : Nat) : Nat :=
  (List.range 8).foldl (fun acc i => if b.testBit i then acc ^^^ (a <<< i) else acc) 0

/-- The remainder of a polynomial of degree at most 14 modulo `x^8 + x^4 + x^3 + x + 1`
(`0x11b`): the terms of degree 14 down to 8 are cancelled in turn. -/
def gfReduce (p : Nat) : Nat :=
  [14, 13, 12, 11, 10, 9, 8].foldl
    (fun q i => if q.testBit i then q ^^^ (0x11b <<< (i - 8)) else q) p

/-- The product in GF(2^8) = GF(2)[x] / (x^8 + x^4 + x^3 + x + 1). -/
def gfMul (a b : Nat) : Nat := gfReduce (clmul a b)

/-- The power `b^254` in GF(2^8), which is the multiplicative inverse of `b` when `b` is
not 0, and 0 when `b` is 0. -/
def gfInv (b : Nat) : Nat :=
  let b2 := gfMul b b
  let b3 := gfMul b2 b
  let b6 := gfMul b3 b3
  let b7 := gfMul b6 b
  let b14 := gfMul b7 b7
  let b15 := gfMul b14 b
  let b30 := gfMul b15 b15
  let b31 := gfMul b30 b
  let b62 := gfMul b31 b31
  let b63 := gfMul b62 b
  let b126 := gfMul b63 b63
  let b127 := gfMul b126 b
  gfMul b127 b127

/-- A byte rotated left by `k` bits. -/
def rotl8 (y k : Nat) : Nat := ((y <<< k) ||| (y >>> (8 - k))) % 256

/-- The affine map of the FIPS-197 S-box. -/
def sboxAffine (y : Nat) : Nat :=
  y ^^^ rotl8 y 1 ^^^ rotl8 y 2 ^^^ rotl8 y 3 ^^^ rotl8 y 4 ^^^ 0x63

/-- The fixed circulant matrix of MixColumns. -/
def mixMatrix : List (List Nat) := [[2, 3, 1, 1], [1, 2, 3, 1], [1, 1, 2, 3], [3, 1, 1, 2]]

/-- The entry in row `r`, column `j` of the MixColumns matrix. -/
def mixEntry (r j : Nat) : Nat := (mixMatrix.getD r []).getD j 0

/-- Row `r` of the product of the MixColumns matrix with the column `(a0, a1, a2, a3)`
over GF(2^8). -/
def mixProduct (r a0 a1 a2 a3 : Nat) : Nat :=
  gfMul (mixEntry r 0) a0 ^^^ gfMul (mixEntry r 1) a1 ^^^ gfMul (mixEntry r 2) a2 ^^^
    gfMul (mixEntry r 3) a3

/-! ## MixColumns, one byte at a time -/

/-- The byte that `MixColumns` writes into row `r` of a column `(a0, a1, a2, a3)`: the
expressions `r0 .. r3` of the source. -/
def mixRow (r a0 a1 a2 a3 : Nat) : Nat :=
  match r with
  | 0 => (xtime a0 ^^^ (a1 ^^^ xtime a1) ^^^ a2 ^^^ a3) % 256
  | 1 => (a0 ^^^ xtime a1 ^^^ (a2 ^^^ xtime a2) ^^^ a3) % 256
  | 2 => (a0 ^^^ a1 ^^^ xtime a2 ^^^ (a3 ^^^ xtime a3)) % 256
  | _ => ((a0 ^^^ xtime a0) ^^^ a1 ^^^ a2 ^^^ xtime a3) % 256

/-! ## KeyExpansion with the round-constant table as a parameter -/

/-- The definition `KeyExpansion_core` with the table in the place of `Rcon`. -/
def KeyExpansion_core_tbl (tbl temp : List Nat) (rconIteration : Nat) : Option (List Nat) :=
  (rd temp 0).bind fun t =>
  ((rd temp 1).bind (wr temp 0)).bind fun temp =>
  ((rd temp 2).bind (wr temp 1)).bind fun temp =>
  ((rd temp 3).bind (wr temp 2)).bind fun temp =>
  (wr temp 3 t).bind fun temp =>
  (forLoop (fun i temp => ((rd temp i).bind (rd sbox)).bind (wr temp i)) 4 0 temp).bind
    fun temp =>
  (rd temp 0).bind fun t0 =>
  (rd tbl rconIteration).bind fun rc =>
  wr temp 0 (t0 ^^^ rc)

/-- The array `Message1` of `main` (16 bytes). -/
def Message1 : List Nat :=
  [0x6b,0xc1,0xbe,0xe2,0x2e,0x40,0x9f,0x96,0xe9,0x3d,0x7e,0x11,0x73,0x93,0x17,0x2a]

/-! ## Injectivity of the steps of the cipher -/

/-- A step that maps every 16-byte block of bytes to a 16-byte block of bytes (it never
fails on one) and never maps two different blocks to the same result. -/
def BlockInj (f : List Nat → Option (List Nat)) : Prop :=
  (∀ a, Block a → ∃ x, f a = some x ∧ Block x) ∧
  ∀ a b, Block a → Block b → f a = f b → a = b

/-- The column that `MixColumns` writes in the place of the column `(a0, a1, a2, a3)`. -/
def mixCol (v : Nat × Nat × Nat × Nat) : Nat × Nat × Nat × Nat :=
  (mixRow 0 v.1 v.2.1 v.2.2.1 v.2.2.2, mixRow 1 v.1 v.2.1 v.2.2.1 v.2.2.2,
    mixRow 2 v.1 v.2.1 v.2.2.1 v.2.2.2, mixRow 3 v.1 v.2.1 v.2.2.1 v.2.2.2)

/-- The column of `MixColumns` with a map `T` in the place of `xtime` and without the
narrowing to a byte. -/
def mixLin (T : Nat → Nat) (v : Nat × Nat × Nat × Nat) : Nat × Nat × Nat × Nat :=
  (T v.1 ^^^ (v.2.1 ^^^ T v.2.1) ^^^ v.2.2.1 ^^^ v.2.2.2,
    v.1 ^^^ T v.2.1 ^^^ (v.2.2.1 ^^^ T v.2.2.1) ^^^ v.2.2.2,
    v.1 ^^^ v.2.1 ^^^ T v.2.2.1 ^^^ (v.2.2.2 ^^^ T v.2.2.2),
    (v.1 ^^^ T v.1) ^^^ v.2.1 ^^^ v.2.2.1 ^^^ T v.2.2.2)

/-! ## Checked memory: basic facts -/

theorem byteAt_eq_getElem {a : List Nat} {i : Nat} (h : i < a.length) : byteAt a i = a[i] := by
  simp [byteAt, List.getElem?_eq_getElem h]

theorem byteAt_of_le {a : List Nat} {i : Nat} (h : a.length ≤ i) : byteAt a i = 0 := by
  simp [byteAt, List.getElem?_eq_none h]

theorem rd_of_lt {a : List Nat} {i : Nat} (h : i < a.length) : rd a i = some (byteAt a i) := by
  simp [rd, byteAt, List.getElem?_eq_getElem h]

theorem wr_of_lt {a : List Nat} {i : Nat} (v : Nat) (h : i < a.length) :
    wr a i v = some (a.set i v) := by
  simp [wr, h]

theorem byteAt_set {a : List Nat} {i : Nat} (k v : Nat) (h : i < a.length) :
    byteAt (a.set i v) k = if k = i then v else byteAt a k := by
  unfold byteAt
  by_cases hk : k = i
  · subst hk; simp [List.getElem?_set, h]
  · have : i ≠ k := fun e => hk e.symm
    simp [List.getElem?_set, hk, this]

theorem IsBytes.byteAt {a : List Nat} (h : IsBytes a) (i : Nat) : byteAt a i < 256 := by
  by_cases hi : i < a.length
  · rw [byteAt_eq_getElem hi]; exact h _ (List.getElem_mem hi)
  · rw [byteAt_of_le (Nat.le_of_not_lt hi)]; decide

theorem IsBytes.set {a : List Nat} (h : IsBytes a) (i : Nat) {v : Nat} (hv : v < 256) :
    IsBytes (a.set i v) := by
  intro b hb
  rcases List.mem_or_eq_of_mem_set hb with hb | hb
  · exact h b hb
  · rw [hb]; exact hv

theorem isBytes_of_byteAt {a : List Nat} (h : ∀ i, i < a.length → byteAt a i < 256) :
    IsBytes a := by
  intro b hb
  obtain ⟨i, hi, rfl⟩ := List.getElem_of_mem hb
  have := h i hi
  rwa [byteAt_eq_getElem hi] at this

theorem list_eq_of_byteAt {a b : List Nat} (hl : a.length = b.length)
    (h : ∀ i, i < a.length → byteAt a i = byteAt b i) : a = b := by
  apply List.ext_getElem hl
  intro i h1 h2
  have := h i h1
  rwa [byteAt_eq_getElem h1, byteAt_eq_getElem h2] at this

theorem isBytes_replicate_zero (n : Nat) : IsBytes (List.replicate n 0) := by
  intro b hb
  rw [List.eq_of_mem_replicate hb]; decide

theorem block16_length : block16.length = 16 := by simp [block16]

theorem isBytes_block16 : IsBytes block16 := isBytes_replicate_zero 16

theorem xor_lt_256 {a b : Nat} (ha : a < 256) (hb : b < 256) : a ^^^ b < 256 := by
  have := @Nat.xor_lt_two_pow a b 8 ha hb
  simpa using this

/-! ## Loops: unfolding and the invariant rules -/

theorem forLoop_zero {σ : Type} (body : Nat → σ → Option σ) (i : Nat) (s : σ) :
    forLoop body 0 i s = some s := by rw [forLoop]

theorem forLoop_succ {σ : Type} (body : Nat → σ → Option σ) (n i : Nat) (s : σ) :
    forLoop body (n + 1) i s = (body i s).bind (forLoop body n (i + 1)) := by rw [forLoop]

theorem forDown_zero {σ : Type} (body : Nat → σ → Option σ) (s : σ) :
    forDown body 0 s = some s := by rw [forDown]

theorem forDown_succ {σ : Type} (body : Nat → σ → Option σ) (n : Nat) (s : σ) :
    forDown body (n + 1) s = (body n s).bind (forDown body n) := by rw [forDown]

/-- Invariant rule for `forLoop`: an invariant that holds at the start and is carried by
every pass (which must succeed) holds at the end, and the loop succeeds. -/
theorem forLoop_inv {σ : Type} (body : Nat → σ → Option σ) (P : Nat → σ → Prop) :
    ∀ (n i : Nat) (s : σ), P i s →
      (∀ j t, i ≤ j → j < i + n → P j t → ∃ t', body j t = some t' ∧ P (j + 1) t') →
      ∃ s', forLoop body n i s = some s' ∧ P (i + n) s' := by
  intro n
  induction n with
  | zero => intro i s h _; exact ⟨s, forLoop_zero body i s, h⟩
  | succ n ih =>
    intro i s h hstep
    obtain ⟨t, ht, hP⟩ := hstep i s (Nat.le_refl i) (by omega) h
    obtain ⟨s', hs', hP'⟩ :=
      ih (i + 1) t hP (fun j u hj hj' hu => hstep j u (by omega) (by omega) hu)
    refine ⟨s', ?_, ?_⟩
    · rw [forLoop_succ, ht, Option.some_bind, hs']
    · have : i + (n + 1) = i + 1 + n := by omega
      rw [this]; exact hP'

/-- Invariant rule for `forDown`. -/
theorem forDown_inv {σ : Type} (body : Nat → σ → Option σ) (P : Nat → σ → Prop) :
    ∀ (n : Nat) (s : σ), P n s →
      (∀ j t, j < n → P (j + 1) t → ∃ t', body j t = some t' ∧ P j t') →
      ∃ s', forDown body n s = some s' ∧ P 0 s' := by
  intro n
  induction n with
  | zero => intro s h _; exact ⟨s, forDown_zero body s, h⟩
  | succ n ih =>
    intro s h hstep
    obtain ⟨t, ht, hP⟩ := hstep n s (by omega) h
    obtain ⟨s', hs', hP'⟩ := ih t hP (fun j u hj hu => hstep j u (by omega) hu)
    exact ⟨s', by rw [forDown_succ, ht, Option.some_bind, hs'], hP'⟩

/-! ## XorBlocks -/

/-- `XorBlocks` computes the XOR of two blocks, byte by byte, whatever `out` held. -/
theorem XorBlocks_eq (a b out : List Nat) (ha : a.length = 16) (hb : b.length = 16)
    (ho : out.length = 16) : XorBlocks a b out = some (xorBlock a b) := by
  obtain ⟨r, hr, hlen, hP⟩ := forLoop_inv
    (fun i out => (rd a i).bind fun x => (rd b i).bind fun y => wr out i (x ^^^ y))
    (fun j out => out.length = 16 ∧ ∀ k, k < j → byteAt out k = byteAt a k ^^^ byteAt b k)
    16 0 out ⟨ho, fun k hk => absurd hk (Nat.not_lt_zero k)⟩
    (by
      intro j t _ hj ⟨hl, ht⟩
      have hja : j < a.length := by omega
      have hjb : j < b.length := by omega
      have hjt : j < t.length := by omega
      refine ⟨t.set j (byteAt a j ^^^ byteAt b j), ?_, ?_, ?_⟩
      · simp [rd_of_lt hja, rd_of_lt hjb, wr_of_lt _ hjt]
      · simp [hl]
      · intro k hk
        rw [byteAt_set k _ hjt]
        split
        · next h => rw [h]
        · next h => exact ht k (by omega))
  unfold XorBlocks xorBlock
  rw [hr]
  congr 1
  apply list_eq_of_byteAt
  · simp [hlen, ha, hb]
  · intro i hi
    have hi16 : i < 16 := by omega
    rw [hP i (by omega)]
    have h1 : i < (List.zipWith (· ^^^ ·) a b).length := by simp [ha, hb]; exact hi16
    rw [byteAt_eq_getElem h1, List.getElem_zipWith, byteAt_eq_getElem (by omega),
      byteAt_eq_getElem (by omega)]

theorem xorBlock_length (a b : List Nat) (ha : a.length = 16) (hb : b.length = 16) :
    (xorBlock a b).length = 16 := by simp [xorBlock, ha, hb]

theorem xorBlock_isBytes (a b : List Nat) (ha : IsBytes a) (hb : IsBytes b) :
    IsBytes (xorBlock a b) := by
  unfold xorBlock
  apply isBytes_of_byteAt
  intro i hi
  have h1 : i < a.length := by simp at hi; omega
  have h2 : i < b.length := by simp at hi; omega
  rw [byteAt_eq_getElem hi, List.getElem_zipWith]
  exact xor_lt_256 (ha _ (List.getElem_mem h1)) (hb _ (List.getElem_mem h2))

theorem xorBlock_block (a b : List Nat) (ha : Block a) (hb : Block b) : Block (xorBlock a b) :=
  ⟨xorBlock_length a b ha.1 hb.1, xorBlock_isBytes a b ha.2 hb.2⟩

/-! ## AES-128: every step succeeds on a well-formed state -/

theorem sbox_length : sbox.length = 256 := by decide!

theorem sbox_lt : ∀ x, x < 256 → byteAt sbox x < 256 := by decide!

theorem Rcon_length : Rcon.length = 11 := by decide

theorem Rcon_lt : ∀ x, x < 11 → byteAt Rcon x < 256 := by decide

theorem xtime_lt (x : Nat) : xtime x < 256 := Nat.mod_lt _ (by decide)

theorem isBytes_drop {a : List Nat} (h : IsBytes a) (n : Nat) : IsBytes (a.drop n) :=
  fun b hb => h b (List.mem_of_mem_drop hb)

theorem isBytes_take {a : List Nat} (h : IsBytes a) (n : Nat) : IsBytes (a.take n) :=
  fun b hb => h b (List.mem_of_mem_take hb)

theorem isBytes_append {a b : List Nat} (ha : IsBytes a) (hb : IsBytes b) : IsBytes (a ++ b) := by
  intro x hx
  rcases List.mem_append.mp hx with h | h
  · exact ha x h
  · exact hb x h

/-- Rule for a loop whose invariant does not depend on the counter. -/
theorem forLoop_keeps {σ : Type} (body : Nat → σ → Option σ) (I : σ → Prop)
    (n i : Nat) (s : σ) (h : I s)
    (hstep : ∀ j t, i ≤ j → j < i + n → I t → ∃ t', body j t = some t' ∧ I t') :
    ∃ s', forLoop body n i s = some s' ∧ I s' :=
  forLoop_inv body (fun _ t => I t) n i s h hstep

theorem SubBytes_ok (st : List Nat) (h : Block st) : ∃ st', SubBytes st = some st' ∧ Block st' := by
  unfold SubBytes
  apply forLoop_keeps _ Block 4 0 st h
  intro r t _ hr ht
  apply forLoop_keeps _ Block 4 0 t ht
  intro c u _ hc ⟨hl, hb⟩
  have hi : r * 4 + c < u.length := by omega
  have hx : byteAt u (r * 4 + c) < sbox.length := by rw [sbox_length]; exact hb.byteAt _
  refine ⟨u.set (r * 4 + c) (byteAt sbox (byteAt u (r * 4 + c))), ?_, by simp [hl],
    hb.set _ (sbox_lt _ (hb.byteAt _))⟩
  rw [rd_of_lt hi, Option.some_bind, rd_of_lt hx, Option.some_bind, wr_of_lt _ hi]

theorem AddRoundKey_ok (st rk : List Nat) (h : Block st) (hl : 16 ≤ rk.length)
    (hb : IsBytes rk) : ∃ st', AddRoundKey st rk = some st' ∧ Block st' := by
  unfold AddRoundKey
  apply forLoop_keeps _ Block 4 0 st h
  intro r t _ hr ht
  apply forLoop_keeps _ Block 4 0 t ht
  intro c u _ hc ⟨hul, hub⟩
  have hi : r * 4 + c < u.length := by omega
  have hk : c * 4 + r < rk.length := by omega
  refine ⟨u.set (r * 4 + c) (byteAt u (r * 4 + c) ^^^ byteAt rk (c * 4 + r)), ?_, by simp [hul],
    hub.set _ (xor_lt_256 (hub.byteAt _) (hb.byteAt _))⟩
  rw [rd_of_lt hi, Option.some_bind, rd_of_lt hk, Option.some_bind, wr_of_lt _ hi]

/-- Four reads followed by four writes of bytes into the same 16-byte array. -/
theorem row_ok (st : List Nat) (h : Block st) (i0 i1 i2 i3 j0 j1 j2 j3 : Nat)
    (hi0 : i0 < 16) (hi1 : i1 < 16) (hi2 : i2 < 16) (hi3 : i3 < 16)
    (hj0 : j0 < 16) (hj1 : j1 < 16) (hj2 : j2 < 16) (hj3 : j3 < 16)
    (f : Nat → Nat → Nat → Nat → Nat × Nat × Nat × Nat)
    (hf : ∀ a b c d, a < 256 → b < 256 → c < 256 → d < 256 →
      (f a b c d).1 < 256 ∧ (f a b c d).2.1 < 256 ∧ (f a b c d).2.2.1 < 256 ∧
      (f a b c d).2.2.2 < 256) :
    ∃ st', ((rd st i0).bind fun t0 => (rd st i1).bind fun t1 =>
      (rd st i2).bind fun t2 => (rd st i3).bind fun t3 =>
      (wr st j0 (f t0 t1 t2 t3).1).bind fun state =>
      (wr state j1 (f t0 t1 t2 t3).2.1).bind fun state =>
      (wr state j2 (f t0 t1 t2 t3).2.2.1).bind fun state =>
      wr state j3 (f t0 t1 t2 t3).2.2.2) = some st' ∧ Block st' := by
  obtain ⟨hl, hb⟩ := h
  obtain ⟨h0, h1, h2, h3⟩ := hf (byteAt st i0) (byteAt st i1) (byteAt st i2) (byteAt st i3)
    (hb.byteAt _) (hb.byteAt _) (hb.byteAt _) (hb.byteAt _)
  refine ⟨?w, ?h, ?b⟩
  case h =>
    rw [rd_of_lt (by omega), Option.some_bind, rd_of_lt (by omega), Option.some_bind,
      rd_of_lt (by omega), Option.some_bind, rd_of_lt (by omega), Option.some_bind,
      wr_of_lt _ (by omega), Option.some_bind, wr_of_lt _ (by simp; omega), Option.some_bind,
      wr_of_lt _ (by simp; omega), Option.some_bind, wr_of_lt _ (by simp; omega)]
    exact rfl
  case b =>
    exact ⟨by simp [hl], (((hb.set _ h0).set _ h1).set _ h2).set _ h3⟩

theorem ShiftRows_ok (st : List Nat) (h : Block st) :
    ∃ st', ShiftRows st = some st' ∧ Block st' := by
  obtain ⟨s1, h1, b1⟩ : ∃ st', ShiftRows_row1 st = some st' ∧ Block st' :=
    row_ok st h (1 * 4 + 0) (1 * 4 + 1) (1 * 4 + 2) (1 * 4 + 3) (1 * 4 + 0) (1 * 4 + 1)
      (1 * 4 + 2) (1 * 4 + 3) (by decide) (by decide) (by decide) (by decide) (by decide)
      (by decide) (by decide) (by decide) (fun t0 t1 t2 t3 => (t1, t2, t3, t0))
      (fun _ _ _ _ ha hb hc hd => ⟨hb, hc, hd, ha⟩)
  obtain ⟨s2, h2, b2⟩ : ∃ st', ShiftRows_row2 s1 = some st' ∧ Block st' :=
    row_ok s1 b1 (2 * 4 + 0) (2 * 4 + 1) (2 * 4 + 2) (2 * 4 + 3) (2 * 4 + 0) (2 * 4 + 1)
      (2 * 4 + 2) (2 * 4 + 3) (by decide) (by decide) (by decide) (by decide) (by decide)
      (by decide) (by decide) (by decide) (fun t0 t1 t2 t3 => (t2, t3, t0, t1))
      (fun _ _ _ _ ha hb hc hd => ⟨hc, hd, ha, hb⟩)
  obtain ⟨s3, h3, b3⟩ : ∃ st', ShiftRows_row3 s2 = some st' ∧ Block st' :=
    row_ok s2 b2 (3 * 4 + 0) (3 * 4 + 1) (3 * 4 + 2) (3 * 4 + 3) (3 * 4 + 0) (3 * 4 + 1)
      (3 * 4 + 2) (3 * 4 + 3) (by decide) (by decide) (by decide) (by decide) (by decide)
      (by decide) (by decide) (by decide) (fun t0 t1 t2 t3 => (t3, t0, t1, t2))
      (fun _ _ _ _ ha hb hc hd => ⟨hd, ha, hb, hc⟩)
  exact ⟨s3, by unfold ShiftRows; rw [h1, Option.some_bind, h2, Option.some_bind, h3], b3⟩

theorem MixColumns_ok (st : List Nat) (h : Block st) :
    ∃ st', MixColumns st = some st' ∧ Block st' := by
  unfold MixColumns
  apply forLoop_keeps _ Block 4 0 st h
  intro c u _ hc hu
  exact row_ok u hu (0 * 4 + c) (1 * 4 + c) (2 * 4 + c) (3 * 4 + c) (0 * 4 + c) (1 * 4 + c)
    (2 * 4 + c) (3 * 4 + c) (by omega) (by omega) (by omega) (by omega) (by omega) (by omega)
    (by omega) (by omega)
    (fun a0 a1 a2 a3 => ((xtime a0 ^^^ (a1 ^^^ xtime a1) ^^^ a2 ^^^ a3) % 256,
      (a0 ^^^ xtime a1 ^^^ (a2 ^^^ xtime a2) ^^^ a3) % 256,
      (a0 ^^^ a1 ^^^ xtime a2 ^^^ (a3 ^^^ xtime a3)) % 256,
      ((a0 ^^^ xtime a0) ^^^ a1 ^^^ a2 ^^^ xtime a3) % 256))
    (fun _ _ _ _ _ _ _ _ => ⟨Nat.mod_lt _ (by decide), Nat.mod_lt _ (by decide),
      Nat.mod_lt _ (by decide), Nat.mod_lt _ (by decide)⟩)

theorem block16_block : Block block16 := ⟨block16_length, isBytes_block16⟩

theorem AES_load_ok (inp : List Nat) (h : Block inp) :
    ∃ st, AES_load inp = some st ∧ Block st := by
  unfold AES_load
  apply forLoop_keeps _ Block 4 0 block16 block16_block
  intro c t _ hc ht
  apply forLoop_keeps _ Block 4 0 t ht
  intro r u _ hr ⟨hul, hub⟩
  have hi : c * 4 + r < inp.length := by have := h.1; omega
  have hj : r * 4 + c < u.length := by omega
  refine ⟨u.set (r * 4 + c) (byteAt inp (c * 4 + r)), ?_, by simp [hul],
    hub.set _ (h.2.byteAt _)⟩
  rw [rd_of_lt hi, Option.some_bind, wr_of_lt _ hj]

theorem storeImage_length (state : List Nat) : (storeImage state).length = 16 := by
  simp [storeImage]

theorem byteAt_storeImage (state : List Nat) (k : Nat) (hk : k < 16) :
    byteAt (storeImage state) k = byteAt state (k % 4 * 4 + k / 4) := by
  rw [byteAt_eq_getElem (by rw [storeImage_length]; exact hk)]
  simp [storeImage]

theorem storeImage_block (state : List Nat) (h : IsBytes state) : Block (storeImage state) := by
  refine ⟨storeImage_length state, isBytes_of_byteAt ?_⟩
  intro i hi
  rw [storeImage_length] at hi
  rw [byteAt_storeImage state i hi]
  exact h.byteAt _

theorem AES_store_eq (state out : List Nat) (hs : state.length = 16) (ho : out.length = 16) :
    AES_store state out = some (storeImage state) := by
  obtain ⟨r, hr, hlen, hP⟩ := forLoop_inv
    (fun c out =>
      forLoop (fun r out => (rd state (r * 4 + c)).bind (wr out (c * 4 + r))) 4 0 out)
    (fun c out => out.length = 16 ∧
      ∀ k, k < c * 4 → byteAt out k = byteAt state (k % 4 * 4 + k / 4))
    4 0 out ⟨ho, fun k hk => absurd hk (by omega)⟩
    (by
      intro c t _ hc ⟨hl, ht⟩
      obtain ⟨u, hu, hul, huP⟩ := forLoop_inv
        (fun r out => (rd state (r * 4 + c)).bind (wr out (c * 4 + r)))
        (fun r out => out.length = 16 ∧
          ∀ k, k < c * 4 + r → byteAt out k = byteAt state (k % 4 * 4 + k / 4))
        4 0 t ⟨hl, fun k hk => ht k (by omega)⟩
        (by
          intro r v _ hr ⟨hvl, hv⟩
          have hi : r * 4 + c < state.length := by omega
          have hj : c * 4 + r < v.length := by omega
          refine ⟨v.set (c * 4 + r) (byteAt state (r * 4 + c)), ?_, by simp [hvl], ?_⟩
          · beta_reduce
            rw [rd_of_lt hi, Option.some_bind, wr_of_lt _ hj]
          · intro k hk
            rw [byteAt_set k _ hj]
            split
            · next h =>
              have : k % 4 * 4 + k / 4 = r * 4 + c := by omega
              rw [this]
            · next h => exact hv k (by omega))
      exact ⟨u, hu, hul, fun k hk => huP k (by omega)⟩)
  unfold AES_store
  rw [hr]
  congr 1
  apply list_eq_of_byteAt
  · rw [hlen, storeImage_length]
  · intro i hi
    rw [hP i (by omega), byteAt_storeImage state i (by omega)]

theorem AES_round_ok (rk : List Nat) (hrk : rk.length = 176) (hb : IsBytes rk)
    (round : Nat) (hr : round ≤ 10) (st : List Nat) (h : Block st) :
    ∃ st', AES_round rk round st = some st' ∧ Block st' := by
  obtain ⟨s1, h1, b1⟩ := SubBytes_ok st h
  obtain ⟨s2, h2, b2⟩ := ShiftRows_ok s1 b1
  obtain ⟨s3, h3, b3⟩ := MixColumns_ok s2 b2
  obtain ⟨s4, h4, b4⟩ := AddRoundKey_ok s3 (rk.drop (round * 16)) b3
    (by rw [List.length_drop]; omega) (isBytes_drop hb _)
  exact ⟨s4, by unfold AES_round; rw [h1, Option.some_bind, h2, Option.some_bind, h3,
    Option.some_bind, h4], b4⟩

/-- `AES_Encrypt_Block` succeeds on a block of bytes under a 176-byte schedule, the result
is a block of bytes, and it does not depend on what `out` held before. -/
theorem AES_Encrypt_Block_ok (inp rk : List Nat) (h : Block inp) (hrk : rk.length = 176)
    (hb : IsBytes rk) :
    ∃ X, Block X ∧ ∀ out, out.length = 16 → AES_Encrypt_Block inp out rk = some X := by
  obtain ⟨s1, h1, b1⟩ := AES_load_ok inp h
  obtain ⟨s2, h2, b2⟩ := AddRoundKey_ok s1 rk b1 (by omega) hb
  obtain ⟨s3, h3, b3⟩ := forLoop_keeps (AES_round rk) Block 9 1 s2 b2
    (fun j t _ hj ht => AES_round_ok rk hrk hb j (by omega) t ht)
  obtain ⟨s4, h4, b4⟩ := SubBytes_ok s3 b3
  obtain ⟨s5, h5, b5⟩ := ShiftRows_ok s4 b4
  obtain ⟨s6, h6, b6⟩ := AddRoundKey_ok s5 (rk.drop (10 * 16)) b5
    (by rw [List.length_drop]; omega) (isBytes_drop hb _)
  refine ⟨storeImage s6, storeImage_block s6 b6.2, ?_⟩
  intro out ho
  unfold AES_Encrypt_Block
  rw [h1, Option.some_bind, h2, Option.some_bind, h3, Option.some_bind, h4, Option.some_bind,
    h5, Option.some_bind, h6, Option.some_bind, AES_store_eq s6 out b6.1 ho]

/-! ## KeyExpansion -/

theorem rd_cons_zero (x : Nat) (l : List Nat) : rd (x :: l) 0 = some x := by simp [rd]

theorem rd_cons_succ (x : Nat) (l : List Nat) (i : Nat) : rd (x :: l) (i + 1) = rd l i := by
  simp [rd]

theorem wr_cons_zero (x v : Nat) (l : List Nat) : wr (x :: l) 0 v = some (v :: l) := by
  simp [wr]

theorem wr_cons_succ (x v : Nat) (l : List Nat) (i : Nat) :
    wr (x :: l) (i + 1) v = (wr l i v).map (x :: ·) := by
  simp only [wr, List.length_cons, Nat.add_lt_add_iff_right, List.set_cons_succ]
  split <;> simp

theorem KeyExpansion_temp_eq (rk : List Nat) (bg : Nat) (h4 : 4 ≤ bg) (hl : bg ≤ rk.length) :
    KeyExpansion_temp rk bg =
      some [byteAt rk (bg - 4), byteAt rk (bg - 3), byteAt rk (bg - 2), byteAt rk (bg - 1)] := by
  have e1 : bg - 4 + 1 = bg - 3 := by omega
  have e2 : bg - 4 + 2 = bg - 2 := by omega
  have e3 : bg - 4 + 3 = bg - 1 := by omega
  have h0 : rd rk (bg - 4) = some (byteAt rk (bg - 4)) := rd_of_lt (by omega)
  have h1 : rd rk (bg - 3) = some (byteAt rk (bg - 3)) := rd_of_lt (by omega)
  have h2 : rd rk (bg - 2) = some (byteAt rk (bg - 2)) := rd_of_lt (by omega)
  have h3 : rd rk (bg - 1) = some (byteAt rk (bg - 1)) := rd_of_lt (by omega)
  simp [KeyExpansion_temp, forLoop_succ, forLoop_zero, e1, e2, e3, h0, h1, h2, h3,
    wr_cons_zero, wr_cons_succ]

theorem KeyExpansion_core_eq (t0 t1 t2 t3 rc : Nat) (h0 : t0 < 256) (h1 : t1 < 256)
    (h2 : t2 < 256) (h3 : t3 < 256) (hrc : rc < 11) :
    KeyExpansion_core [t0, t1, t2, t3] rc =
      some [byteAt sbox t1 ^^^ byteAt Rcon rc, byteAt sbox t2, byteAt sbox t3, byteAt sbox t0] := by
  have s0 : rd sbox t0 = some (byteAt sbox t0) := rd_of_lt (by rw [sbox_length]; exact h0)
  have s1 : rd sbox t1 = some (byteAt sbox t1) := rd_of_lt (by rw [sbox_length]; exact h1)
  have s2 : rd sbox t2 = some (byteAt sbox t2) := rd_of_lt (by rw [sbox_length]; exact h2)
  have s3 : rd sbox t3 = some (byteAt sbox t3) := rd_of_lt (by rw [sbox_length]; exact h3)
  have r : rd Rcon rc = some (byteAt Rcon rc) := rd_of_lt (by rw [Rcon_length]; exact hrc)
  simp [KeyExpansion_core, forLoop_succ, forLoop_zero, rd_cons_zero, rd_cons_succ,
    wr_cons_zero, wr_cons_succ, s0, s1, s2, s3, r]

theorem set4_length (rk : List Nat) (bg v0 v1 v2 v3 : Nat) :
    (set4 rk bg v0 v1 v2 v3).length = rk.length := by simp [set4]

theorem byteAt_set4 (rk : List Nat) (bg v0 v1 v2 v3 i : Nat) (h : bg + 4 ≤ rk.length) :
    byteAt (set4 rk bg v0 v1 v2 v3) i =
      if i = bg + 3 then v3 else if i = bg + 2 then v2 else if i = bg + 1 then v1
      else if i = bg then v0 else byteAt rk i := by
  unfold set4
  rw [byteAt_set _ _ (by simp; omega), byteAt_set _ _ (by simp; omega),
    byteAt_set _ _ (by simp; omega), byteAt_set _ _ (by omega)]

theorem byteAt_set4_lt (rk : List Nat) (bg v0 v1 v2 v3 i : Nat) (h : bg + 4 ≤ rk.length)
    (hi : i < bg) : byteAt (set4 rk bg v0 v1 v2 v3) i = byteAt rk i := by
  rw [byteAt_set4 _ _ _ _ _ _ _ h]
  simp [show i ≠ bg + 3 by omega, show i ≠ bg + 2 by omega, show i ≠ bg + 1 by omega,
    show i ≠ bg by omega]

theorem KeyExpansion_store_eq (rk : List Nat) (bg u0 u1 u2 u3 : Nat) (h16 : 16 ≤ bg)
    (hl : bg + 4 ≤ rk.length) :
    KeyExpansion_store [u0, u1, u2, u3] (rk, bg) =
      some (set4 rk bg (byteAt rk (bg - 16) ^^^ u0) (byteAt rk (bg - 15) ^^^ u1)
        (byteAt rk (bg - 14) ^^^ u2) (byteAt rk (bg - 13) ^^^ u3), bg + 4) := by
  unfold KeyExpansion_store set4
  rw [forLoop_succ]
  simp only [rd_of_lt (show bg - 16 < rk.length by omega), Option.some_bind, rd_cons_zero,
    wr_of_lt _ (show bg < rk.length by omega)]
  rw [forLoop_succ]
  have l1 : (rk.set bg (byteAt rk (bg - 16) ^^^ u0)).length = rk.length := by simp
  simp only [rd_of_lt (show bg + 1 - 16 < (rk.set bg (byteAt rk (bg - 16) ^^^ u0)).length by
      rw [l1]; omega), Option.some_bind, rd_cons_zero, rd_cons_succ,
    wr_of_lt _ (show bg + 1 < (rk.set bg (byteAt rk (bg - 16) ^^^ u0)).length by
      rw [l1]; omega)]
  rw [byteAt_set _ _ (by omega), if_neg (by omega), show bg + 1 - 16 = bg - 15 by omega]
  rw [forLoop_succ]
  generalize hA : (rk.set bg (byteAt rk (bg - 16) ^^^ u0)).set (bg + 1)
    (byteAt rk (bg - 15) ^^^ u1) = A
  have lA : A.length = rk.length := by rw [← hA]; simp
  have bA : byteAt A (bg - 14) = byteAt rk (bg - 14) ∧ byteAt A (bg - 13) = byteAt rk (bg - 13) := by
    rw [← hA]
    constructor
    · rw [byteAt_set _ _ (by simp; omega), if_neg (by omega), byteAt_set _ _ (by omega),
        if_neg (by omega)]
    · rw [byteAt_set _ _ (by simp; omega), if_neg (by omega), byteAt_set _ _ (by omega),
        if_neg (by omega)]
  simp only [rd_of_lt (show bg + 1 + 1 - 16 < A.length by rw [lA]; omega), Option.some_bind,
    rd_cons_zero, rd_cons_succ, wr_of_lt _ (show bg + 1 + 1 < A.length by rw [lA]; omega)]
  rw [show bg + 1 + 1 - 16 = bg - 14 by omega, bA.1, forLoop_succ]
  have lB : (A.set (bg + 1 + 1) (byteAt rk (bg - 14) ^^^ u2)).length = rk.length := by simp [lA]
  simp only [rd_of_lt (show bg + 1 + 1 + 1 - 16 <
      (A.set (bg + 1 + 1) (byteAt rk (bg - 14) ^^^ u2)).length by rw [lB]; omega),
    Option.some_bind, rd_cons_zero, rd_cons_succ,
    wr_of_lt _ (show bg + 1 + 1 + 1 <
      (A.set (bg + 1 + 1) (byteAt rk (bg - 14) ^^^ u2)).length by rw [lB]; omega)]
  rw [byteAt_set _ _ (by rw [lA]; omega), if_neg (by omega),
    show bg + 1 + 1 + 1 - 16 = bg - 13 by omega, bA.2, forLoop_zero]

theorem take_set_of_le (l : List Nat) (m n a : Nat) (h : m ≤ n) :
    (l.set n a).take m = l.take m := by
  rw [List.set_take, List.set_eq_of_length_le]
  rw [List.length_take]; omega

theorem take16_set4 (rk : List Nat) (bg v0 v1 v2 v3 : Nat) (h : 16 ≤ bg) :
    (set4 rk bg v0 v1 v2 v3).take 16 = rk.take 16 := by
  unfold set4
  rw [take_set_of_le _ _ _ _ (by omega), take_set_of_le _ _ _ _ (by omega),
    take_set_of_le _ _ _ _ (by omega), take_set_of_le _ _ _ _ (by omega)]

theorem isBytes_set4 (rk : List Nat) (bg v0 v1 v2 v3 : Nat) (h : IsBytes rk)
    (h0 : v0 < 256) (h1 : v1 < 256) (h2 : v2 < 256) (h3 : v3 < 256) :
    IsBytes (set4 rk bg v0 v1 v2 v3) :=
  (((h.set _ h0).set _ h1).set _ h2).set _ h3

theorem keyWord_congr (a b : List Nat) (w : Nat)
    (h : ∀ i, i < 4 * w + 4 → byteAt a i = byteAt b i) : keyWord a w = keyWord b w := by
  unfold keyWord
  rw [h _ (by omega), h _ (by omega), h _ (by omega), h _ (by omega)]

theorem keyT_congr (a b : List Nat) (w : Nat) (hw : 1 ≤ w)
    (h : ∀ i, i < 4 * w → byteAt a i = byteAt b i) : keyT a w = keyT b w := by
  unfold keyT
  rw [keyWord_congr a b (w - 1) (fun i hi => h i (by omega))]

/-- The word that one pass of the `while` loop XORs onto the word 16 bytes back. -/
theorem keyT_eq (rk : List Nat) (w : Nat) (hw : 1 ≤ w) :
    keyT rk w =
      if w % 4 = 0 then
        [byteAt sbox (byteAt rk (4 * w - 3)) ^^^ byteAt Rcon (w / 4),
          byteAt sbox (byteAt rk (4 * w - 2)), byteAt sbox (byteAt rk (4 * w - 1)),
          byteAt sbox (byteAt rk (4 * w - 4))]
      else [byteAt rk (4 * w - 4), byteAt rk (4 * w - 3), byteAt rk (4 * w - 2),
          byteAt rk (4 * w - 1)] := by
  have e0 : 4 * (w - 1) = 4 * w - 4 := by omega
  have e1 : 4 * w - 4 + 1 = 4 * w - 3 := by omega
  have e2 : 4 * w - 4 + 2 = 4 * w - 2 := by omega
  have e3 : 4 * w - 4 + 3 = 4 * w - 1 := by omega
  unfold keyT keyWord
  rw [e0, e1, e2, e3]
  split
  · simp [SubWord, RotWord, byteAt]
  · rfl

theorem KeyExpansion_body_step (key rk : List Nat) (k : Nat) (hk : k < 40)
    (h : KeyInv key k (rk, 16 + 4 * k, 1 + (k + 3) / 4)) :
    ∃ rk', KeyExpansion_body (rk, 16 + 4 * k, 1 + (k + 3) / 4) =
        some (rk', 16 + 4 * (k + 1), 1 + (k + 1 + 3) / 4) ∧
      KeyInv key (k + 1) (rk', 16 + 4 * (k + 1), 1 + (k + 1 + 3) / 4) := by
  obtain ⟨-, -, hl, hb, htake, hrec⟩ := h
  simp only at hl hb htake hrec
  have hT := keyT_eq rk (4 + k) (by omega)
  have hbyte : ∀ i, byteAt rk i < 256 := fun i => hb.byteAt i
  -- the value of `temp` after the `if`, and of `rconIteration`
  obtain ⟨u0, u1, u2, u3, hu, hu0, hu1, hu2, hu3, hbody⟩ :
      ∃ u0 u1 u2 u3, keyT rk (4 + k) = [u0, u1, u2, u3] ∧ u0 < 256 ∧ u1 < 256 ∧ u2 < 256 ∧
        u3 < 256 ∧
        KeyExpansion_body (rk, 16 + 4 * k, 1 + (k + 3) / 4) =
          (KeyExpansion_store [u0, u1, u2, u3] (rk, 16 + 4 * k)).bind fun rb =>
            some (rb.1, rb.2, 1 + (k + 1 + 3) / 4) := by
    unfold KeyExpansion_body
    simp only
    rw [KeyExpansion_temp_eq rk (16 + 4 * k) (by omega) (by omega)]
    by_cases hc : (16 + 4 * k) % 16 = 0
    · have hw : (4 + k) % 4 = 0 := by omega
      have hrc : 1 + (k + 3) / 4 = (4 + k) / 4 := by omega
      have hrc' : 1 + (k + 3) / 4 + 1 = 1 + (k + 1 + 3) / 4 := by omega
      rw [if_pos hw] at hT
      refine ⟨_, _, _, _, hT, xor_lt_256 (sbox_lt _ (hbyte _)) (Rcon_lt _ (by omega)),
        sbox_lt _ (hbyte _), sbox_lt _ (hbyte _), sbox_lt _ (hbyte _), ?_⟩
      rw [Option.some_bind, if_pos hc,
        KeyExpansion_core_eq _ _ _ _ _ (hbyte _) (hbyte _) (hbyte _) (hbyte _) (by omega)]
      simp only [Option.some_bind]
      rw [hrc', hrc, show 16 + 4 * k - 3 = 4 * (4 + k) - 3 by omega,
        show 16 + 4 * k - 2 = 4 * (4 + k) - 2 by omega,
        show 16 + 4 * k - 1 = 4 * (4 + k) - 1 by omega,
        show 16 + 4 * k - 4 = 4 * (4 + k) - 4 by omega]
    · have hw : ¬ (4 + k) % 4 = 0 := by omega
      have hrc' : 1 + (k + 3) / 4 = 1 + (k + 1 + 3) / 4 := by omega
      rw [if_neg hw] at hT
      refine ⟨_, _, _, _, hT, hbyte _, hbyte _, hbyte _, hbyte _, ?_⟩
      rw [Option.some_bind, if_neg hc]
      simp only [Option.some_bind]
      rw [hrc', show 16 + 4 * k - 3 = 4 * (4 + k) - 3 by omega,
        show 16 + 4 * k - 2 = 4 * (4 + k) - 2 by omega,
        show 16 + 4 * k - 1 = 4 * (4 + k) - 1 by omega,
        show 16 + 4 * k - 4 = 4 * (4 + k) - 4 by omega]
  rw [hbody, KeyExpansion_store_eq rk (16 + 4 * k) u0 u1 u2 u3 (by omega) (by omega)]
  have hfr : ∀ i, i < 16 + 4 * k →
      byteAt (set4 rk (16 + 4 * k) (byteAt rk (16 + 4 * k - 16) ^^^ u0)
        (byteAt rk (16 + 4 * k - 15) ^^^ u1) (byteAt rk (16 + 4 * k - 14) ^^^ u2)
        (byteAt rk (16 + 4 * k - 13) ^^^ u3)) i = byteAt rk i :=
    fun i hi => byteAt_set4_lt _ _ _ _ _ _ _ (by omega) hi
  refine ⟨_, rfl, rfl, rfl, ?_, ?_, ?_, ?_⟩
  · simp only [set4_length]; exact hl
  · exact isBytes_set4 _ _ _ _ _ _ hb (xor_lt_256 (hbyte _) hu0) (xor_lt_256 (hbyte _) hu1)
      (xor_lt_256 (hbyte _) hu2) (xor_lt_256 (hbyte _) hu3)
  · simp only [take16_set4 _ _ _ _ _ _ (show 16 ≤ 16 + 4 * k by omega)]; exact htake
  · intro w hw4 hwk
    simp only
    rw [keyT_congr _ rk w (by omega) (fun i hi => hfr i (by omega)),
      keyWord_congr _ rk (w - 4) (fun i hi => hfr i (by omega))]
    by_cases hlast : w = 4 + k
    · subst hlast
      rw [hu]
      unfold keyWord
      rw [byteAt_set4 _ _ _ _ _ _ _ (by omega), byteAt_set4 _ _ _ _ _ _ _ (by omega),
        byteAt_set4 _ _ _ _ _ _ _ (by omega), byteAt_set4 _ _ _ _ _ _ _ (by omega)]
      rw [if_neg (by omega), if_neg (by omega), if_neg (by omega), if_pos (by omega),
        if_neg (by omega), if_neg (by omega), if_pos (by omega),
        if_neg (by omega), if_pos (by omega), if_pos (by omega)]
      simp only [List.zipWith_cons_cons, List.zipWith_nil_left]
      rw [show 16 + 4 * k - 16 = 4 * (4 + k - 4) by omega,
        show 16 + 4 * k - 15 = 4 * (4 + k - 4) + 1 by omega,
        show 16 + 4 * k - 14 = 4 * (4 + k - 4) + 2 by omega,
        show 16 + 4 * k - 13 = 4 * (4 + k - 4) + 3 by omega]
    · rw [keyWord_congr _ rk w (fun i hi => hfr i (by omega))]
      exact hrec w hw4 (by omega)

theorem KeyExpansion_while_spec (key : List Nat) :
    ∀ (fuel k : Nat) (st : List Nat × Nat × Nat), k ≤ 40 → 40 - k ≤ fuel → KeyInv key k st →
      ∃ st', KeyExpansion_while fuel st = some st' ∧ KeyInv key 40 st' := by
  intro fuel
  induction fuel with
  | zero =>
    intro k st hk hf h
    have hk40 : k = 40 := by omega
    subst hk40
    refine ⟨st, ?_, h⟩
    have := h.1
    unfold KeyExpansion_while
    rw [if_neg (by omega)]
  | succ fuel ih =>
    intro k st hk hf h
    by_cases hk40 : k = 40
    · subst hk40
      refine ⟨st, ?_, h⟩
      have := h.1
      unfold KeyExpansion_while
      rw [if_neg (by omega)]
    · obtain ⟨rk, bg, rc⟩ := st
      have h1 : bg = 16 + 4 * k := h.1
      have h2 : rc = 1 + (k + 3) / 4 := h.2.1
      subst h1 h2
      obtain ⟨rk', hb, hinv⟩ := KeyExpansion_body_step key rk k (by omega) h
      obtain ⟨st', hst, hfin⟩ := ih (k + 1) _ (by omega) (by omega) hinv
      refine ⟨st', ?_, hfin⟩
      unfold KeyExpansion_while
      rw [if_pos (show 16 + 4 * k < 176 by omega), hb, Option.some_bind]
      exact hst

/-- `KeyExpansion` succeeds on a 16-byte key and leaves a state that satisfies the loop
invariant after all 40 passes. -/
theorem KeyExpansion_inv (key roundKeys : List Nat) (hk : key.length = 16) (hkb : IsBytes key)
    (hr : roundKeys.length = 176) (hrb : IsBytes roundKeys) :
    ∃ rk, KeyExpansion key roundKeys = some rk ∧ KeyInv key 40 (rk, 176, 11) := by
  have hcopy : memcpy roundKeys key 16 = some (key ++ roundKeys.drop 16) := by
    unfold memcpy
    rw [if_pos ⟨by omega, by omega⟩, List.take_of_length_le (by omega)]
  have h0 : KeyInv key 0 (key ++ roundKeys.drop 16, 16, 1) := by
    refine ⟨rfl, rfl, ?_, isBytes_append hkb (isBytes_drop hrb _), ?_, ?_⟩
    · simp [hk, hr]
    · simp [List.take_append_of_le_length, hk]
    · intro w h1 h2; omega
  obtain ⟨st', hst, hfin⟩ := KeyExpansion_while_spec key 176 0 _ (by omega) (by omega) h0
  obtain ⟨rk, bg, rc⟩ := st'
  have e1 : bg = 176 := hfin.1
  have e2 : rc = 11 := hfin.2.1
  subst e1 e2
  exact ⟨rk, by unfold KeyExpansion; rw [hcopy, Option.some_bind, hst, Option.some_bind], hfin⟩

theorem KeyExpansion_ok (key roundKeys : List Nat) (hk : key.length = 16) (hkb : IsBytes key)
    (hr : roundKeys.length = 176) (hrb : IsBytes roundKeys) :
    ∃ rk, KeyExpansion key roundKeys = some rk ∧ rk.length = 176 ∧ IsBytes rk := by
  obtain ⟨rk, h, hinv⟩ := KeyExpansion_inv key roundKeys hk hkb hr hrb
  exact ⟨rk, h, hinv.2.2.1, hinv.2.2.2.1⟩

/-! ## LeftShiftBlock and GenerateSubkeys -/

theorem shl_byte : ∀ x, x < 256 → ∀ c, c < 2 → ((x <<< 1) ||| c) % 256 = (2 * x + c) % 256 := by
  decide!

theorem msb_byte : ∀ x, x < 256 → (if x &&& 0x80 ≠ 0 then 1 else 0) = x / 128 := by
  decide!

theorem msb_testBit : ∀ x, x < 256 → (x &&& 0x80 ≠ 0 ↔ x.testBit 7 = true) := by
  decide!

theorem valBlock_length (v : Nat) : (valBlock v).length = 16 := by simp [valBlock]

theorem byteAt_valBlock (v k : Nat) (hk : k < 16) :
    byteAt (valBlock v) k = v / 256 ^ (15 - k) % 256 := by
  rw [byteAt_eq_getElem (by rw [valBlock_length]; exact hk)]
  simp [valBlock]

theorem valBlock_block (v : Nat) : Block (valBlock v) := by
  refine ⟨valBlock_length v, isBytes_of_byteAt ?_⟩
  intro i hi
  rw [valBlock_length] at hi
  rw [byteAt_valBlock v i hi]
  exact Nat.mod_lt _ (by decide)

theorem list16 (l : List Nat) (h : l.length = 16) :
    ∃ a0 a1 a2 a3 a4 a5 a6 a7 a8 a9 a10 a11 a12 a13 a14 a15 : Nat,
      l = [a0, a1, a2, a3, a4, a5, a6, a7, a8, a9, a10, a11, a12, a13, a14, a15] := by
  refine ⟨byteAt l 0, byteAt l 1, byteAt l 2, byteAt l 3, byteAt l 4, byteAt l 5, byteAt l 6,
    byteAt l 7, byteAt l 8, byteAt l 9, byteAt l 10, byteAt l 11, byteAt l 12, byteAt l 13,
    byteAt l 14, byteAt l 15, ?_⟩
  apply List.ext_getElem
  · simp [h]
  · intro i h1 h2
    rw [h] at h1
    interval_cases i <;> simp [byteAt, List.getElem?_eq_getElem, h]

/-- Byte `k` of the doubled big-endian value of a block. -/
theorem shift_digit (B : List Nat) (h : Block B) (k : Nat) (hk : k < 16) :
    blockVal B * 2 % 2 ^ 128 / 256 ^ (15 - k) % 256 =
      (2 * byteAt B k + byteAt B (k + 1) / 128) % 256 := by
  obtain ⟨hl, hb⟩ := h
  obtain ⟨b0, b1, b2, b3, b4, b5, b6, b7, b8, b9, b10, b11, b12, b13, b14, b15, rfl⟩ :=
    list16 B hl
  have h0 : b0 < 256 := hb _ (by simp)
  have h1 : b1 < 256 := hb _ (by simp)
  have h2 : b2 < 256 := hb _ (by simp)
  have h3 : b3 < 256 := hb _ (by simp)
  have h4 : b4 < 256 := hb _ (by simp)
  have h5 : b5 < 256 := hb _ (by simp)
  have h6 : b6 < 256 := hb _ (by simp)
  have h7 : b7 < 256 := hb _ (by simp)
  have h8 : b8 < 256 := hb _ (by simp)
  have h9 : b9 < 256 := hb _ (by simp)
  have h10 : b10 < 256 := hb _ (by simp)
  have h11 : b11 < 256 := hb _ (by simp)
  have h12 : b12 < 256 := hb _ (by simp)
  have h13 : b13 < 256 := hb _ (by simp)
  have h14 : b14 < 256 := hb _ (by simp)
  have h15 : b15 < 256 := hb _ (by simp)
  simp only [blockVal, List.foldl]
  interval_cases k <;> simp [byteAt] <;> omega

theorem LeftShiftBlock_eq (inp out : List Nat) (h : Block inp) (ho : out.length = 16) :
    LeftShiftBlock inp out = some (shiftLeft128 inp) := by
  obtain ⟨r, hr, hlen, hc, hP⟩ := forDown_inv
    (fun i (oc : List Nat × Nat) =>
      (rd inp i).bind fun x =>
      (wr oc.1 i (((x <<< 1) ||| oc.2) % 256)).bind fun out =>
      some (out, if x &&& 0x80 ≠ 0 then 1 else 0))
    (fun j oc => oc.1.length = 16 ∧ oc.2 = byteAt inp j / 128 ∧
      ∀ k, j ≤ k → k < 16 →
        byteAt oc.1 k = (2 * byteAt inp k + byteAt inp (k + 1) / 128) % 256)
    16 (out, 0)
    ⟨ho, by rw [byteAt_of_le (by rw [h.1])], fun k h1 h2 => absurd h2 (by omega)⟩
    (by
      intro j t hj ⟨hl, hcar, ht⟩
      have hji : j < inp.length := by rw [h.1]; exact hj
      have hjt : j < t.1.length := by omega
      have hx : byteAt inp j < 256 := h.2.byteAt j
      have hc2 : t.2 < 2 := by
        rw [hcar]
        have := h.2.byteAt (j + 1)
        omega
      refine ⟨(t.1.set j (((byteAt inp j <<< 1) ||| t.2) % 256),
        if byteAt inp j &&& 0x80 ≠ 0 then 1 else 0), ?_, by simp [hl], msb_byte _ hx, ?_⟩
      · beta_reduce
        rw [rd_of_lt hji, Option.some_bind, wr_of_lt _ hjt, Option.some_bind]
      · intro k hk1 hk2
        simp only
        rw [byteAt_set k _ hjt]
        split
        · next e => rw [e, shl_byte _ hx _ hc2, hcar]
        · next e => exact ht k (by omega) hk2)
  unfold LeftShiftBlock
  rw [hr, Option.some_bind]
  congr 1
  apply list_eq_of_byteAt
  · rw [hlen, shiftLeft128, valBlock_length]
  · intro i hi
    rw [hP i (by omega) (by omega), shiftLeft128, byteAt_valBlock _ i (by omega),
      shift_digit inp h i (by omega)]

theorem shiftLeft128_block (B : List Nat) : Block (shiftLeft128 B) := valBlock_block _

theorem dbl_block (B : List Nat) : Block (dbl B) := by
  unfold dbl
  split
  · exact ⟨by rw [List.length_set]; exact (shiftLeft128_block B).1,
      (shiftLeft128_block B).2.set _ (xor_lt_256 ((shiftLeft128_block B).2.byteAt _) (by decide))⟩
  · exact shiftLeft128_block B

theorem GenerateSubkeys_step_eq (B tmp : List Nat) (h : Block B) (ht : tmp.length = 16) :
    GenerateSubkeys_step B tmp = some (dbl B) := by
  unfold GenerateSubkeys_step dbl
  rw [LeftShiftBlock_eq B tmp h ht, Option.some_bind, rd_of_lt (by rw [h.1]; decide),
    Option.some_bind]
  have hs := shiftLeft128_block B
  by_cases hc : byteAt B 0 &&& 0x80 ≠ 0
  · rw [if_pos hc, if_pos ((msb_testBit _ (h.2.byteAt 0)).mp hc), rd_of_lt (by rw [hs.1]; decide),
      Option.some_bind, wr_of_lt _ (by rw [hs.1]; decide),
      Nat.mod_eq_of_lt (xor_lt_256 (hs.2.byteAt _) (by decide))]
  · rw [if_neg hc, if_neg (fun e => hc ((msb_testBit _ (h.2.byteAt 0)).mpr e))]

theorem memcpy16 (dst src : List Nat) (hd : dst.length = 16) (hs : src.length = 16) :
    memcpy dst src 16 = some src := by
  unfold memcpy
  rw [if_pos ⟨by omega, by omega⟩, List.take_of_length_le (by omega),
    List.drop_eq_nil_of_le (by omega), List.append_nil]

theorem isBytes_zeros176 : IsBytes (List.replicate 176 0) := isBytes_replicate_zero 176

/-- `GenerateSubkeys` succeeds on a 16-byte key and returns the two doublings of
`L = AES_Encrypt_Block(0^128)`. -/
theorem GenerateSubkeys_eq (key K1 K2 : List Nat) (hk : key.length = 16) (hkb : IsBytes key)
    (h1 : K1.length = 16) (h2 : K2.length = 16) :
    ∃ rk L, KeyExpansion key (List.replicate 176 0) = some rk ∧ rk.length = 176 ∧ IsBytes rk ∧
      (∀ out, out.length = 16 → AES_Encrypt_Block block16 out rk = some L) ∧ Block L ∧
      GenerateSubkeys key K1 K2 = some (dbl L, dbl (dbl L)) := by
  obtain ⟨rk, hrk, hl, hb⟩ := KeyExpansion_ok key (List.replicate 176 0) hk hkb
    (List.length_replicate 176 0) isBytes_zeros176
  obtain ⟨L, hLb, hL⟩ := AES_Encrypt_Block_ok block16 rk block16_block hl hb
  refine ⟨rk, L, hrk, hl, hb, hL, hLb, ?_⟩
  unfold GenerateSubkeys
  rw [hrk, Option.some_bind, hL block16 block16_length, Option.some_bind,
    GenerateSubkeys_step_eq L block16 hLb block16_length, Option.some_bind,
    memcpy16 K1 (dbl L) h1 (dbl_block L).1, Option.some_bind,
    GenerateSubkeys_step_eq (dbl L) (dbl L) (dbl_block L) (dbl_block L).1, Option.some_bind,
    memcpy16 K2 (dbl (dbl L)) h2 (dbl_block _).1, Option.some_bind]

/-! ## CMAC: block count and last block -/

theorem SIZE_MOD_eq : SIZE_MOD = 18446744073709551616 := by
  unfold SIZE_MOD; norm_num

theorem CMAC_blocks_zero : CMAC_blocks 0 = (1, false) := by
  unfold CMAC_blocks; rw [if_pos rfl]

theorem CMAC_blocks_complete (len : Nat) (h0 : 0 < len) (hm : len % 16 = 0)
    (hs : len + 15 < 2 ^ 64) : CMAC_blocks len = (len / 16, true) := by
  unfold CMAC_blocks
  rw [SIZE_MOD_eq]
  simp only
  rw [if_neg (by omega), Nat.mod_eq_of_lt (by omega), decide_eq_true hm]
  congr 1
  omega

theorem CMAC_blocks_padded (len : Nat) (hm : len % 16 ≠ 0) (hs : len + 15 < 2 ^ 64) :
    CMAC_blocks len = (len / 16 + 1, false) := by
  unfold CMAC_blocks
  rw [SIZE_MOD_eq]
  simp only
  rw [if_neg (by omega), Nat.mod_eq_of_lt (by omega), decide_eq_false hm]
  congr 1
  omega

/-- The offset `(n - 1) * 16` of the last block, in `size_t` arithmetic. -/
theorem last_offset (n : Nat) (h1 : 1 ≤ n) (hn : n * 16 < 2 ^ 64) :
    (n + SIZE_MOD - 1) % SIZE_MOD * 16 % SIZE_MOD = (n - 1) * 16 := by
  rw [SIZE_MOD_eq]
  omega

theorem memset_block16 : memset block16 0 16 = some block16 := by
  unfold memset
  rw [if_pos (by rw [block16_length])]
  simp [block16]

theorem padBlock_length (message : List Nat) : (padBlock message).length = 16 := by
  unfold padBlock
  have : message.length % 16 < 16 := Nat.mod_lt _ (by decide)
  simp only [List.length_append, List.length_drop, List.length_cons, List.length_replicate]
  omega

theorem padBlock_isBytes (message : List Nat) (h : IsBytes message) :
    IsBytes (padBlock message) := by
  unfold padBlock
  apply isBytes_append (isBytes_drop h _)
  intro b hb
  rcases List.mem_cons.mp hb with e | e
  · rw [e]; decide
  · exact isBytes_replicate_zero _ b e

/-- The last block of a complete message: its final 16 bytes XOR `K1`. -/
theorem CMAC_M_last_complete (message K1 K2 : List Nat) (h0 : 0 < message.length)
    (hm : message.length % 16 = 0) (hs : message.length + 15 < 2 ^ 64) (h1 : K1.length = 16) :
    CMAC_M_last message message.length K1 K2 =
      some (xorBlock (message.drop (message.length - 16)) K1) := by
  unfold CMAC_M_last
  rw [CMAC_blocks_complete _ h0 hm hs]
  simp only [if_true]
  rw [last_offset _ (by omega) (by omega)]
  have hoff : (message.length / 16 - 1) * 16 = message.length - 16 := by omega
  have hl : (message.drop (message.length - 16)).length = 16 := by
    rw [List.length_drop]; omega
  rw [hoff, memcpy16 _ _ block16_length hl, Option.some_bind, XorBlocks_eq _ _ _ hl h1 hl]

theorem set_pad (A : List Nat) (r : Nat) (hA : A.length = r) (hr : r < 16) :
    (A ++ List.replicate (16 - r) 0).set r 0x80 = A ++ 0x80 :: List.replicate (15 - r) 0 := by
  have e : 16 - r = (15 - r) + 1 := by omega
  rw [List.set_append_right _ _ (by omega), e, List.replicate_succ, hA, Nat.sub_self,
    List.set_cons_zero]

/-- The last block of a message whose length is 0 or not a multiple of 16: the padded
block XOR `K2`. -/
theorem CMAC_M_last_padded (message K1 K2 : List Nat)
    (hm : message.length = 0 ∨ message.length % 16 ≠ 0) (hs : message.length + 15 < 2 ^ 64)
    (h2 : K2.length = 16) :
    CMAC_M_last message message.length K1 K2 = some (xorBlock (padBlock message) K2) := by
  have hr : message.length % 16 < 16 := Nat.mod_lt _ (by decide)
  have hA : (message.drop (message.length - message.length % 16)).length =
      message.length % 16 := by
    rw [List.length_drop]; omega
  -- the block after the copy of the remaining bytes
  have hcopy : ∀ n, (CMAC_blocks message.length).1 = n →
      (if message.length % 16 > 0 then
        memcpy block16 (message.drop ((n + SIZE_MOD - 1) % SIZE_MOD * 16 % SIZE_MOD))
          (message.length % 16)
      else some block16) =
      some (message.drop (message.length - message.length % 16) ++
        List.replicate (16 - message.length % 16) 0) := by
    intro n hn
    by_cases hz : message.length % 16 = 0
    · have hlen : message.length = 0 := by
        rcases hm with h | h
        · exact h
        · exact absurd hz h
      rw [if_neg (by omega), hz, hlen]
      simp [block16, List.length_eq_zero.mp hlen]
    · rw [CMAC_blocks_padded _ hz hs] at hn
      rw [if_pos (by omega), ← hn]
      simp only
      rw [last_offset _ (by omega) (by omega)]
      have hoff : (message.length / 16 + 1 - 1) * 16 =
          message.length - message.length % 16 := by omega
      rw [hoff]
      unfold memcpy
      rw [if_pos ⟨by omega, by rw [block16_length]; omega⟩,
        List.take_of_length_le (by omega), block16, List.drop_replicate]
  have hfalse : (CMAC_blocks message.length).2 = false := by
    rcases hm with h | h
    · rw [h, CMAC_blocks_zero]
    · rw [CMAC_blocks_padded _ h hs]
  unfold CMAC_M_last
  simp only
  rw [hfalse]
  simp only [Bool.false_eq_true, if_false]
  rw [memset_block16, Option.some_bind, hcopy _ rfl, Option.some_bind,
    wr_of_lt _ (by simp only [List.length_append, List.length_replicate, hA]; omega),
    Option.some_bind, set_pad _ _ hA hr]
  have hp : (message.drop (message.length - message.length % 16) ++
      0x80 :: List.replicate (15 - message.length % 16) 0) = padBlock message := rfl
  rw [hp, XorBlocks_eq _ _ _ (padBlock_length message) h2 (padBlock_length message)]

/-! ## CMAC: the chaining loop -/

theorem chunk_block (message : List Nat) (hm : IsBytes message) (j : Nat)
    (h : 16 * j + 16 ≤ message.length) : Block ((message.drop (16 * j)).take 16) := by
  refine ⟨?_, isBytes_take (isBytes_drop hm _) _⟩
  rw [List.length_take, List.length_drop]; omega

theorem chainX_succ (rk message : List Nat) (i : Nat) (X : List Nat)
    (h : AES_Encrypt_Block (xorBlock (chainX rk message i) ((message.drop (16 * i)).take 16))
      block16 rk = some X) : chainX rk message (i + 1) = X := by
  rw [chainX, h]; rfl

/-- The chaining values exist: each one is a block of bytes and is what
`AES_Encrypt_Block` returns on the previous value XOR the next message block. -/
theorem chainX_ok (rk message : List Nat) (hm : IsBytes message) (hrk : rk.length = 176)
    (hb : IsBytes rk) : ∀ i, 16 * i ≤ message.length →
      Block (chainX rk message i) ∧
      ∀ j, j < i → ∀ out, out.length = 16 →
        AES_Encrypt_Block (xorBlock (chainX rk message j) ((message.drop (16 * j)).take 16))
          out rk = some (chainX rk message (j + 1)) := by
  intro i
  induction i with
  | zero => intro _; exact ⟨block16_block, fun j hj => absurd hj (Nat.not_lt_zero j)⟩
  | succ i ih =>
    intro hi
    obtain ⟨hB, hprev⟩ := ih (by omega)
    obtain ⟨X, hXb, hX⟩ := AES_Encrypt_Block_ok
      (xorBlock (chainX rk message i) ((message.drop (16 * i)).take 16)) rk
      (xorBlock_block _ _ hB (chunk_block message hm i (by omega))) hrk hb
    have hnext := chainX_succ rk message i X (hX block16 block16_length)
    refine ⟨by rw [hnext]; exact hXb, ?_⟩
    intro j hj out ho
    by_cases hji : j < i
    · exact hprev j hji out ho
    · have e : j = i := by omega
      subst e
      rw [hnext]; exact hX out ho

theorem CMAC_loop_eq (message rk : List Nat) (hm : IsBytes message) (hrk : rk.length = 176)
    (hb : IsBytes rk) (n : Nat) (hn1 : 1 ≤ n) (hn : 16 * (n - 1) ≤ message.length)
    (hs : message.length + 15 < 2 ^ 64) (Y blk : List Nat) (hY : Y.length = 16)
    (hblk : blk.length = 16) :
    ∃ st, CMAC_loop message n rk (block16, Y, blk) = some st ∧
      st.1 = chainX rk message (n - 1) ∧ st.2.1.length = 16 := by
  have hcnt : (n + SIZE_MOD - 1) % SIZE_MOD = n - 1 := by rw [SIZE_MOD_eq]; omega
  obtain ⟨st, hst, h1, h2, h3⟩ := forLoop_inv
    (fun i (st : List Nat × List Nat × List Nat) =>
      (memcpy st.2.2 (message.drop (i * 16 % SIZE_MOD)) 16).bind fun block =>
      (XorBlocks st.1 block st.2.1).bind fun Y =>
      (AES_Encrypt_Block Y st.1 rk).bind fun X =>
      some (X, Y, block))
    (fun j st => st.1 = chainX rk message j ∧ st.2.1.length = 16 ∧ st.2.2.length = 16)
    (n - 1) 0 (block16, Y, blk) ⟨rfl, hY, hblk⟩
    (by
      intro j t _ hj ⟨hX, hYl, hbl⟩
      obtain ⟨hB, hstep⟩ := chainX_ok rk message hm hrk hb (j + 1) (by omega)
      have hBj := (chainX_ok rk message hm hrk hb j (by omega)).1
      have hch := chunk_block message hm j (by omega)
      have hoff : j * 16 % SIZE_MOD = 16 * j := by rw [SIZE_MOD_eq]; omega
      refine ⟨(chainX rk message (j + 1),
        xorBlock (chainX rk message j) ((message.drop (16 * j)).take 16),
        (message.drop (16 * j)).take 16), ?_, rfl, ?_, hch.1⟩
      · beta_reduce
        rw [hoff]
        have hcp : memcpy t.2.2 (message.drop (16 * j)) 16 =
            some ((message.drop (16 * j)).take 16) := by
          unfold memcpy
          rw [if_pos ⟨by rw [List.length_drop]; omega, by omega⟩,
            List.drop_eq_nil_of_le (show t.2.2.length ≤ 16 by omega), List.append_nil]
        rw [hcp, Option.some_bind, hX, XorBlocks_eq _ _ _ hBj.1 hch.1 hYl, Option.some_bind,
          hstep j (by omega) _ hBj.1, Option.some_bind]
      · exact xorBlock_length _ _ hBj.1 hch.1)
  refine ⟨st, ?_, by rw [h1, Nat.zero_add], h2⟩
  unfold CMAC_loop
  rw [hcnt]; exact hst

/-! ## CMAC: truncation -/

theorem forLoopI_zero {σ : Type} (body : Int → σ → Option σ) (i : Int) (s : σ) :
    forLoopI body 0 i s = some s := by rw [forLoopI]

theorem forLoopI_succ {σ : Type} (body : Int → σ → Option σ) (n : Nat) (i : Int) (s : σ) :
    forLoopI body (n + 1) i s = (body i s).bind (forLoopI body n (i + 1)) := by rw [forLoopI]

theorem wrI_ofNat (a : List Nat) (i v : Nat) : wrI a (i : Int) v = wr a i v := by
  unfold wrI
  rw [if_pos (Int.ofNat_nonneg i), Int.toNat_ofNat]

theorem rdI_ofNat (a : List Nat) (i : Nat) : rdI a (i : Int) = rd a i := by
  unfold rdI
  rw [if_pos (Int.ofNat_nonneg i), Int.toNat_ofNat]

/-- The zeroing loop of the truncation step. -/
theorem zero_loop (n : Nat) : ∀ (f : Nat) (mac : List Nat), f + n ≤ mac.length →
    ∃ r, forLoopI (fun i mac => wrI mac i 0) n (f : Int) mac = some r ∧
      r.length = mac.length ∧
      ∀ k, byteAt r k = if f ≤ k ∧ k < f + n then 0 else byteAt mac k := by
  induction n with
  | zero =>
    intro f mac _
    refine ⟨mac, forLoopI_zero _ _ _, rfl, fun k => ?_⟩
    rw [if_neg (by omega)]
  | succ n ih =>
    intro f mac h
    obtain ⟨r, hr, hl, hP⟩ := ih (f + 1) (mac.set f 0) (by rw [List.length_set]; omega)
    refine ⟨r, ?_, by rw [hl, List.length_set], fun k => ?_⟩
    · rw [forLoopI_succ, wrI_ofNat, wr_of_lt _ (by omega), Option.some_bind]
      have e : ((f : Int) + 1) = ((f + 1 : Nat) : Int) := by push_cast; rfl
      rw [e]; exact hr
    · rw [hP k, byteAt_set k 0 (show f < mac.length by omega)]
      by_cases h1 : f + 1 ≤ k ∧ k < f + 1 + n
      · rw [if_pos h1, if_pos (by omega)]
      · rw [if_neg h1]
        by_cases h2 : k = f
        · rw [if_pos h2, if_pos (by omega)]
        · rw [if_neg h2, if_neg (by omega)]

theorem byteAt_take_zeros (mac : List Nat) (F m k : Nat) (hF : F ≤ mac.length) :
    byteAt (mac.take F ++ List.replicate m 0) k = if k < F then byteAt mac k else 0 := by
  unfold byteAt
  have hl : (mac.take F).length = F := by rw [List.length_take]; omega
  by_cases hk : k < F
  · rw [if_pos hk, List.getD_eq_getElem?_getD, List.getD_eq_getElem?_getD,
      List.getElem?_append_left (by omega), List.getElem?_take_of_lt hk]
  · rw [if_neg hk, List.getD_eq_getElem?_getD, List.getElem?_append_right (by omega),
      List.getElem?_replicate]
    split <;> rfl

theorem tdiv8_range (Tlen : Int) (h1 : -8 < Tlen) (h2 : Tlen < 128) :
    0 ≤ Tlen.tdiv 8 ∧ Tlen.tdiv 8 ≤ 15 := by
  by_cases h0 : 0 ≤ Tlen
  · rw [Int.tdiv_eq_ediv h0 (by decide)]; omega
  · have e : Tlen.tdiv 8 = 0 := by
      have : Tlen = -(-Tlen) := by omega
      rw [this, Int.neg_tdiv, Int.tdiv_eq_zero_of_lt (by omega) (by omega)]; rfl
    rw [e]; omega

/-- The truncation step, for a tag length it can handle without leaving `mac`: the first
`Tlen / 8` bytes are kept and every other byte is zero. -/
theorem CMAC_truncate_eq (Tlen : Int) (mac : List Nat) (hm : mac.length = 16)
    (h1 : -8 < Tlen) (h2 : Tlen < 128) :
    CMAC_truncate Tlen mac =
      some (mac.take (Tlen.tdiv 8).toNat ++ List.replicate (16 - (Tlen.tdiv 8).toNat) 0) := by
  obtain ⟨hf0, hf15⟩ := tdiv8_range Tlen h1 h2
  obtain ⟨F, hF⟩ : ∃ F : Nat, Tlen.tdiv 8 = (F : Int) := ⟨(Tlen.tdiv 8).toNat, by omega⟩
  have hF15 : F ≤ 15 := by omega
  obtain ⟨r, hr, hl, hP⟩ := zero_loop (16 - F) F mac (by omega)
  have hcnt : (16 - (F : Int)).toNat = 16 - F := by omega
  have hrF : byteAt r F = 0 := by rw [hP F, if_pos (by omega)]
  have hrset : r.set F 0 = r := by
    apply list_eq_of_byteAt (by rw [List.length_set])
    intro i _
    rw [byteAt_set i 0 (show F < r.length by omega)]
    split
    · next e => rw [e, hrF]
    · rfl
  have hres : r = mac.take F ++ List.replicate (16 - F) 0 := by
    apply list_eq_of_byteAt
    · rw [hl, List.length_append, List.length_take, List.length_replicate]; omega
    · intro i hi
      rw [hP i, byteAt_take_zeros mac F _ i (by omega)]
      by_cases hiF : i < F
      · rw [if_neg (by omega), if_pos hiF]
      · rw [if_pos (by omega), if_neg hiF]
  unfold CMAC_truncate
  simp only
  rw [if_pos h2, hF, hcnt, hr, Option.some_bind, Int.toNat_ofNat, ← hres]
  split
  · rw [rdI_ofNat, rd_of_lt (by omega), Option.some_bind, wrI_ofNat, hrF, Nat.zero_and,
      Nat.zero_mod, wr_of_lt _ (by omega), hrset]
  · rfl

theorem CMAC_truncate_ge (Tlen : Int) (mac : List Nat) (h : 128 ≤ Tlen) :
    CMAC_truncate Tlen mac = some mac := by
  unfold CMAC_truncate
  simp only
  rw [if_neg (by omega)]

/-- For `Tlen <= -8` the zeroing loop starts at the negative index `Tlen / 8`: its first
write is outside `mac`. -/
theorem CMAC_truncate_neg (Tlen : Int) (mac : List Nat) (h : Tlen ≤ -8) :
    CMAC_truncate Tlen mac = none := by
  have hfb : Tlen.tdiv 8 < 0 := by
    have e : Tlen = -(-Tlen) := by omega
    rw [e, Int.neg_tdiv, Int.tdiv_eq_ediv (by omega) (by decide)]
    omega
  obtain ⟨c, hc⟩ : ∃ c, (16 - Tlen.tdiv 8).toNat = c + 1 := ⟨(16 - Tlen.tdiv 8).toNat - 1, by omega⟩
  unfold CMAC_truncate
  simp only
  rw [if_pos (by omega), hc, forLoopI_succ]
  unfold wrI
  rw [if_neg (by omega)]
  rfl

/-! ## CMAC: the whole function -/

theorem CMAC_blocks_fst (len : Nat) (hs : len + 15 < 2 ^ 64) :
    (CMAC_blocks len).1 = blockCount len := by
  unfold CMAC_blocks blockCount
  rw [SIZE_MOD_eq]
  simp only
  split
  · rfl
  · simp only; omega

theorem CMAC_blocks_snd (len : Nat) :
    (CMAC_blocks len).2 = true ↔ 0 < len ∧ len % 16 = 0 := by
  unfold CMAC_blocks
  simp only
  split
  · next h => simp [h]
  · next h => simp only [decide_eq_true_eq]; omega

theorem blockCount_pos (len : Nat) : 1 ≤ blockCount len := by
  unfold blockCount; split <;> omega

theorem blockCount_bound (len : Nat) : 16 * (blockCount len - 1) ≤ len := by
  unfold blockCount; split <;> omega

/-- The last block exists and is a block of bytes. -/
theorem CMAC_M_last_ok (message K1 K2 : List Nat) (hm : IsBytes message)
    (hs : message.length + 15 < 2 ^ 64) (h1 : Block K1) (h2 : Block K2) :
    ∃ M, CMAC_M_last message message.length K1 K2 = some M ∧ Block M := by
  by_cases hc : 0 < message.length ∧ message.length % 16 = 0
  · refine ⟨_, CMAC_M_last_complete message K1 K2 hc.1 hc.2 hs h1.1, ?_⟩
    exact xorBlock_block _ _
      ⟨by rw [List.length_drop]; omega, isBytes_drop hm _⟩ h1
  · refine ⟨_, CMAC_M_last_padded message K1 K2 (by omega) hs h2.1, ?_⟩
    exact xorBlock_block _ _ ⟨padBlock_length message, padBlock_isBytes message hm⟩ h2

/-- The run of `CMAC` on a 16-byte key and a message of bytes: every step succeeds, and
the result is the truncation of the tag `AES_Encrypt_Block(X_(n-1) XOR M_last)`. -/
theorem CMAC_run (key message : List Nat) (hk : key.length = 16) (hkb : IsBytes key)
    (hm : IsBytes message) (hs : message.length + 15 < 2 ^ 64) :
    ∃ rk L M_last tag,
      KeyExpansion key (List.replicate 176 0) = some rk ∧ rk.length = 176 ∧ IsBytes rk ∧
      (∀ out, out.length = 16 → AES_Encrypt_Block block16 out rk = some L) ∧ Block L ∧
      GenerateSubkeys key block16 block16 = some (dbl L, dbl (dbl L)) ∧
      CMAC_M_last message message.length (dbl L) (dbl (dbl L)) = some M_last ∧ Block M_last ∧
      (∀ out, out.length = 16 →
        AES_Encrypt_Block
          (xorBlock (chainX rk message (blockCount message.length - 1)) M_last) out rk =
            some tag) ∧
      Block tag ∧
      ∀ (Tlen : Int) (mac : List Nat), mac.length = 16 →
        CMAC key message message.length Tlen mac = CMAC_truncate Tlen tag := by
  obtain ⟨rk, L, hrk, hl, hb, hL, hLb, hG⟩ :=
    GenerateSubkeys_eq key block16 block16 hk hkb block16_length block16_length
  obtain ⟨M, hM, hMb⟩ := CMAC_M_last_ok message (dbl L) (dbl (dbl L)) hm hs (dbl_block L)
    (dbl_block (dbl L))
  obtain ⟨st, hst, hX, hY⟩ := CMAC_loop_eq message rk hm hl hb (blockCount message.length)
    (blockCount_pos _) (blockCount_bound _) hs block16 block16 block16_length block16_length
  have hXb := (chainX_ok rk message hm hl hb (blockCount message.length - 1)
    (blockCount_bound _)).1
  obtain ⟨tag, htb, htag⟩ := AES_Encrypt_Block_ok
    (xorBlock (chainX rk message (blockCount message.length - 1)) M) rk
    (xorBlock_block _ _ hXb hMb) hl hb
  refine ⟨rk, L, M, tag, hrk, hl, hb, hL, hLb, hG, hM, hMb, htag, htb, ?_⟩
  intro Tlen mac hmac
  unfold CMAC
  rw [hG, Option.some_bind]
  simp only
  rw [hM, Option.some_bind, hrk, Option.some_bind, CMAC_blocks_fst _ hs, hst, Option.some_bind,
    hX, XorBlocks_eq _ _ _ hXb.1 hMb.1 hY, Option.some_bind, htag _ hXb.1, Option.some_bind,
    memcpy16 mac tag hmac htb.1, Option.some_bind]

/-! ## Runs of `CMAC` on the test data of `main`

The runs are evaluated piece by piece: the key schedule once, then one evaluation of
`AES_Encrypt_Block` for each block. -/

theorem key3_length : key3.length = 16 := by decide

theorem key3_isBytes : IsBytes key3 := by unfold IsBytes key3; decide

theorem Message2_isBytes : IsBytes Message2 := by unfold IsBytes Message2; decide

theorem nil_isBytes : IsBytes [] := fun _ h => absurd h (List.not_mem_nil _)

theorem nil_size : ([] : List Nat).length + 15 < 2 ^ 64 := by norm_num

theorem Message2_size : Message2.length + 15 < 2 ^ 64 := by
  rw [show Message2.length = 64 by decide]; norm_num

/-- A run of `CMAC` from its pieces: the schedule, `L`, the last block, the chaining value
before the last block and the final encryption give every run on that input. -/
theorem run_of_parts (key message rk L M X tag : List Nat) (hk : key.length = 16)
    (hkb : IsBytes key) (hm : IsBytes message) (hs : message.length + 15 < 2 ^ 64)
    (hrk : KeyExpansion key (List.replicate 176 0) = some rk)
    (hL : AES_Encrypt_Block block16 block16 rk = some L)
    (hM : CMAC_M_last message message.length (dbl L) (dbl (dbl L)) = some M)
    (hX : chainX rk message (blockCount message.length - 1) = X)
    (htag : AES_Encrypt_Block (xorBlock X M) block16 rk = some tag) :
    ∀ (Tlen : Int) (mac : List Nat), mac.length = 16 →
      CMAC key message message.length Tlen mac = CMAC_truncate Tlen tag := by
  obtain ⟨rk', L', M', tag', hrk', -, -, hL', -, -, hM', -, htag', -, hrun⟩ :=
    CMAC_run key message hk hkb hm hs
  have e1 : rk' = rk := Option.some.inj (hrk'.symm.trans hrk)
  subst e1
  have e2 : L' = L := Option.some.inj ((hL' block16 block16_length).symm.trans hL)
  subst e2
  have e3 : M' = M := Option.some.inj (hM'.symm.trans hM)
  subst e3
  have e4 : tag' = tag := by
    have := htag' block16 block16_length
    rw [hX, htag] at this
    exact (Option.some.inj this).symm
  subst e4
  exact hrun

theorem key3_schedule : KeyExpansion key3 (List.replicate 176 0) = some rk3 := by decide!

theorem key3_L : AES_Encrypt_Block block16 block16 rk3 = some [0x7d,0xf7,0x6b,0x0c,0x1a,0xb8,0x99,0xb3,0x3e,0x42,0xf0,0x47,0xb9,0x1b,0x54,0x6f] := by
  decide!

theorem key3_K1 : dbl [0x7d,0xf7,0x6b,0x0c,0x1a,0xb8,0x99,0xb3,0x3e,0x42,0xf0,0x47,0xb9,0x1b,0x54,0x6f] =
    [0xfb,0xee,0xd6,0x18,0x35,0x71,0x33,0x66,0x7c,0x85,0xe0,0x8f,0x72,0x36,0xa8,0xde] := by
  decide!

theorem key3_K2 : dbl [0xfb,0xee,0xd6,0x18,0x35,0x71,0x33,0x66,0x7c,0x85,0xe0,0x8f,0x72,0x36,0xa8,0xde] =
    [0xf7,0xdd,0xac,0x30,0x6a,0xe2,0x66,0xcc,0xf9,0x0b,0xc1,0x1e,0xe4,0x6d,0x51,0x3b] := by
  decide!

theorem key3_empty_last :
    CMAC_M_last [] 0 [0xfb,0xee,0xd6,0x18,0x35,0x71,0x33,0x66,0x7c,0x85,0xe0,0x8f,0x72,0x36,0xa8,0xde]
      [0xf7,0xdd,0xac,0x30,0x6a,0xe2,0x66,0xcc,0xf9,0x0b,0xc1,0x1e,0xe4,0x6d,0x51,0x3b] =
      some [0x77,0xdd,0xac,0x30,0x6a,0xe2,0x66,0xcc,0xf9,0x0b,0xc1,0x1e,0xe4,0x6d,0x51,0x3b] := by
  decide!

theorem key3_empty_tag :
    AES_Encrypt_Block (xorBlock block16 [0x77,0xdd,0xac,0x30,0x6a,0xe2,0x66,0xcc,0xf9,0x0b,0xc1,0x1e,0xe4,0x6d,0x51,0x3b])
      block16 rk3 = some [0xbb,0x1d,0x69,0x29,0xe9,0x59,0x37,0x28,0x7f,0xa3,0x7d,0x12,0x9b,0x75,0x67,0x46] := by
  decide!

theorem key3_empty_run : ∀ (Tlen : Int) (mac : List Nat), mac.length = 16 →
    CMAC key3 [] 0 Tlen mac = CMAC_truncate Tlen
      [0xbb,0x1d,0x69,0x29,0xe9,0x59,0x37,0x28,0x7f,0xa3,0x7d,0x12,0x9b,0x75,0x67,0x46] :=
  run_of_parts key3 [] rk3 _ _ block16 _ key3_length key3_isBytes nil_isBytes nil_size
    key3_schedule key3_L (by rw [key3_K1, key3_K2]; exact key3_empty_last) rfl key3_empty_tag

theorem Message2_chain1 : chainX rk3 Message2 1 =
    [0x3a,0xd7,0x7b,0xb4,0x0d,0x7a,0x36,0x60,0xa8,0x9e,0xca,0xf3,0x24,0x66,0xef,0x97] :=
  chainX_succ rk3 Message2 0 _ (by decide!)

theorem Message2_chain2 : chainX rk3 Message2 2 =
    [0xb1,0x48,0xc1,0x7f,0x30,0x9e,0xe6,0x92,0x28,0x7a,0xe5,0x7c,0xf1,0x2a,0xdd,0x49] :=
  chainX_succ rk3 Message2 1 _ (by rw [Message2_chain1]; decide!)

theorem Message2_chain3 : chainX rk3 Message2 3 =
    [0xc9,0x3d,0x11,0xbf,0xaf,0x08,0xc5,0xdc,0x4d,0x90,0xb3,0x7b,0x4d,0xee,0x00,0x2b] :=
  chainX_succ rk3 Message2 2 _ (by rw [Message2_chain2]; decide!)

theorem Message2_last :
    CMAC_M_last Message2 64 [0xfb,0xee,0xd6,0x18,0x35,0x71,0x33,0x66,0x7c,0x85,0xe0,0x8f,0x72,0x36,0xa8,0xde]
      [0xf7,0xdd,0xac,0x30,0x6a,0xe2,0x66,0xcc,0xf9,0x0b,0xc1,0x1e,0xe4,0x6d,0x51,0x3b] =
      some [0x0d,0x71,0xf2,0x5d,0xea,0x3e,0xa8,0x71,0xd1,0xae,0xa1,0xf4,0x94,0x5a,0x9f,0xce] := by
  decide!

theorem Message2_tag :
    AES_Encrypt_Block
      (xorBlock [0xc9,0x3d,0x11,0xbf,0xaf,0x08,0xc5,0xdc,0x4d,0x90,0xb3,0x7b,0x4d,0xee,0x00,0x2b]
        [0x0d,0x71,0xf2,0x5d,0xea,0x3e,0xa8,0x71,0xd1,0xae,0xa1,0xf4,0x94,0x5a,0x9f,0xce])
      block16 rk3 = some [0x51,0xf0,0xbe,0xbf,0x7e,0x3b,0x9d,0x92,0xfc,0x49,0x74,0x17,0x79,0x36,0x3c,0xfe] := by
  decide!

theorem key3_Message2_run : ∀ (Tlen : Int) (mac : List Nat), mac.length = 16 →
    CMAC key3 Message2 64 Tlen mac = CMAC_truncate Tlen
      [0x51,0xf0,0xbe,0xbf,0x7e,0x3b,0x9d,0x92,0xfc,0x49,0x74,0x17,0x79,0x36,0x3c,0xfe] :=
  run_of_parts key3 Message2 rk3 _ _ _ _ key3_length key3_isBytes Message2_isBytes
    Message2_size key3_schedule key3_L (by rw [key3_K1, key3_K2]; exact Message2_last)
    Message2_chain3 Message2_tag

/-! ## The claims -/

/-- C1. For every 16-byte key and every message of bytes of any length a `size_t` can hold
with 15 to spare (the empty message included), `CMAC` with `Tlen = 128` returns `X_n`,
where `X_0` is the all-zero block, `X_i = AES_Encrypt_Block(X_(i-1) XOR M_i)` for
`i = 1 .. n-1` with `M_i = message[16(i-1) .. 16i)` taken verbatim, and
`X_n = AES_Encrypt_Block(X_(n-1) XOR M_last)`; here `n = blockCount len` is `ceil(len/16)`
(1 for the empty message), `M_last` is the last block that `CMAC` formats with the subkeys
of `GenerateSubkeys`, and every encryption uses the schedule of `KeyExpansion(key)`. -/
theorem CMAC_is_cbc_chain (key message mac : List Nat) (hk : key.length = 16)
    (hkb : IsBytes key) (hm : IsBytes message) (hs : message.length + 15 < 2 ^ 64)
    (hmac : mac.length = 16) :
    ∃ (rk K1 K2 M_last : List Nat) (X : Nat → List Nat),
      KeyExpansion key (List.replicate 176 0) = some rk ∧
      GenerateSubkeys key block16 block16 = some (K1, K2) ∧
      CMAC_M_last message message.length K1 K2 = some M_last ∧
      X 0 = List.replicate 16 0 ∧
      (∀ i, 1 ≤ i → i < blockCount message.length → ∀ out, out.length = 16 →
        AES_Encrypt_Block (xorBlock (X (i - 1)) ((message.drop (16 * (i - 1))).take 16))
          out rk = some (X i)) ∧
      (∀ out, out.length = 16 →
        AES_Encrypt_Block (xorBlock (X (blockCount message.length - 1)) M_last) out rk =
          some (X (blockCount message.length))) ∧
      CMAC key message message.length 128 mac = some (X (blockCount message.length)) := by
  obtain ⟨rk, L, M, tag, hrk, hl, hb, -, -, hG, hM, -, htag, -, hrun⟩ :=
    CMAC_run key message hk hkb hm hs
  have hch := (chainX_ok rk message hm hl hb (blockCount message.length - 1)
    (blockCount_bound _)).2
  have hpos := blockCount_pos message.length
  refine ⟨rk, dbl L, dbl (dbl L), M,
    fun i => if i < blockCount message.length then chainX rk message i else tag,
    hrk, hG, hM, ?_, ?_, ?_, ?_⟩
  · beta_reduce
    rw [if_pos (by omega)]; rfl
  · intro i h1 h2 out ho
    beta_reduce
    rw [if_pos (by omega), if_pos h2]
    have := hch (i - 1) (by omega) out ho
    rwa [show i - 1 + 1 = i by omega] at this
  · intro out ho
    beta_reduce
    rw [if_pos (by omega), if_neg (by omega)]
    exact htag out ho
  · beta_reduce
    rw [if_neg (by omega), hrun 128 mac hmac, CMAC_truncate_ge _ _ (by decide)]

/-- C2. Known-answer vector (empty message): `CMAC` with key
2b7e151628aed2a6abf7158809cf4f3c, the empty message (`messageLen = 0`) and `Tlen = 128`
returns the tag bb1d6929e95937287fa37d129b756746, whatever the 16-byte buffer `mac` held. -/
theorem CMAC_kat_empty (mac : List Nat) (hmac : mac.length = 16) :
    CMAC key3 [] 0 128 mac =
      some [0xbb,0x1d,0x69,0x29,0xe9,0x59,0x37,0x28,0x7f,0xa3,0x7d,0x12,0x9b,0x75,0x67,0x46] := by
  rw [key3_empty_run 128 mac hmac, CMAC_truncate_ge _ _ (by decide)]

/-- C3 (what the code does at the failing input). For key 2b7e151628aed2a6abf7158809cf4f3c,
the empty message and `Tlen = 53`, `CMAC` returns bb1d6929e959 followed by ten zero bytes:
the partial byte (index 6), whose top 5 bits 0x30 the claim keeps, is zeroed by the loop
before it is masked. -/
theorem CMAC_trunc53_loses_partial_byte :
    CMAC key3 [] 0 53 block16 =
        some [0xbb,0x1d,0x69,0x29,0xe9,0x59,0x00,0,0,0,0,0,0,0,0,0] ∧
      CMAC key3 [] 0 53 block16 ≠
        some [0xbb,0x1d,0x69,0x29,0xe9,0x59,0x30,0,0,0,0,0,0,0,0,0] := by
  have h : CMAC key3 [] 0 53 block16 =
      some [0xbb,0x1d,0x69,0x29,0xe9,0x59,0x00,0,0,0,0,0,0,0,0,0] := by
    rw [key3_empty_run 53 block16 block16_length]; decide!
  refine ⟨h, ?_⟩
  rw [h]; decide

/-- C4 (counterexample). With `Tlen = 129 > 128`, `CMAC` reports no error: it returns the
full tag of the empty message under key 2b7e151628aed2a6abf7158809cf4f3c. -/
theorem CMAC_Tlen129_returns_tag :
    (128 : Int) < 129 ∧
    CMAC key3 [] 0 129 block16 =
      some [0xbb,0x1d,0x69,0x29,0xe9,0x59,0x37,0x28,0x7f,0xa3,0x7d,0x12,0x9b,0x75,0x67,0x46] ∧
    CMAC key3 [] 0 129 block16 ≠ none := by
  have h := key3_empty_run 129 block16 block16_length
  rw [CMAC_truncate_ge _ _ (by decide)] at h
  exact ⟨by decide, h, by rw [h]; exact Option.some_ne_none _⟩

/-- C4 (amended). `CMAC` does not reject a tag length above 128: for every 16-byte key,
every message and every `Tlen > 128`, the call succeeds and returns the full 128-bit tag,
the same as for `Tlen = 128`. -/
theorem CMAC_Tlen_above_128 (key message mac : List Nat) (Tlen : Int) (hk : key.length = 16)
    (hkb : IsBytes key) (hm : IsBytes message) (hs : message.length + 15 < 2 ^ 64)
    (hmac : mac.length = 16) (hT : 128 < Tlen) :
    ∃ tag, tag.length = 16 ∧ CMAC key message message.length 128 mac = some tag ∧
      CMAC key message message.length Tlen mac = some tag := by
  obtain ⟨rk, L, M, tag, -, -, -, -, -, -, -, -, -, htb, hrun⟩ :=
    CMAC_run key message hk hkb hm hs
  refine ⟨tag, htb.1, ?_, ?_⟩
  · rw [hrun 128 mac hmac, CMAC_truncate_ge _ _ (by decide)]
  · rw [hrun Tlen mac hmac, CMAC_truncate_ge _ _ (by omega)]

/-- C5. For every 16-byte key, `GenerateSubkeys` returns `K1 = dbl(L)` and `K2 = dbl(K1)`,
where `L = AES_Encrypt_Block(all-zero block)` under `KeyExpansion(key)` and `dbl(B)` is the
128-bit left shift of `B` by one bit whose last byte is XORed with `0x87` exactly when the
most-significant bit of `B` is set. -/
theorem GenerateSubkeys_dbl (key K1 K2 : List Nat) (hk : key.length = 16) (hkb : IsBytes key)
    (h1 : K1.length = 16) (h2 : K2.length = 16) :
    ∃ rk L, KeyExpansion key (List.replicate 176 0) = some rk ∧
      AES_Encrypt_Block (List.replicate 16 0) (List.replicate 16 0) rk = some L ∧
      GenerateSubkeys key K1 K2 = some (dbl L, dbl (dbl L)) := by
  obtain ⟨rk, L, hrk, -, -, hL, -, hG⟩ := GenerateSubkeys_eq key K1 K2 hk hkb h1 h2
  exact ⟨rk, L, hrk, hL block16 block16_length, hG⟩

/-- C6. For every message whose length is 0 or not a multiple of 16, with
`rem = len mod 16`, the last block that `CMAC` feeds into the final encryption is
`P XOR K2`, where `P` (`padBlock`) holds the final `rem` message bytes at positions
`0 .. rem-1`, the byte `0x80` at position `rem` and `0x00` at positions `rem+1 .. 15`; for
the empty message `P = (0x80, 0, ..., 0)`.  `K1` is not used: the last block is the same
for every value in its place. -/
theorem CMAC_last_block_padded (key message mac : List Nat) (hk : key.length = 16)
    (hkb : IsBytes key) (hm : IsBytes message) (hs : message.length + 15 < 2 ^ 64)
    (hmac : mac.length = 16) (hp : message.length = 0 ∨ message.length % 16 ≠ 0) :
    ((padBlock message).length = 16 ∧
      (∀ i, i < message.length % 16 →
        byteAt (padBlock message) i =
          byteAt message (message.length - message.length % 16 + i)) ∧
      byteAt (padBlock message) (message.length % 16) = 0x80 ∧
      (∀ i, message.length % 16 < i → i < 16 → byteAt (padBlock message) i = 0) ∧
      (message = [] → padBlock message = 0x80 :: List.replicate 15 0)) ∧
    ∃ rk K1 K2 tag,
      KeyExpansion key (List.replicate 176 0) = some rk ∧
      GenerateSubkeys key block16 block16 = some (K1, K2) ∧
      (∀ K1' : List Nat, CMAC_M_last message message.length K1' K2 =
        some (xorBlock (padBlock message) K2)) ∧
      (∀ out, out.length = 16 →
        AES_Encrypt_Block
          (xorBlock (chainX rk message (blockCount message.length - 1))
            (xorBlock (padBlock message) K2)) out rk = some tag) ∧
      CMAC key message message.length 128 mac = some tag := by
  have hr : message.length % 16 < 16 := Nat.mod_lt _ (by decide)
  have hA : (message.drop (message.length - message.length % 16)).length =
      message.length % 16 := by
    rw [List.length_drop]; omega
  refine ⟨⟨padBlock_length message, ?_, ?_, ?_, ?_⟩, ?_⟩
  · intro i hi
    unfold padBlock byteAt
    rw [List.getD_eq_getElem?_getD, List.getD_eq_getElem?_getD,
      List.getElem?_append_left (by omega), List.getElem?_drop]
  · unfold padBlock byteAt
    rw [List.getD_eq_getElem?_getD, List.getElem?_append_right (by omega), hA, Nat.sub_self]
    simp
  · intro i h1 h2
    unfold padBlock byteAt
    obtain ⟨d, hd⟩ : ∃ d, i - message.length % 16 = d + 1 :=
      ⟨i - message.length % 16 - 1, by omega⟩
    rw [List.getD_eq_getElem?_getD, List.getElem?_append_right (by omega), hA, hd,
      List.getElem?_cons_succ, List.getElem?_replicate]
    split <;> rfl
  · intro e; rw [e]; rfl
  · obtain ⟨rk, L, M, tag, hrk, -, -, -, -, hG, hM, -, htag, -, hrun⟩ :=
      CMAC_run key message hk hkb hm hs
    have hpad := fun K1' => CMAC_M_last_padded message K1' (dbl (dbl L)) hp hs (dbl_block _).1
    have hMe : M = xorBlock (padBlock message) (dbl (dbl L)) := by
      have := hpad (dbl L)
      rw [hM] at this
      exact Option.some.inj this
    subst hMe
    refine ⟨rk, dbl L, dbl (dbl L), tag, hrk, hG, hpad, htag, ?_⟩
    rw [hrun 128 mac hmac, CMAC_truncate_ge _ _ (by decide)]

/-- C7. `CMAC` treats a message as complete if and only if its length is `> 0` and a
multiple of 16, and for every such message the last block fed into the final encryption is
the final 16 bytes of the message XOR `K1` (no padding byte is added, and `K2` is not used:
the last block is the same for every value in its place). -/
theorem CMAC_last_block_complete (key message mac : List Nat) (hk : key.length = 16)
    (hkb : IsBytes key) (hm : IsBytes message) (hs : message.length + 15 < 2 ^ 64)
    (hmac : mac.length = 16) :
    ((CMAC_blocks message.length).2 = true ↔
      0 < message.length ∧ message.length % 16 = 0) ∧
    (0 < message.length → message.length % 16 = 0 →
      ∃ rk K1 K2 tag,
        KeyExpansion key (List.replicate 176 0) = some rk ∧
        GenerateSubkeys key block16 block16 = some (K1, K2) ∧
        (∀ K2' : List Nat, CMAC_M_last message message.length K1 K2' =
          some (xorBlock (message.drop (message.length - 16)) K1)) ∧
        (∀ out, out.length = 16 →
          AES_Encrypt_Block
            (xorBlock (chainX rk message (blockCount message.length - 1))
              (xorBlock (message.drop (message.length - 16)) K1)) out rk = some tag) ∧
        CMAC key message message.length 128 mac = some tag) := by
  refine ⟨CMAC_blocks_snd _, ?_⟩
  intro h0 h16
  obtain ⟨rk, L, M, tag, hrk, -, -, -, -, hG, hM, -, htag, -, hrun⟩ :=
    CMAC_run key message hk hkb hm hs
  have hc := fun K2' => CMAC_M_last_complete message (dbl L) K2' h0 h16 hs (dbl_block _).1
  have hMe : M = xorBlock (message.drop (message.length - 16)) (dbl L) := by
    have := hc (dbl (dbl L))
    rw [hM] at this
    exact Option.some.inj this
  subst hMe
  refine ⟨rk, dbl L, dbl (dbl L), tag, hrk, hG, hc, htag, ?_⟩
  rw [hrun 128 mac hmac, CMAC_truncate_ge _ _ (by decide)]

/-- C8. For every 16-byte key, `KeyExpansion` produces exactly 176 bytes `rk` with
`rk[0..16) = key` and, for every word index `w` in `4 .. 43`, word `w` = word `w - 4` XOR
`T`, where `T` (`keyT`) is word `w - 1` when `w` is not a multiple of 4, and otherwise word
`w - 1` rotated left by one byte, substituted byte-wise through `sbox`, with its first byte
XORed with `Rcon[w / 4]`. -/
theorem KeyExpansion_schedule (key roundKeys : List Nat) (hk : key.length = 16)
    (hkb : IsBytes key) (hr : roundKeys.length = 176) (hrb : IsBytes roundKeys) :
    ∃ rk, KeyExpansion key roundKeys = some rk ∧ rk.length = 176 ∧ rk.take 16 = key ∧
      ∀ w, 4 ≤ w → w ≤ 43 →
        keyWord rk w = List.zipWith (· ^^^ ·) (keyWord rk (w - 4)) (keyT rk w) := by
  obtain ⟨rk, h, -, -, hl, -, htake, hrec⟩ := KeyExpansion_inv key roundKeys hk hkb hr hrb
  exact ⟨rk, h, hl, htake, fun w h4 h43 => hrec w h4 (by omega)⟩

/-- C9. Known-answer vector (four complete blocks): `CMAC` with key
2b7e151628aed2a6abf7158809cf4f3c, the 64-byte message `Message2` and `Tlen = 128` returns
the tag 51f0bebf7e3b9d92fc49741779363cfe, whatever the 16-byte buffer `mac` held. -/
theorem CMAC_kat_four_blocks (mac : List Nat) (hmac : mac.length = 16) :
    CMAC key3 Message2 64 128 mac =
      some [0x51,0xf0,0xbe,0xbf,0x7e,0x3b,0x9d,0x92,0xfc,0x49,0x74,0x17,0x79,0x36,0x3c,0xfe] := by
  rw [key3_Message2_run 128 mac hmac, CMAC_truncate_ge _ _ (by decide)]

/-- C10. For every 16-byte key, every message of bytes and every `Tlen` in `[0, 128]`,
`CMAC` completes and returns a 16-byte tag: in the embedding every array access is checked
(message reads against the message, block accesses against the 16-byte blocks, round-key
accesses against the 176-byte schedule, `Rcon` and `sbox` accesses against their tables),
so the result `some tag` says that no access was out of bounds. -/
theorem CMAC_safe (key message mac : List Nat) (Tlen : Int) (hk : key.length = 16)
    (hkb : IsBytes key) (hm : IsBytes message) (hs : message.length + 15 < 2 ^ 64)
    (hmac : mac.length = 16) (h0 : 0 ≤ Tlen) (h128 : Tlen ≤ 128) :
    ∃ tag, CMAC key message message.length Tlen mac = some tag ∧ tag.length = 16 ∧
      IsBytes tag := by
  obtain ⟨rk, L, M, tag, -, -, -, -, -, -, -, -, -, htb, hrun⟩ :=
    CMAC_run key message hk hkb hm hs
  rw [hrun Tlen mac hmac]
  by_cases hT : Tlen < 128
  · obtain ⟨hf0, hf15⟩ := tdiv8_range Tlen (by omega) hT
    rw [CMAC_truncate_eq Tlen tag htb.1 (by omega) hT]
    refine ⟨_, rfl, ?_, isBytes_append (isBytes_take htb.2 _) (isBytes_replicate_zero _)⟩
    rw [List.length_append, List.length_take, List.length_replicate, htb.1]
    omega
  · rw [CMAC_truncate_ge _ _ (by omega)]
    exact ⟨tag, rfl, htb.1, htb.2⟩

/-! ## The claims at concrete inputs -/

/-- C1 at the key `key3` and the 64-byte message `Message2` of `main`. -/
theorem CMAC_is_cbc_chain_witness :
    ∃ (rk K1 K2 M_last : List Nat) (X : Nat → List Nat),
      KeyExpansion key3 (List.replicate 176 0) = some rk ∧
      GenerateSubkeys key3 block16 block16 = some (K1, K2) ∧
      CMAC_M_last Message2 Message2.length K1 K2 = some M_last ∧
      X 0 = List.replicate 16 0 ∧
      (∀ i, 1 ≤ i → i < blockCount Message2.length → ∀ out, out.length = 16 →
        AES_Encrypt_Block (xorBlock (X (i - 1)) ((Message2.drop (16 * (i - 1))).take 16))
          out rk = some (X i)) ∧
      (∀ out, out.length = 16 →
        AES_Encrypt_Block (xorBlock (X (blockCount Message2.length - 1)) M_last) out rk =
          some (X (blockCount Message2.length))) ∧
      CMAC key3 Message2 Message2.length 128 block16 = some (X (blockCount Message2.length)) :=
  CMAC_is_cbc_chain key3 Message2 block16 key3_length key3_isBytes Message2_isBytes
    Message2_size block16_length

/-- C2 with a buffer `mac` that holds sixteen bytes 0xff before the call. -/
theorem CMAC_kat_empty_witness :
    CMAC key3 [] 0 128 (List.replicate 16 0xff) =
      some [0xbb,0x1d,0x69,0x29,0xe9,0x59,0x37,0x28,0x7f,0xa3,0x7d,0x12,0x9b,0x75,0x67,0x46] :=
  CMAC_kat_empty (List.replicate 16 0xff) (by decide)

/-- C4 (amended) at `key3`, `Message2` and `Tlen = 200`. -/
theorem CMAC_Tlen_above_128_witness :
    ∃ tag, tag.length = 16 ∧ CMAC key3 Message2 Message2.length 128 block16 = some tag ∧
      CMAC key3 Message2 Message2.length 200 block16 = some tag :=
  CMAC_Tlen_above_128 key3 Message2 block16 200 key3_length key3_isBytes Message2_isBytes
    Message2_size block16_length (by decide)

/-- C5 at the key `key3` of `main`. -/
theorem GenerateSubkeys_dbl_witness :
    ∃ rk L, KeyExpansion key3 (List.replicate 176 0) = some rk ∧
      AES_Encrypt_Block (List.replicate 16 0) (List.replicate 16 0) rk = some L ∧
      GenerateSubkeys key3 block16 block16 = some (dbl L, dbl (dbl L)) :=
  GenerateSubkeys_dbl key3 block16 block16 key3_length key3_isBytes block16_length
    block16_length

/-- C6 at `key3` and the empty message. -/
theorem CMAC_last_block_padded_witness :
    ((padBlock []).length = 16 ∧
      (∀ i, i < ([] : List Nat).length % 16 →
        byteAt (padBlock []) i =
          byteAt [] (([] : List Nat).length - ([] : List Nat).length % 16 + i)) ∧
      byteAt (padBlock []) (([] : List Nat).length % 16) = 0x80 ∧
      (∀ i, ([] : List Nat).length % 16 < i → i < 16 → byteAt (padBlock []) i = 0) ∧
      (([] : List Nat) = [] → padBlock [] = 0x80 :: List.replicate 15 0)) ∧
    ∃ rk K1 K2 tag,
      KeyExpansion key3 (List.replicate 176 0) = some rk ∧
      GenerateSubkeys key3 block16 block16 = some (K1, K2) ∧
      (∀ K1' : List Nat, CMAC_M_last [] ([] : List Nat).length K1' K2 =
        some (xorBlock (padBlock []) K2)) ∧
      (∀ out, out.length = 16 →
        AES_Encrypt_Block
          (xorBlock (chainX rk [] (blockCount ([] : List Nat).length - 1))
            (xorBlock (padBlock []) K2)) out rk = some tag) ∧
      CMAC key3 [] ([] : List Nat).length 128 block16 = some tag :=
  CMAC_last_block_padded key3 [] block16 key3_length key3_isBytes nil_isBytes nil_size
    block16_length (Or.inl rfl)

/-- C7 at `key3` and the 64-byte message `Message2`. -/
theorem CMAC_last_block_complete_witness :
    ((CMAC_blocks Message2.length).2 = true ↔
      0 < Message2.length ∧ Message2.length % 16 = 0) ∧
    (0 < Message2.length → Message2.length % 16 = 0 →
      ∃ rk K1 K2 tag,
        KeyExpansion key3 (List.replicate 176 0) = some rk ∧
        GenerateSubkeys key3 block16 block16 = some (K1, K2) ∧
        (∀ K2' : List Nat, CMAC_M_last Message2 Message2.length K1 K2' =
          some (xorBlock (Message2.drop (Message2.length - 16)) K1)) ∧
        (∀ out, out.length = 16 →
          AES_Encrypt_Block
            (xorBlock (chainX rk Message2 (blockCount Message2.length - 1))
              (xorBlock (Message2.drop (Message2.length - 16)) K1)) out rk = some tag) ∧
        CMAC key3 Message2 Message2.length 128 block16 = some tag) :=
  CMAC_last_block_complete key3 Message2 block16 key3_length key3_isBytes Message2_isBytes
    Message2_size block16_length

/-- C8 at the key `key3` of `main` and a zeroed buffer. -/
theorem KeyExpansion_schedule_witness :
    ∃ rk, KeyExpansion key3 (List.replicate 176 0) = some rk ∧ rk.length = 176 ∧
      rk.take 16 = key3 ∧
      ∀ w, 4 ≤ w → w ≤ 43 →
        keyWord rk w = List.zipWith (· ^^^ ·) (keyWord rk (w - 4)) (keyT rk w) :=
  KeyExpansion_schedule key3 (List.replicate 176 0) key3_length key3_isBytes
    (List.length_replicate 176 0) isBytes_zeros176

/-- C9 with a buffer `mac` that holds sixteen bytes 0xff before the call. -/
theorem CMAC_kat_four_blocks_witness :
    CMAC key3 Message2 64 128 (List.replicate 16 0xff) =
      some [0x51,0xf0,0xbe,0xbf,0x7e,0x3b,0x9d,0x92,0xfc,0x49,0x74,0x17,0x79,0x36,0x3c,0xfe] :=
  CMAC_kat_four_blocks (List.replicate 16 0xff) (by decide)

/-- C10 at `key3`, `Message2` and `Tlen = 53`, the truncation length that `main` asks for. -/
theorem CMAC_safe_witness :
    ∃ tag, CMAC key3 Message2 Message2.length 53 block16 = some tag ∧ tag.length = 16 ∧
      IsBytes tag :=
  CMAC_safe key3 Message2 block16 53 key3_length key3_isBytes Message2_isBytes Message2_size
    block16_length (by decide) (by decide)

/-! ## Truncation: bits, bytes and repeated truncation -/

theorem tdiv8_toNat (Tlen : Int) (h0 : 0 ≤ Tlen) : (Tlen.tdiv 8).toNat = Tlen.toNat / 8 := by
  rw [Int.tdiv_eq_ediv h0 (by decide)]
  omega

/-- The truncation step on a 16-byte tag for `Tlen` in `[0, 128]`: the first `Tlen / 8`
bytes are kept, every other byte is zero; nothing changes for `Tlen = 128`. -/
theorem CMAC_truncate_bytes (Tlen : Int) (tag : List Nat) (ht : tag.length = 16)
    (h0 : 0 ≤ Tlen) (h128 : Tlen ≤ 128) :
    CMAC_truncate Tlen tag =
      some (tag.take (Tlen.toNat / 8) ++ List.replicate (16 - Tlen.toNat / 8) 0) := by
  by_cases hT : Tlen < 128
  · rw [CMAC_truncate_eq Tlen tag ht (by omega) hT, tdiv8_toNat Tlen h0]
  · have e : Tlen.toNat / 8 = 16 := by omega
    rw [CMAC_truncate_ge Tlen tag (by omega), e, List.take_of_length_le (by omega)]
    simp

theorem truncated_length (tag : List Nat) (ht : tag.length = 16) (F : Nat) (hF : F ≤ 16) :
    (tag.take F ++ List.replicate (16 - F) 0).length = 16 := by
  rw [List.length_append, List.length_take, List.length_replicate]; omega

theorem take_truncated (tag : List Nat) (ht : tag.length = 16) (F F' : Nat) (hF : F ≤ 16)
    (h : F' ≤ F) : (tag.take F ++ List.replicate (16 - F) 0).take F' = tag.take F' := by
  rw [List.take_append_of_le_length (by rw [List.length_take]; omega), List.take_take,
    Nat.min_eq_left h]

/-- Truncating to `T` bits and then to `T' <= T` bits is truncating to `T'` bits. -/
theorem CMAC_truncate_twice (T T' : Int) (tag : List Nat) (ht : tag.length = 16)
    (h0 : 0 ≤ T') (hTT : T' ≤ T) (h128 : T ≤ 128) :
    ∃ t, CMAC_truncate T tag = some t ∧ CMAC_truncate T' t = CMAC_truncate T' tag := by
  have hF : T.toNat / 8 ≤ 16 := by omega
  have hF' : T'.toNat / 8 ≤ T.toNat / 8 := Nat.div_le_div_right (by omega)
  refine ⟨_, CMAC_truncate_bytes T tag ht (by omega) h128, ?_⟩
  rw [CMAC_truncate_bytes T' _ (truncated_length tag ht _ hF) h0 (by omega),
    CMAC_truncate_bytes T' tag ht h0 (by omega), take_truncated tag ht _ _ hF hF']

theorem bitAt_truncated (tag : List Nat) (ht : tag.length = 16) (F p : Nat) (hF : F ≤ 16)
    (hp : 8 * F ≤ p) : bitAt (tag.take F ++ List.replicate (16 - F) 0) p = false := by
  unfold bitAt
  rw [byteAt_take_zeros tag F _ _ (by omega), if_neg (by omega)]
  exact Nat.zero_testBit _

/-! ## More runs of `CMAC` on the test data of `main` -/

/-- The chaining value `X_i` depends on the first `16 i` bytes of the message only. -/
theorem chainX_congr (rk m m' : List Nat) : ∀ i, m.take (16 * i) = m'.take (16 * i) →
    chainX rk m i = chainX rk m' i := by
  intro i
  induction i with
  | zero => intro _; rfl
  | succ i ih =>
    intro h
    have h1 : m.take (16 * i) = m'.take (16 * i) := by
      have := congrArg (List.take (16 * i)) h
      rwa [List.take_take, List.take_take, Nat.min_eq_left (by omega)] at this
    have h2 : (m.drop (16 * i)).take 16 = (m'.drop (16 * i)).take 16 := by
      rw [List.take_drop, List.take_drop, show 16 * i + 16 = 16 * (i + 1) by omega, h]
    rw [chainX, chainX, ih h1, h2]

theorem Message1_isBytes : IsBytes Message1 := by unfold IsBytes Message1; decide

theorem Message1_size : Message1.length + 15 < 2 ^ 64 := by
  rw [show Message1.length = 16 by decide]; norm_num

theorem Message40_isBytes : IsBytes (Message2.take 40) := isBytes_take Message2_isBytes 40

theorem Message40_size : (Message2.take 40).length + 15 < 2 ^ 64 := by
  rw [show (Message2.take 40).length = 40 by decide]; norm_num

theorem Message40_chain2 : chainX rk3 (Message2.take 40) 2 =
    [0xb1,0x48,0xc1,0x7f,0x30,0x9e,0xe6,0x92,0x28,0x7a,0xe5,0x7c,0xf1,0x2a,0xdd,0x49] := by
  rw [chainX_congr rk3 (Message2.take 40) Message2 2 (by decide), Message2_chain2]

theorem Message40_last :
    CMAC_M_last (Message2.take 40) 40
      [0xfb,0xee,0xd6,0x18,0x35,0x71,0x33,0x66,0x7c,0x85,0xe0,0x8f,0x72,0x36,0xa8,0xde]
      [0xf7,0xdd,0xac,0x30,0x6a,0xe2,0x66,0xcc,0xf9,0x0b,0xc1,0x1e,0xe4,0x6d,0x51,0x3b] =
      some [0xc7,0x15,0xb0,0x76,0xc9,0xbe,0x82,0xdd,0x79,0x0b,0xc1,0x1e,0xe4,0x6d,0x51,0x3b] := by
  decide!

theorem Message40_tag :
    AES_Encrypt_Block
      (xorBlock [0xb1,0x48,0xc1,0x7f,0x30,0x9e,0xe6,0x92,0x28,0x7a,0xe5,0x7c,0xf1,0x2a,0xdd,0x49]
        [0xc7,0x15,0xb0,0x76,0xc9,0xbe,0x82,0xdd,0x79,0x0b,0xc1,0x1e,0xe4,0x6d,0x51,0x3b])
      block16 rk3 = some [0xdf,0xa6,0x67,0x47,0xde,0x9a,0xe6,0x30,0x30,0xca,0x32,0x61,0x14,0x97,0xc8,0x27] := by
  decide!

theorem key3_Message40_run : ∀ (Tlen : Int) (mac : List Nat), mac.length = 16 →
    CMAC key3 (Message2.take 40) 40 Tlen mac = CMAC_truncate Tlen
      [0xdf,0xa6,0x67,0x47,0xde,0x9a,0xe6,0x30,0x30,0xca,0x32,0x61,0x14,0x97,0xc8,0x27] :=
  run_of_parts key3 (Message2.take 40) rk3 _ _ _ _ key3_length key3_isBytes Message40_isBytes
    Message40_size key3_schedule key3_L (by rw [key3_K1, key3_K2]; exact Message40_last)
    Message40_chain2 Message40_tag

theorem Message1_last :
    CMAC_M_last Message1 16
      [0xfb,0xee,0xd6,0x18,0x35,0x71,0x33,0x66,0x7c,0x85,0xe0,0x8f,0x72,0x36,0xa8,0xde]
      [0xf7,0xdd,0xac,0x30,0x6a,0xe2,0x66,0xcc,0xf9,0x0b,0xc1,0x1e,0xe4,0x6d,0x51,0x3b] =
      some [0x90,0x2f,0x68,0xfa,0x1b,0x31,0xac,0xf0,0x95,0xb8,0x9e,0x9e,0x01,0xa5,0xbf,0xf4] := by
  decide!

theorem Message1_tag :
    AES_Encrypt_Block
      (xorBlock block16 [0x90,0x2f,0x68,0xfa,0x1b,0x31,0xac,0xf0,0x95,0xb8,0x9e,0x9e,0x01,0xa5,0xbf,0xf4])
      block16 rk3 = some [0x07,0x0a,0x16,0xb4,0x6b,0x4d,0x41,0x44,0xf7,0x9b,0xdd,0x9d,0xd0,0x4a,0x28,0x7c] := by
  decide!

theorem key3_Message1_run : ∀ (Tlen : Int) (mac : List Nat), mac.length = 16 →
    CMAC key3 Message1 16 Tlen mac = CMAC_truncate Tlen
      [0x07,0x0a,0x16,0xb4,0x6b,0x4d,0x41,0x44,0xf7,0x9b,0xdd,0x9d,0xd0,0x4a,0x28,0x7c] :=
  run_of_parts key3 Message1 rk3 _ _ block16 _ key3_length key3_isBytes Message1_isBytes
    Message1_size key3_schedule key3_L (by rw [key3_K1, key3_K2]; exact Message1_last) rfl
    Message1_tag

/-! ## KeyExpansion and the entries of the round-constant table -/

theorem KeyExpansion_core_tbl_Rcon (temp : List Nat) (rc : Nat) :
    KeyExpansion_core_tbl Rcon temp rc = KeyExpansion_core temp rc := rfl

/-- The big-endian value of the `n` low base-256 digits of `v`. -/
theorem digits_val : ∀ (n v : Nat),
    ((List.range n).map fun i => v / 256 ^ (n - 1 - i) % 256).foldl
      (fun a b => a * 256 + b) 0 = v % 256 ^ n := by
  intro n
  induction n with
  | zero => intro v; simp [Nat.mod_one]
  | succ n ih =>
    intro v
    have hpre : ((List.range n).map fun i => v / 256 ^ (n + 1 - 1 - i) % 256) =
        (List.range n).map fun i => v / 256 / 256 ^ (n - 1 - i) % 256 := by
      apply List.map_congr_left
      intro i hi
      have hin : i < n := List.mem_range.mp hi
      have e : n + 1 - 1 - i = (n - 1 - i) + 1 := by omega
      rw [e, Nat.pow_succ, Nat.mul_comm, Nat.div_div_eq_div_mul]
    rw [List.range_succ, List.map_append, List.foldl_append, hpre, ih (v / 256)]
    simp only [List.map_cons, List.map_nil, List.foldl_cons, List.foldl_nil]
    have e0 : n + 1 - 1 - n = 0 := by omega
    rw [e0, Nat.pow_zero, Nat.div_one, Nat.pow_succ, Nat.mul_comm (256 ^ n) 256, Nat.mod_mul]
    omega

/-- A value below `2 ^ 128` is the big-endian value of its 16-byte block. -/
theorem blockVal_valBlock (v : Nat) (h : v < 2 ^ 128) : blockVal (valBlock v) = v := by
  have := digits_val 16 v
  unfold blockVal valBlock
  rw [this]
  exact Nat.mod_eq_of_lt (by norm_num at h ⊢; exact h)

/-! ## ShiftRows and MixColumns: what they compute -/

/-- Four reads followed by four writes into the same 16-byte array: the array after the
writes. -/
theorem row_eq (st : List Nat) (hl : st.length = 16) (i0 i1 i2 i3 j0 j1 j2 j3 : Nat)
    (hi0 : i0 < 16) (hi1 : i1 < 16) (hi2 : i2 < 16) (hi3 : i3 < 16)
    (hj0 : j0 < 16) (hj1 : j1 < 16) (hj2 : j2 < 16) (hj3 : j3 < 16)
    (f : Nat → Nat → Nat → Nat → Nat × Nat × Nat × Nat) :
    ((rd st i0).bind fun t0 => (rd st i1).bind fun t1 =>
      (rd st i2).bind fun t2 => (rd st i3).bind fun t3 =>
      (wr st j0 (f t0 t1 t2 t3).1).bind fun state =>
      (wr state j1 (f t0 t1 t2 t3).2.1).bind fun state =>
      (wr state j2 (f t0 t1 t2 t3).2.2.1).bind fun state =>
      wr state j3 (f t0 t1 t2 t3).2.2.2) =
      some ((((st.set j0 (f (byteAt st i0) (byteAt st i1) (byteAt st i2) (byteAt st i3)).1).set
        j1 (f (byteAt st i0) (byteAt st i1) (byteAt st i2) (byteAt st i3)).2.1).set
        j2 (f (byteAt st i0) (byteAt st i1) (byteAt st i2) (byteAt st i3)).2.2.1).set
        j3 (f (byteAt st i0) (byteAt st i1) (byteAt st i2) (byteAt st i3)).2.2.2) := by
  rw [rd_of_lt (by omega), Option.some_bind, rd_of_lt (by omega), Option.some_bind,
    rd_of_lt (by omega), Option.some_bind, rd_of_lt (by omega), Option.some_bind,
    wr_of_lt _ (by omega), Option.some_bind, wr_of_lt _ (by simp; omega), Option.some_bind,
    wr_of_lt _ (by simp; omega), Option.some_bind, wr_of_lt _ (by simp; omega)]

/-- `ShiftRows` on a state given byte by byte (row-major): row `r` is rotated left by `r`
positions. -/
theorem ShiftRows_eq (a0 a1 a2 a3 a4 a5 a6 a7 a8 a9 a10 a11 a12 a13 a14 a15 : Nat) :
    ShiftRows [a0, a1, a2, a3, a4, a5, a6, a7, a8, a9, a10, a11, a12, a13, a14, a15] =
      some [a0, a1, a2, a3, a5, a6, a7, a4, a10, a11, a8, a9, a15, a12, a13, a14] := by
  have h1 : ShiftRows_row1 [a0, a1, a2, a3, a4, a5, a6, a7, a8, a9, a10, a11, a12, a13, a14, a15]
      = some [a0, a1, a2, a3, a5, a6, a7, a4, a8, a9, a10, a11, a12, a13, a14, a15] :=
    row_eq [a0, a1, a2, a3, a4, a5, a6, a7, a8, a9, a10, a11, a12, a13, a14, a15]
      rfl (1 * 4 + 0) (1 * 4 + 1) (1 * 4 + 2) (1 * 4 + 3) (1 * 4 + 0) (1 * 4 + 1)
      (1 * 4 + 2) (1 * 4 + 3) (by decide) (by decide) (by decide) (by decide) (by decide)
      (by decide) (by decide) (by decide) (fun t0 t1 t2 t3 => (t1, t2, t3, t0))
  have h2 : ShiftRows_row2 [a0, a1, a2, a3, a5, a6, a7, a4, a8, a9, a10, a11, a12, a13, a14, a15]
      = some [a0, a1, a2, a3, a5, a6, a7, a4, a10, a11, a8, a9, a12, a13, a14, a15] :=
    row_eq [a0, a1, a2, a3, a5, a6, a7, a4, a8, a9, a10, a11, a12, a13, a14, a15]
      rfl (2 * 4 + 0) (2 * 4 + 1) (2 * 4 + 2) (2 * 4 + 3) (2 * 4 + 0) (2 * 4 + 1)
      (2 * 4 + 2) (2 * 4 + 3) (by decide) (by decide) (by decide) (by decide) (by decide)
      (by decide) (by decide) (by decide) (fun t0 t1 t2 t3 => (t2, t3, t0, t1))
  have h3 : ShiftRows_row3 [a0, a1, a2, a3, a5, a6, a7, a4, a10, a11, a8, a9, a12, a13, a14, a15]
      = some [a0, a1, a2, a3, a5, a6, a7, a4, a10, a11, a8, a9, a15, a12, a13, a14] :=
    row_eq [a0, a1, a2, a3, a5, a6, a7, a4, a10, a11, a8, a9, a12, a13, a14, a15]
      rfl (3 * 4 + 0) (3 * 4 + 1) (3 * 4 + 2) (3 * 4 + 3) (3 * 4 + 0) (3 * 4 + 1)
      (3 * 4 + 2) (3 * 4 + 3) (by decide) (by decide) (by decide) (by decide) (by decide)
      (by decide) (by decide) (by decide) (fun t0 t1 t2 t3 => (t3, t0, t1, t2))
  unfold ShiftRows
  rw [h1, Option.some_bind, h2, Option.some_bind, h3]

theorem gfMul_one : ∀ a, a < 256 → gfMul 1 a = a := by decide!

theorem gfMul_two : ∀ a, a < 256 → gfMul 2 a = xtime a := by decide!

theorem gfMul_three : ∀ a, a < 256 → gfMul 3 a = xtime a ^^^ a := by decide!

/-- The expressions `r0 .. r3` of `MixColumns` are the rows of the matrix product over
GF(2^8). -/
theorem mixRow_eq_mixProduct (r a0 a1 a2 a3 : Nat) (hr : r < 4) (h0 : a0 < 256)
    (h1 : a1 < 256) (h2 : a2 < 256) (h3 : a3 < 256) :
    mixRow r a0 a1 a2 a3 = mixProduct r a0 a1 a2 a3 := by
  have x0 := xtime_lt a0
  have x1 := xtime_lt a1
  have x2 := xtime_lt a2
  have x3 := xtime_lt a3
  interval_cases r
  · show (xtime a0 ^^^ (a1 ^^^ xtime a1) ^^^ a2 ^^^ a3) % 256 =
      gfMul 2 a0 ^^^ gfMul 3 a1 ^^^ gfMul 1 a2 ^^^ gfMul 1 a3
    rw [gfMul_two a0 h0, gfMul_three a1 h1, gfMul_one a2 h2, gfMul_one a3 h3,
      Nat.xor_comm a1 (xtime a1),
      Nat.mod_eq_of_lt (xor_lt_256 (xor_lt_256 (xor_lt_256 x0 (xor_lt_256 x1 h1)) h2) h3)]
  · show (a0 ^^^ xtime a1 ^^^ (a2 ^^^ xtime a2) ^^^ a3) % 256 =
      gfMul 1 a0 ^^^ gfMul 2 a1 ^^^ gfMul 3 a2 ^^^ gfMul 1 a3
    rw [gfMul_one a0 h0, gfMul_two a1 h1, gfMul_three a2 h2, gfMul_one a3 h3,
      Nat.xor_comm a2 (xtime a2),
      Nat.mod_eq_of_lt (xor_lt_256 (xor_lt_256 (xor_lt_256 h0 x1) (xor_lt_256 x2 h2)) h3)]
  · show (a0 ^^^ a1 ^^^ xtime a2 ^^^ (a3 ^^^ xtime a3)) % 256 =
      gfMul 1 a0 ^^^ gfMul 1 a1 ^^^ gfMul 2 a2 ^^^ gfMul 3 a3
    rw [gfMul_one a0 h0, gfMul_one a1 h1, gfMul_two a2 h2, gfMul_three a3 h3,
      Nat.xor_comm a3 (xtime a3),
      Nat.mod_eq_of_lt (xor_lt_256 (xor_lt_256 (xor_lt_256 h0 h1) x2) (xor_lt_256 x3 h3))]
  · show ((a0 ^^^ xtime a0) ^^^ a1 ^^^ a2 ^^^ xtime a3) % 256 =
      gfMul 3 a0 ^^^ gfMul 1 a1 ^^^ gfMul 1 a2 ^^^ gfMul 2 a3
    rw [gfMul_three a0 h0, gfMul_one a1 h1, gfMul_one a2 h2, gfMul_two a3 h3,
      Nat.xor_comm a0 (xtime a0),
      Nat.mod_eq_of_lt (xor_lt_256 (xor_lt_256 (xor_lt_256 (xor_lt_256 x0 h0) h1) h2) x3)]

/-- `MixColumns` byte by byte: the byte in row `k / 4`, column `k % 4` becomes the
expression of that row on the four bytes of the column. -/
theorem MixColumns_eq (st : List Nat) (hl : st.length = 16) :
    ∃ st', MixColumns st = some st' ∧ st'.length = 16 ∧
      ∀ k, k < 16 → byteAt st' k =
        mixRow (k / 4) (byteAt st (0 * 4 + k % 4)) (byteAt st (1 * 4 + k % 4))
          (byteAt st (2 * 4 + k % 4)) (byteAt st (3 * 4 + k % 4)) := by
  obtain ⟨r, hr, hlen, hP⟩ := forLoop_inv
    (fun c state =>
      (rd state (0 * 4 + c)).bind fun a0 =>
      (rd state (1 * 4 + c)).bind fun a1 =>
      (rd state (2 * 4 + c)).bind fun a2 =>
      (rd state (3 * 4 + c)).bind fun a3 =>
      let r0 := (xtime a0 ^^^ (a1 ^^^ xtime a1) ^^^ a2 ^^^ a3) % 256
      let r1 := (a0 ^^^ xtime a1 ^^^ (a2 ^^^ xtime a2) ^^^ a3) % 256
      let r2 := (a0 ^^^ a1 ^^^ xtime a2 ^^^ (a3 ^^^ xtime a3)) % 256
      let r3 := ((a0 ^^^ xtime a0) ^^^ a1 ^^^ a2 ^^^ xtime a3) % 256
      (wr state (0 * 4 + c) r0).bind fun state =>
      (wr state (1 * 4 + c) r1).bind fun state =>
      (wr state (2 * 4 + c) r2).bind fun state =>
      wr state (3 * 4 + c) r3)
    (fun c t => t.length = 16 ∧ ∀ k, k < 16 → byteAt t k =
      if k % 4 < c then
        mixRow (k / 4) (byteAt st (0 * 4 + k % 4)) (byteAt st (1 * 4 + k % 4))
          (byteAt st (2 * 4 + k % 4)) (byteAt st (3 * 4 + k % 4))
      else byteAt st k)
    4 0 st ⟨hl, fun k _ => by rw [if_neg (by omega)]⟩
    (by
      intro c t _ hc ⟨htl, ht⟩
      have hcol : ∀ i, i < 4 → byteAt t (i * 4 + c) = byteAt st (i * 4 + c) := by
        intro i hi
        rw [ht _ (by omega), if_neg (by omega)]
      have hstep := row_eq t htl (0 * 4 + c) (1 * 4 + c) (2 * 4 + c) (3 * 4 + c) (0 * 4 + c)
        (1 * 4 + c) (2 * 4 + c) (3 * 4 + c) (by omega) (by omega) (by omega) (by omega)
        (by omega) (by omega) (by omega) (by omega)
        (fun a0 a1 a2 a3 => (mixRow 0 a0 a1 a2 a3, mixRow 1 a0 a1 a2 a3, mixRow 2 a0 a1 a2 a3,
          mixRow 3 a0 a1 a2 a3))
      refine ⟨_, hstep, by simp [htl], ?_⟩
      intro k hk
      simp only
      rw [byteAt_set _ _ (by simp; omega), byteAt_set _ _ (by simp; omega),
        byteAt_set _ _ (by simp; omega), byteAt_set _ _ (by omega),
        hcol 0 (by omega), hcol 1 (by omega), hcol 2 (by omega), hcol 3 (by omega)]
      by_cases h3 : k = 3 * 4 + c
      · rw [if_pos h3, if_pos (by omega), h3,
          show (3 * 4 + c) % 4 = c by omega, show (3 * 4 + c) / 4 = 3 by omega]
      · rw [if_neg h3]
        by_cases h2 : k = 2 * 4 + c
        · rw [if_pos h2, if_pos (by omega), h2,
            show (2 * 4 + c) % 4 = c by omega, show (2 * 4 + c) / 4 = 2 by omega]
        · rw [if_neg h2]
          by_cases h1 : k = 1 * 4 + c
          · rw [if_pos h1, if_pos (by omega), h1,
              show (1 * 4 + c) % 4 = c by omega, show (1 * 4 + c) / 4 = 1 by omega]
          · rw [if_neg h1]
            by_cases h0 : k = 0 * 4 + c
            · rw [if_pos h0, if_pos (by omega), h0,
                show (0 * 4 + c) % 4 = c by omega, show (0 * 4 + c) / 4 = 0 by omega]
            · rw [if_neg h0, ht k hk]
              by_cases hlt : k % 4 < c
              · rw [if_pos hlt, if_pos (by omega)]
              · rw [if_neg hlt, if_neg (by omega)])
  refine ⟨r, ?_, hlen, ?_⟩
  · unfold MixColumns; exact hr
  · intro k hk
    rw [hP k hk, if_pos (by omega)]

/-! ## The S-box and the field GF(2^8) -/

theorem xtime_shift : ∀ a, a < 256 →
    xtime a = ((a <<< 1) ^^^ (if a.testBit 7 then 0x1b else 0)) % 256 := by decide!

theorem gfInv_zero : gfInv 0 = 0 := by decide!

/-- The table `sbox` against the field: `gfInv b` is a byte, it is the inverse of `b` when
`b` is not 0, and `sbox[b]` is the affine map of `gfInv b`. -/
theorem sbox_field : ∀ b, b < 256 →
    gfInv b < 256 ∧ (0 < b → gfMul b (gfInv b) = 1) ∧ byteAt sbox b = sboxAffine (gfInv b) := by
  decide!

theorem Message40_literal :
    [0x6b,0xc1,0xbe,0xe2,0x2e,0x40,0x9f,0x96,0xe9,0x3d,0x7e,0x11,0x73,0x93,0x17,0x2a,
     0xae,0x2d,0x8a,0x57,0x1e,0x03,0xac,0x9c,0x9e,0xb7,0x6f,0xac,0x45,0xaf,0x8e,0x51,
     0x30,0xc8,0x1c,0x46,0xa3,0x5c,0xe4,0x11] = Message2.take 40 := by
  decide

/-! ## The claims on truncation, the test vectors and the building blocks of AES -/

/-- C11. For every 16-byte key, every message of bytes and every `Tlen` in `[0, 128]`,
`CMAC` returns a 16-byte tag in which every bit at a position `p >= Tlen` is zero, bit 0
being the most-significant bit of byte 0. -/
theorem CMAC_bits_from_Tlen_zero (key message mac : List Nat) (Tlen : Int)
    (hk : key.length = 16) (hkb : IsBytes key) (hm : IsBytes message)
    (hs : message.length + 15 < 2 ^ 64) (hmac : mac.length = 16) (h0 : 0 ≤ Tlen)
    (h128 : Tlen ≤ 128) :
    ∃ tag, CMAC key message message.length Tlen mac = some tag ∧ tag.length = 16 ∧
      ∀ p : Nat, Tlen ≤ (p : Int) → p < 128 → bitAt tag p = false := by
  obtain ⟨rk, L, M, tag, -, -, -, -, -, -, -, -, -, htb, hrun⟩ :=
    CMAC_run key message hk hkb hm hs
  have hF : Tlen.toNat / 8 ≤ 16 := by omega
  refine ⟨_, ?_, truncated_length tag htb.1 _ hF, ?_⟩
  · rw [hrun Tlen mac hmac, CMAC_truncate_bytes Tlen tag htb.1 h0 h128]
  · intro p hp _
    exact bitAt_truncated tag htb.1 _ p hF (by omega)

/-- C13. Known-answer vector (padded multi-block message): `CMAC` with key
2b7e151628aed2a6abf7158809cf4f3c, the 40-byte message 6bc1bee22e409f96e93d7e117393172a
ae2d8a571e03ac9c9eb76fac45af8e51 30c81c46a35ce411 and `Tlen = 128` returns the tag
dfa66747de9ae63030ca32611497c827, whatever the 16-byte buffer `mac` held. -/
theorem CMAC_kat_40_bytes (mac : List Nat) (hmac : mac.length = 16) :
    CMAC key3
      [0x6b,0xc1,0xbe,0xe2,0x2e,0x40,0x9f,0x96,0xe9,0x3d,0x7e,0x11,0x73,0x93,0x17,0x2a,
       0xae,0x2d,0x8a,0x57,0x1e,0x03,0xac,0x9c,0x9e,0xb7,0x6f,0xac,0x45,0xaf,0x8e,0x51,
       0x30,0xc8,0x1c,0x46,0xa3,0x5c,0xe4,0x11] 40 128 mac =
      some [0xdf,0xa6,0x67,0x47,0xde,0x9a,0xe6,0x30,0x30,0xca,0x32,0x61,0x14,0x97,0xc8,0x27] := by
  rw [Message40_literal, key3_Message40_run 128 mac hmac, CMAC_truncate_ge _ _ (by decide)]

/-- C14. Known-answer vector (single complete block): `CMAC` with key
2b7e151628aed2a6abf7158809cf4f3c, the 16-byte message 6bc1bee22e409f96e93d7e117393172a
(`Message1` of `main`) and `Tlen = 128` returns the tag 070a16b46b4d4144f79bdd9dd04a287c,
whatever the 16-byte buffer `mac` held. -/
theorem CMAC_kat_one_block (mac : List Nat) (hmac : mac.length = 16) :
    Message1 =
        [0x6b,0xc1,0xbe,0xe2,0x2e,0x40,0x9f,0x96,0xe9,0x3d,0x7e,0x11,0x73,0x93,0x17,0x2a] ∧
    CMAC key3 Message1 16 128 mac =
      some [0x07,0x0a,0x16,0xb4,0x6b,0x4d,0x41,0x44,0xf7,0x9b,0xdd,0x9d,0xd0,0x4a,0x28,0x7c] := by
  refine ⟨rfl, ?_⟩
  rw [key3_Message1_run 128 mac hmac, CMAC_truncate_ge _ _ (by decide)]

/-- C15. Truncation monotonicity: for every 16-byte key, every message of bytes and all
`0 <= T' <= T <= 128`, the truncation step of `CMAC` for `T'`, applied to the tag that
`CMAC` returns for `T`, yields the tag that `CMAC` returns for `T'`. -/
theorem CMAC_truncation_monotone (key message mac mac' : List Nat) (T T' : Int)
    (hk : key.length = 16) (hkb : IsBytes key) (hm : IsBytes message)
    (hs : message.length + 15 < 2 ^ 64) (hmac : mac.length = 16) (hmac' : mac'.length = 16)
    (h0 : 0 ≤ T') (hTT : T' ≤ T) (h128 : T ≤ 128) :
    ∃ t t', CMAC key message message.length T mac = some t ∧
      CMAC key message message.length T' mac' = some t' ∧
      CMAC_truncate T' t = some t' := by
  obtain ⟨rk, L, M, tag, -, -, -, -, -, -, -, -, -, htb, hrun⟩ :=
    CMAC_run key message hk hkb hm hs
  obtain ⟨t, h1, h2⟩ := CMAC_truncate_twice T T' tag htb.1 h0 hTT h128
  have h3 := CMAC_truncate_bytes T' tag htb.1 h0 (by omega)
  refine ⟨t, tag.take (T'.toNat / 8) ++ List.replicate (16 - T'.toNat / 8) 0,
    ?_, ?_, ?_⟩
  · rw [hrun T mac hmac, h1]
  · rw [hrun T' mac' hmac', h3]
  · rw [h2, h3]

/-- C17. For every 16-byte block `B` of bytes, `LeftShiftBlock` yields the 16-byte block
whose value, read as a big-endian 128-bit unsigned integer (byte 0 most significant), is
`(2 * B) mod 2^128`. -/
theorem LeftShiftBlock_doubles (B out : List Nat) (hB : Block B) (ho : out.length = 16) :
    ∃ r, LeftShiftBlock B out = some r ∧ r.length = 16 ∧ IsBytes r ∧
      blockVal r = 2 * blockVal B % 2 ^ 128 := by
  refine ⟨_, LeftShiftBlock_eq B out hB ho, (shiftLeft128_block B).1,
    (shiftLeft128_block B).2, ?_⟩
  unfold shiftLeft128
  rw [blockVal_valBlock _ (Nat.mod_lt _ (by norm_num)), Nat.mul_comm]

/-- C18. For every 4x4 state of bytes, `MixColumns` replaces each column
`(a0, a1, a2, a3)` by the product of the circulant matrix
`[[2,3,1,1],[1,2,3,1],[1,1,2,3],[3,1,1,2]]` with that column over
GF(2^8) = GF(2)[x]/(x^8+x^4+x^3+x+1); and for every byte `a`, `xtime a` is the field
product `2*a`, it is `a` shifted left by one bit, XORed with 0x1b when the top bit of `a`
was set and reduced to 8 bits, and `3*a = xtime a XOR a`. -/
theorem MixColumns_matrix (state : List Nat) (hs : Block state) :
    (∃ out, MixColumns state = some out ∧ out.length = 16 ∧
      ∀ r c, r < 4 → c < 4 →
        byteAt out (r * 4 + c) =
          mixProduct r (byteAt state (0 * 4 + c)) (byteAt state (1 * 4 + c))
            (byteAt state (2 * 4 + c)) (byteAt state (3 * 4 + c))) ∧
    ∀ a, a < 256 →
      xtime a = gfMul 2 a ∧
      xtime a = ((a <<< 1) ^^^ (if a.testBit 7 then 0x1b else 0)) % 256 ∧
      gfMul 3 a = xtime a ^^^ a := by
  refine ⟨?_, fun a ha => ⟨(gfMul_two a ha).symm, xtime_shift a ha, gfMul_three a ha⟩⟩
  obtain ⟨out, h, hl, hP⟩ := MixColumns_eq state hs.1
  refine ⟨out, h, hl, ?_⟩
  intro r c hr hc
  rw [hP (r * 4 + c) (by omega), show (r * 4 + c) % 4 = c by omega,
    show (r * 4 + c) / 4 = r by omega]
  exact mixRow_eq_mixProduct r _ _ _ _ hr (hs.2.byteAt _) (hs.2.byteAt _) (hs.2.byteAt _)
    (hs.2.byteAt _)

/-- C19. For every 4x4 state `s`, `ShiftRows` yields the state `out` with
`out[r][c] = s[r][(c + r) mod 4]` for all `r`, `c` in `0 .. 3`: row 0 is unchanged and row
`r` is rotated cyclically left by `r` positions. -/
theorem ShiftRows_rotates (state : List Nat) (hs : state.length = 16) :
    ∃ out, ShiftRows state = some out ∧ out.length = 16 ∧
      (∀ r c, r < 4 → c < 4 →
        byteAt out (r * 4 + c) = byteAt state (r * 4 + (c + r) % 4)) ∧
      ∀ c, c < 4 → byteAt out (0 * 4 + c) = byteAt state (0 * 4 + c) := by
  obtain ⟨a0, a1, a2, a3, a4, a5, a6, a7, a8, a9, a10, a11, a12, a13, a14, a15, rfl⟩ :=
    list16 state hs
  refine ⟨_, ShiftRows_eq a0 a1 a2 a3 a4 a5 a6 a7 a8 a9 a10 a11 a12 a13 a14 a15, rfl, ?_, ?_⟩
  · intro r c hr hc
    interval_cases r <;> interval_cases c <;> rfl
  · intro c hc
    interval_cases c <;> rfl

/-- C20. The table `sbox` has 256 entries and is the FIPS-197 S-box: for every byte `b`,
`sbox[b] = A(inv(b))`, where `inv(b)` is a byte, `inv(0) = 0`, `b * inv(b) = 1` in
GF(2^8) = GF(2)[x]/(x^8+x^4+x^3+x+1) for every `b` other than 0, and
`A(y) = y XOR rotl8(y,1) XOR rotl8(y,2) XOR rotl8(y,3) XOR rotl8(y,4) XOR 0x63`. -/
theorem sbox_is_fips197 :
    sbox.length = 256 ∧ gfInv 0 = 0 ∧
    ∀ b, b < 256 →
      gfInv b < 256 ∧ (0 < b → gfMul b (gfInv b) = 1) ∧
      byteAt sbox b = sboxAffine (gfInv b) :=
  ⟨sbox_length, gfInv_zero, sbox_field⟩

/-! ## The claims at concrete inputs -/

/-- C11 at `key3`, `Message2` and `Tlen = 53`, the truncation length that `main` asks for. -/
theorem CMAC_bits_from_Tlen_zero_witness :
    ∃ tag, CMAC key3 Message2 Message2.length 53 block16 = some tag ∧ tag.length = 16 ∧
      ∀ p : Nat, (53 : Int) ≤ (p : Int) → p < 128 → bitAt tag p = false :=
  CMAC_bits_from_Tlen_zero key3 Message2 block16 53 key3_length key3_isBytes Message2_isBytes
    Message2_size block16_length (by decide) (by decide)

/-- C13 with a buffer `mac` that holds sixteen bytes 0xff before the call. -/
theorem CMAC_kat_40_bytes_witness :
    CMAC key3
      [0x6b,0xc1,0xbe,0xe2,0x2e,0x40,0x9f,0x96,0xe9,0x3d,0x7e,0x11,0x73,0x93,0x17,0x2a,
       0xae,0x2d,0x8a,0x57,0x1e,0x03,0xac,0x9c,0x9e,0xb7,0x6f,0xac,0x45,0xaf,0x8e,0x51,
       0x30,0xc8,0x1c,0x46,0xa3,0x5c,0xe4,0x11] 40 128 (List.replicate 16 0xff) =
      some [0xdf,0xa6,0x67,0x47,0xde,0x9a,0xe6,0x30,0x30,0xca,0x32,0x61,0x14,0x97,0xc8,0x27] :=
  CMAC_kat_40_bytes (List.replicate 16 0xff) (by decide)

/-- C14 with a buffer `mac` that holds sixteen bytes 0xff before the call. -/
theorem CMAC_kat_one_block_witness :
    Message1 =
        [0x6b,0xc1,0xbe,0xe2,0x2e,0x40,0x9f,0x96,0xe9,0x3d,0x7e,0x11,0x73,0x93,0x17,0x2a] ∧
    CMAC key3 Message1 16 128 (List.replicate 16 0xff) =
      some [0x07,0x0a,0x16,0xb4,0x6b,0x4d,0x41,0x44,0xf7,0x9b,0xdd,0x9d,0xd0,0x4a,0x28,0x7c] :=
  CMAC_kat_one_block (List.replicate 16 0xff) (by decide)

/-- C15 at `key3`, `Message2`, `T = 128` and `T' = 53`. -/
theorem CMAC_truncation_monotone_witness :
    ∃ t t', CMAC key3 Message2 Message2.length 128 block16 = some t ∧
      CMAC key3 Message2 Message2.length 53 block16 = some t' ∧
      CMAC_truncate 53 t = some t' :=
  CMAC_truncation_monotone key3 Message2 block16 block16 128 53 key3_length key3_isBytes
    Message2_isBytes Message2_size block16_length block16_length (by decide) (by decide)
    (by decide)

/-- C17 at the block `key3`. -/
theorem LeftShiftBlock_doubles_witness :
    ∃ r, LeftShiftBlock key3 block16 = some r ∧ r.length = 16 ∧ IsBytes r ∧
      blockVal r = 2 * blockVal key3 % 2 ^ 128 :=
  LeftShiftBlock_doubles key3 block16 ⟨key3_length, key3_isBytes⟩ block16_length

/-- C18 at the state `key3`. -/
theorem MixColumns_matrix_witness :
    (∃ out, MixColumns key3 = some out ∧ out.length = 16 ∧
      ∀ r c, r < 4 → c < 4 →
        byteAt out (r * 4 + c) =
          mixProduct r (byteAt key3 (0 * 4 + c)) (byteAt key3 (1 * 4 + c))
            (byteAt key3 (2 * 4 + c)) (byteAt key3 (3 * 4 + c))) ∧
    ∀ a, a < 256 →
      xtime a = gfMul 2 a ∧
      xtime a = ((a <<< 1) ^^^ (if a.testBit 7 then 0x1b else 0)) % 256 ∧
      gfMul 3 a = xtime a ^^^ a :=
  MixColumns_matrix key3 ⟨key3_length, key3_isBytes⟩

/-- C19 at the state `key3`. -/
theorem ShiftRows_rotates_witness :
    ∃ out, ShiftRows key3 = some out ∧ out.length = 16 ∧
      (∀ r c, r < 4 → c < 4 →
        byteAt out (r * 4 + c) = byteAt key3 (r * 4 + (c + r) % 4)) ∧
      ∀ c, c < 4 → byteAt out (0 * 4 + c) = byteAt key3 (0 * 4 + c) :=
  ShiftRows_rotates key3 key3_length

/-- C20 at the byte 0x53, whose inverse is 0xca and whose S-box value is 0xed. -/
theorem sbox_is_fips197_witness :
    gfInv 0x53 = 0xca ∧ gfMul 0x53 (gfInv 0x53) = 1 ∧ byteAt sbox 0x53 = 0xed ∧
      byteAt sbox 0x53 = sboxAffine (gfInv 0x53) :=
  ⟨by decide!, (sbox_is_fips197.2.2 0x53 (by decide)).2.1 (by decide), by decide!,
    (sbox_is_fips197.2.2 0x53 (by decide)).2.2⟩

/-! ## Injectivity of the padding and of the doubling -/

theorem byteAt_xorBlock (a b : List Nat) (ha : a.length = 16) (hb : b.length = 16) (i : Nat)
    (hi : i < 16) : byteAt (xorBlock a b) i = byteAt a i ^^^ byteAt b i := by
  have hl : i < (xorBlock a b).length := by rw [xorBlock_length a b ha hb]; exact hi
  rw [byteAt_eq_getElem hl, byteAt_eq_getElem (show i < a.length by omega),
    byteAt_eq_getElem (show i < b.length by omega)]
  unfold xorBlock
  rw [List.getElem_zipWith]

theorem xorBlock_inj (a b K : List Nat) (ha : a.length = 16) (hb : b.length = 16)
    (hK : K.length = 16) (h : xorBlock a K = xorBlock b K) : a = b := by
  apply list_eq_of_byteAt (by rw [ha, hb])
  intro i hi
  have e := congrArg (fun l => byteAt l i) h
  beta_reduce at e
  rw [byteAt_xorBlock a K ha hK i (by omega), byteAt_xorBlock b K hb hK i (by omega)] at e
  exact Nat.xor_left_injective e

/-- The padded block of a string shorter than 16 bytes: the string, then `0x80`, then zero
bytes. -/
theorem padBlock_short (a : List Nat) (h : a.length ≤ 15) :
    padBlock a = a ++ 0x80 :: List.replicate (15 - a.length) 0 := by
  unfold padBlock
  rw [Nat.mod_eq_of_lt (by omega), Nat.sub_self, List.drop_zero]

theorem pad_byte_beyond (a : List Nat) (k : Nat) (h1 : a.length < k) (h2 : k ≤ 15) :
    byteAt (a ++ 0x80 :: List.replicate (15 - a.length) 0) k = 0 := by
  unfold byteAt
  obtain ⟨d, hd⟩ : ∃ d, k - a.length = d + 1 := ⟨k - a.length - 1, by omega⟩
  rw [List.getD_eq_getElem?_getD, List.getElem?_append_right (by omega), hd,
    List.getElem?_cons_succ, List.getElem?_replicate, if_pos (by omega)]
  rfl

theorem pad_byte_at (a : List Nat) :
    byteAt (a ++ 0x80 :: List.replicate (15 - a.length) 0) a.length = 0x80 := by
  unfold byteAt
  rw [List.getD_eq_getElem?_getD, List.getElem?_append_right (Nat.le_refl _), Nat.sub_self,
    List.getElem?_cons_zero]
  rfl

/-- Two strings shorter than 16 bytes that agree after `0x80` and zero bytes are appended
up to 16 bytes are equal. -/
theorem pad_inj (a b : List Nat) (ha : a.length ≤ 15) (hb : b.length ≤ 15)
    (h : a ++ 0x80 :: List.replicate (15 - a.length) 0 =
      b ++ 0x80 :: List.replicate (15 - b.length) 0) : a = b := by
  rcases Nat.lt_trichotomy a.length b.length with hlt | heq | hgt
  · have e := congrArg (fun l => byteAt l b.length) h
    beta_reduce at e
    rw [pad_byte_beyond a _ hlt hb, pad_byte_at b] at e
    exact absurd e (by decide)
  · exact List.append_inj_left h heq
  · have e := congrArg (fun l => byteAt l a.length) h
    beta_reduce at e
    rw [pad_byte_beyond b _ hgt ha, pad_byte_at a] at e
    exact absurd e (by decide)

/-- Two strings shorter than 16 bytes with the same padded block are equal. -/
theorem padBlock_inj (a b : List Nat) (ha : a.length ≤ 15) (hb : b.length ≤ 15)
    (h : padBlock a = padBlock b) : a = b := by
  rw [padBlock_short a ha, padBlock_short b hb] at h
  exact pad_inj a b ha hb h

/-- Two messages with an incomplete last block and the same padded block have the same
incomplete tail. -/
theorem padBlock_tail_inj (m1 m2 : List Nat) (h : padBlock m1 = padBlock m2) :
    m1.drop (m1.length - m1.length % 16) = m2.drop (m2.length - m2.length % 16) := by
  have r1 : m1.length % 16 < 16 := Nat.mod_lt _ (by decide)
  have r2 : m2.length % 16 < 16 := Nat.mod_lt _ (by decide)
  have l1 : (m1.drop (m1.length - m1.length % 16)).length = m1.length % 16 := by
    rw [List.length_drop]; omega
  have l2 : (m2.drop (m2.length - m2.length % 16)).length = m2.length % 16 := by
    rw [List.length_drop]; omega
  apply pad_inj _ _ (by omega) (by omega)
  rw [l1, l2]
  exact h

theorem byteAt_shiftLeft128 (B : List Nat) (h : Block B) (k : Nat) (hk : k < 16) :
    byteAt (shiftLeft128 B) k = (2 * byteAt B k + byteAt B (k + 1) / 128) % 256 := by
  unfold shiftLeft128
  rw [byteAt_valBlock _ k hk, shift_digit B h k hk]

theorem testBit7_div : ∀ x, x < 256 → (x.testBit 7 = true ↔ x / 128 = 1) := by decide!

theorem xor87_parity : ∀ x, x < 256 → (x ^^^ 0x87) % 2 = (x + 1) % 2 := by decide!

theorem byteAt_dbl (B : List Nat) (k : Nat) :
    byteAt (dbl B) k =
      if (byteAt B 0).testBit 7 = true ∧ k = 15 then byteAt (shiftLeft128 B) 15 ^^^ 0x87
      else byteAt (shiftLeft128 B) k := by
  unfold dbl
  by_cases ht : (byteAt B 0).testBit 7 = true
  · rw [if_pos ht, byteAt_set k _ (by rw [(shiftLeft128_block B).1]; decide)]
    by_cases hk : k = 15
    · rw [if_pos hk, if_pos ⟨ht, hk⟩]
    · rw [if_neg hk, if_neg (fun e => hk e.2)]
  · rw [if_neg ht, if_neg (fun e => ht e.1)]

/-- The doubling step is injective on blocks. -/
theorem dbl_inj (B1 B2 : List Nat) (h1 : Block B1) (h2 : Block B2) (h : dbl B1 = dbl B2) :
    B1 = B2 := by
  have hd : ∀ k, byteAt (dbl B1) k = byteAt (dbl B2) k := fun k => by rw [h]
  have hb1 := fun k => h1.2.byteAt k
  have hb2 := fun k => h2.2.byteAt k
  have z1 : byteAt B1 16 = 0 := byteAt_of_le (by rw [h1.1])
  have z2 : byteAt B2 16 = 0 := byteAt_of_le (by rw [h2.1])
  have s1 := fun k hk => byteAt_shiftLeft128 B1 h1 k hk
  have s2 := fun k hk => byteAt_shiftLeft128 B2 h2 k hk
  have t1 := testBit7_div _ (hb1 0)
  have t2 := testBit7_div _ (hb2 0)
  have e15 := hd 15
  rw [byteAt_dbl, byteAt_dbl, s1 15 (by decide), s2 15 (by decide), z1, z2] at e15
  have p1 := xor87_parity ((2 * byteAt B1 15 + 0 / 128) % 256) (Nat.mod_lt _ (by decide))
  have p2 := xor87_parity ((2 * byteAt B2 15 + 0 / 128) % 256) (Nat.mod_lt _ (by decide))
  have hm : byteAt B1 0 / 128 = byteAt B2 0 / 128 ∧
      (2 * byteAt B1 15) % 256 = (2 * byteAt B2 15) % 256 := by
    have b10 := hb1 0
    have b20 := hb2 0
    by_cases c1 : (byteAt B1 0).testBit 7 = true <;>
      by_cases c2 : (byteAt B2 0).testBit 7 = true
    · rw [if_pos ⟨c1, rfl⟩, if_pos ⟨c2, rfl⟩] at e15
      have e := Nat.xor_left_injective e15
      have := t1.mp c1
      have := t2.mp c2
      omega
    · rw [if_pos ⟨c1, rfl⟩, if_neg (fun e => c2 e.1)] at e15
      omega
    · rw [if_neg (fun e => c1 e.1), if_pos ⟨c2, rfl⟩] at e15
      omega
    · rw [if_neg (fun e => c1 e.1), if_neg (fun e => c2 e.1)] at e15
      have n1 : ¬ byteAt B1 0 / 128 = 1 := fun e => c1 (t1.mpr e)
      have n2 : ¬ byteAt B2 0 / 128 = 1 := fun e => c2 (t2.mpr e)
      omega
  have hs : ∀ k, k < 16 →
      (2 * byteAt B1 k + byteAt B1 (k + 1) / 128) % 256 =
        (2 * byteAt B2 k + byteAt B2 (k + 1) / 128) % 256 := by
    intro k hk
    by_cases hk15 : k = 15
    · subst hk15
      rw [z1, z2]
      omega
    · have e := hd k
      rw [byteAt_dbl, byteAt_dbl, if_neg (fun e => hk15 e.2), if_neg (fun e => hk15 e.2),
        s1 k hk, s2 k hk] at e
      exact e
  apply list_eq_of_byteAt (by rw [h1.1, h2.1])
  intro i hi
  rw [h1.1] at hi
  cases i with
  | zero =>
    have e0 := hs 0 (by decide)
    have := hb1 0
    have := hb2 0
    have := hb1 (0 + 1)
    have := hb2 (0 + 1)
    omega
  | succ j =>
    have ej := hs j (by omega)
    have ej1 := hs (j + 1) hi
    have := hb1 j
    have := hb2 j
    have := hb1 (j + 1)
    have := hb2 (j + 1)
    have := hb1 (j + 1 + 1)
    have := hb2 (j + 1 + 1)
    omega

/-! ## The steps of the cipher, byte by byte -/

/-- Invariant rule for the two nested loops over a 4x4 state that write each element once:
the pass `(i, j)` writes the element `idx i j`, which is the element number `τ` in the
order of the writes, and the value written depends only on the state before the loops. -/
theorem grid_loop (body : Nat → Nat → List Nat → Option (List Nat)) (idx : Nat → Nat → Nat)
    (τ : Nat → Nat) (g : Nat → Nat) (st : List Nat) (hl : st.length = 16)
    (hidx : ∀ i j, i < 4 → j < 4 → idx i j < 16)
    (hτ : ∀ k i j, k < 16 → i < 4 → j < 4 → (τ k = i * 4 + j ↔ k = idx i j))
    (hτ16 : ∀ k, k < 16 → τ k < 16)
    (hbody : ∀ i j t, i < 4 → j < 4 → t.length = 16 →
      byteAt t (idx i j) = byteAt st (idx i j) →
      body i j t = some (t.set (idx i j) (g (idx i j)))) :
    ∃ st', forLoop (fun i s => forLoop (fun j s => body i j s) 4 0 s) 4 0 st = some st' ∧
      st'.length = 16 ∧ ∀ k, k < 16 → byteAt st' k = g k := by
  obtain ⟨r, hr, hlen, hP⟩ := forLoop_inv
    (fun i s => forLoop (fun j s => body i j s) 4 0 s)
    (fun i t => t.length = 16 ∧
      ∀ k, k < 16 → byteAt t k = if τ k < i * 4 then g k else byteAt st k)
    4 0 st ⟨hl, fun k _ => by rw [if_neg (by omega)]⟩
    (by
      intro i t _ hi ⟨htl, ht⟩
      obtain ⟨u, hu, hul, huP⟩ := forLoop_inv
        (fun j s => body i j s)
        (fun j t => t.length = 16 ∧
          ∀ k, k < 16 → byteAt t k = if τ k < i * 4 + j then g k else byteAt st k)
        4 0 t ⟨htl, fun k hk => by rw [ht k hk]; rfl⟩
        (by
          intro j v _ hj ⟨hvl, hv⟩
          have hi4 : i < 4 := by omega
          have hj4 : j < 4 := by omega
          have hk0 := hidx i j hi4 hj4
          have hτ0 : τ (idx i j) = i * 4 + j := (hτ _ i j hk0 hi4 hj4).mpr rfl
          have hcur : byteAt v (idx i j) = byteAt st (idx i j) := by
            rw [hv _ hk0, if_neg (by omega)]
          refine ⟨_, hbody i j v hi4 hj4 hvl hcur, by simp [hvl], ?_⟩
          intro k hk
          rw [byteAt_set k _ (by omega)]
          by_cases e : k = idx i j
          · rw [if_pos e, if_pos (by rw [e]; omega), e]
          · have hne : τ k ≠ i * 4 + j := fun h => e ((hτ k i j hk hi4 hj4).mp h)
            rw [if_neg e, hv k hk]
            by_cases hlt : τ k < i * 4 + j
            · rw [if_pos hlt, if_pos (by omega)]
            · rw [if_neg hlt, if_neg (by omega)])
      refine ⟨u, hu, hul, fun k hk => ?_⟩
      rw [huP k hk, show i * 4 + (0 + 4) = (i + 1) * 4 by omega])
  exact ⟨r, hr, hlen, fun k hk => by
    rw [hP k hk, if_pos (by have := hτ16 k hk; omega)]⟩

/-- `SubBytes` byte by byte: every byte is replaced by its entry in `sbox`. -/
theorem SubBytes_eq (st : List Nat) (h : Block st) :
    ∃ st', SubBytes st = some st' ∧ st'.length = 16 ∧
      ∀ k, k < 16 → byteAt st' k = byteAt sbox (byteAt st k) :=
  grid_loop
    (fun r c state => ((rd state (r * 4 + c)).bind (rd sbox)).bind (wr state (r * 4 + c)))
    (fun r c => r * 4 + c) (fun k => k) (fun k => byteAt sbox (byteAt st k)) st h.1
    (fun _ _ _ _ => by beta_reduce; omega) (fun _ _ _ _ _ _ => Iff.rfl) (fun _ hk => hk)
    (by
      intro r c t hr hc htl hcur
      beta_reduce
      rw [rd_of_lt (by omega), Option.some_bind,
        rd_of_lt (by rw [sbox_length]; exact hcur ▸ h.2.byteAt _), Option.some_bind,
        wr_of_lt _ (by omega), hcur])

/-- `AddRoundKey` byte by byte: `state[r][c]` is XORed with `roundKey[c * 4 + r]`. -/
theorem AddRoundKey_eq (st rk : List Nat) (hl : st.length = 16) (hrk : 16 ≤ rk.length) :
    ∃ st', AddRoundKey st rk = some st' ∧ st'.length = 16 ∧
      ∀ k, k < 16 → byteAt st' k = byteAt st k ^^^ byteAt rk (k % 4 * 4 + k / 4) :=
  grid_loop
    (fun r c state =>
      (rd state (r * 4 + c)).bind fun s =>
      (rd rk (c * 4 + r)).bind fun k =>
      wr state (r * 4 + c) (s ^^^ k))
    (fun r c => r * 4 + c) (fun k => k)
    (fun k => byteAt st k ^^^ byteAt rk (k % 4 * 4 + k / 4)) st hl
    (fun _ _ _ _ => by beta_reduce; omega) (fun _ _ _ _ _ _ => Iff.rfl) (fun _ hk => hk)
    (by
      intro r c t hr hc htl hcur
      beta_reduce
      rw [rd_of_lt (by omega), Option.some_bind, rd_of_lt (by omega), Option.some_bind,
        wr_of_lt _ (by omega), hcur, show (r * 4 + c) % 4 * 4 + (r * 4 + c) / 4 = c * 4 + r by
          omega])

/-- The first loop of `AES_Encrypt_Block` leaves the transposed input in the state. -/
theorem AES_load_eq (inp : List Nat) (hl : inp.length = 16) :
    AES_load inp = some (storeImage inp) := by
  obtain ⟨st, hst, hlen, hP⟩ := grid_loop
    (fun c r state => (rd inp (c * 4 + r)).bind (wr state (r * 4 + c)))
    (fun c r => r * 4 + c) (fun k => k % 4 * 4 + k / 4)
    (fun k => byteAt inp (k % 4 * 4 + k / 4)) block16 block16_length
    (fun _ _ _ _ => by beta_reduce; omega) (fun _ _ _ _ _ _ => by beta_reduce; omega)
    (fun _ _ => by beta_reduce; omega)
    (by
      intro c r t hc hr htl _
      beta_reduce
      rw [rd_of_lt (by omega), Option.some_bind, wr_of_lt _ (by omega),
        show (r * 4 + c) % 4 * 4 + (r * 4 + c) / 4 = c * 4 + r by omega])
  unfold AES_load
  rw [hst]
  congr 1
  apply list_eq_of_byteAt
  · rw [hlen, storeImage_length]
  · intro i hi
    rw [hP i (by omega), byteAt_storeImage inp i (by omega)]

theorem storeImage_inj (a b : List Nat) (ha : a.length = 16) (hb : b.length = 16)
    (h : storeImage a = storeImage b) : a = b := by
  apply list_eq_of_byteAt (by rw [ha, hb])
  intro i hi
  have e := congrArg (fun l => byteAt l (i % 4 * 4 + i / 4)) h
  beta_reduce at e
  rw [byteAt_storeImage a _ (by omega), byteAt_storeImage b _ (by omega),
    show (i % 4 * 4 + i / 4) % 4 * 4 + (i % 4 * 4 + i / 4) / 4 = i by omega] at e
  exact e

/-! ## The S-box is a permutation of the bytes -/

theorem sbox_onto : ∀ y, y < 256 → y ∈ sbox := by decide!

/-- Every byte is an entry of `sbox`. -/
theorem sbox_surj (y : Nat) (hy : y < 256) : ∃ x, x < 256 ∧ byteAt sbox x = y := by
  obtain ⟨i, hi, e⟩ := List.getElem_of_mem (sbox_onto y hy)
  exact ⟨i, by rw [← sbox_length]; exact hi, by rw [byteAt_eq_getElem hi, e]⟩

/-- No two bytes have the same entry in `sbox`. -/
theorem sbox_inj (a b : Nat) (ha : a < 256) (hb : b < 256)
    (h : byteAt sbox a = byteAt sbox b) : a = b := by
  have hs : Function.Surjective
      (fun i : Fin 256 => (⟨byteAt sbox i.1, sbox_lt i.1 i.2⟩ : Fin 256)) := by
    intro y
    obtain ⟨x, hx, e⟩ := sbox_surj y.1 y.2
    exact ⟨⟨x, hx⟩, Fin.ext e⟩
  have hi := Finite.injective_iff_surjective.mpr hs
  have := @hi ⟨a, ha⟩ ⟨b, hb⟩ (Fin.ext h)
  exact congrArg Fin.val this

/-! ## MixColumns applied four times is the identity -/

theorem and80_testBit (x : Nat) : (x &&& 0x80 ≠ 0) ↔ x.testBit 7 = true := by
  constructor
  · intro h
    by_contra hc
    apply h
    apply Nat.eq_of_testBit_eq
    intro i
    rw [Nat.testBit_and, show (0x80 : Nat) = 2 ^ 7 by norm_num, Nat.testBit_two_pow,
      Nat.zero_testBit]
    by_cases hi : 7 = i
    · subst hi; simp [hc]
    · simp [hi]
  · intro h e
    have := congrArg (fun n => Nat.testBit n 7) e
    beta_reduce at this
    rw [Nat.testBit_and, h] at this
    revert this
    decide

theorem xtime_testBit (x : Nat) :
    xtime x = ((x <<< 1) ^^^ (if x.testBit 7 = true then 0x1b else 0)) % 256 := by
  unfold xtime
  rw [if_congr (and80_testBit x) rfl rfl]

/-- The map `xtime` is linear over GF(2). -/
theorem xtime_xor (a b : Nat) : xtime (a ^^^ b) = xtime a ^^^ xtime b := by
  rw [xtime_testBit, xtime_testBit, xtime_testBit, Nat.testBit_xor]
  apply Nat.eq_of_testBit_eq
  intro i
  simp only [show (256 : Nat) = 2 ^ 8 by norm_num, Nat.testBit_mod_two_pow, Nat.testBit_xor,
    Nat.testBit_shiftLeft]
  cases a.testBit 7 <;> cases b.testBit 7 <;>
    simp only [Bool.xor_false, Bool.xor_true, Bool.not_true, Bool.not_false, if_true, if_false,
      Bool.false_eq_true, Nat.zero_testBit] <;>
    cases decide (i < 8) <;> cases decide (i ≥ 1) <;> cases a.testBit (i - 1) <;>
      cases b.testBit (i - 1) <;> cases Nat.testBit 27 i <;> rfl

theorem xor_left_comm (a b c : Nat) : a ^^^ (b ^^^ c) = b ^^^ (a ^^^ c) := by
  rw [← Nat.xor_assoc, Nat.xor_comm a b, Nat.xor_assoc]

/-- The square of the MixColumns matrix, for any XOR-linear map `T` in the place of
`xtime`. -/
theorem mixLin_twice (T : Nat → Nat) (hT : ∀ a b, T (a ^^^ b) = T a ^^^ T b)
    (a0 a1 a2 a3 : Nat) :
    mixLin T (mixLin T (a0, a1, a2, a3)) =
      (T (T a0) ^^^ a0 ^^^ T (T a2), T (T a1) ^^^ a1 ^^^ T (T a3),
        T (T a0) ^^^ a2 ^^^ T (T a2), T (T a1) ^^^ a3 ^^^ T (T a3)) := by
  unfold mixLin
  dsimp only
  simp only [hT, Nat.xor_assoc]
  simp only [Nat.xor_comm, xor_left_comm, Nat.xor_self, Nat.xor_zero, Nat.xor_cancel_left]

/-- The fourth power of the MixColumns matrix is the identity, for any XOR-linear map `T`
in the place of `xtime`. -/
theorem mixLin_four (T : Nat → Nat) (hT : ∀ a b, T (a ^^^ b) = T a ^^^ T b)
    (a0 a1 a2 a3 : Nat) :
    mixLin T (mixLin T (mixLin T (mixLin T (a0, a1, a2, a3)))) = (a0, a1, a2, a3) := by
  rw [mixLin_twice T hT a0 a1 a2 a3, mixLin_twice T hT]
  simp only [hT, Nat.xor_assoc]
  simp only [Nat.xor_comm, xor_left_comm, Nat.xor_self, Nat.xor_zero, Nat.xor_cancel_left]

theorem mixCol_lt (v : Nat × Nat × Nat × Nat) :
    (mixCol v).1 < 256 ∧ (mixCol v).2.1 < 256 ∧ (mixCol v).2.2.1 < 256 ∧
      (mixCol v).2.2.2 < 256 :=
  ⟨Nat.mod_lt _ (by decide), Nat.mod_lt _ (by decide), Nat.mod_lt _ (by decide),
    Nat.mod_lt _ (by decide)⟩

/-- On a column of bytes the narrowing in `MixColumns` changes nothing. -/
theorem mixCol_eq_mixLin (v : Nat × Nat × Nat × Nat) (h0 : v.1 < 256) (h1 : v.2.1 < 256)
    (h2 : v.2.2.1 < 256) (h3 : v.2.2.2 < 256) : mixCol v = mixLin xtime v := by
  have x0 := xtime_lt v.1
  have x1 := xtime_lt v.2.1
  have x2 := xtime_lt v.2.2.1
  have x3 := xtime_lt v.2.2.2
  show ((xtime v.1 ^^^ (v.2.1 ^^^ xtime v.2.1) ^^^ v.2.2.1 ^^^ v.2.2.2) % 256,
    (v.1 ^^^ xtime v.2.1 ^^^ (v.2.2.1 ^^^ xtime v.2.2.1) ^^^ v.2.2.2) % 256,
    (v.1 ^^^ v.2.1 ^^^ xtime v.2.2.1 ^^^ (v.2.2.2 ^^^ xtime v.2.2.2)) % 256,
    ((v.1 ^^^ xtime v.1) ^^^ v.2.1 ^^^ v.2.2.1 ^^^ xtime v.2.2.2) % 256) = _
  rw [Nat.mod_eq_of_lt (xor_lt_256 (xor_lt_256 (xor_lt_256 x0 (xor_lt_256 h1 x1)) h2) h3),
    Nat.mod_eq_of_lt (xor_lt_256 (xor_lt_256 (xor_lt_256 h0 x1) (xor_lt_256 h2 x2)) h3),
    Nat.mod_eq_of_lt (xor_lt_256 (xor_lt_256 (xor_lt_256 h0 h1) x2) (xor_lt_256 h3 x3)),
    Nat.mod_eq_of_lt (xor_lt_256 (xor_lt_256 (xor_lt_256 (xor_lt_256 h0 x0) h1) h2) x3)]
  rfl

/-- The column map of `MixColumns`, applied four times to a column of bytes, gives the
column back. -/
theorem mixCol_four (a0 a1 a2 a3 : Nat) (h0 : a0 < 256) (h1 : a1 < 256) (h2 : a2 < 256)
    (h3 : a3 < 256) :
    mixCol (mixCol (mixCol (mixCol (a0, a1, a2, a3)))) = (a0, a1, a2, a3) := by
  have l1 := mixCol_lt (a0, a1, a2, a3)
  have l2 := mixCol_lt (mixCol (a0, a1, a2, a3))
  have l3 := mixCol_lt (mixCol (mixCol (a0, a1, a2, a3)))
  rw [mixCol_eq_mixLin _ l3.1 l3.2.1 l3.2.2.1 l3.2.2.2,
    mixCol_eq_mixLin _ l2.1 l2.2.1 l2.2.2.1 l2.2.2.2,
    mixCol_eq_mixLin _ l1.1 l1.2.1 l1.2.2.1 l1.2.2.2,
    mixCol_eq_mixLin (a0, a1, a2, a3) h0 h1 h2 h3]
  exact mixLin_four xtime xtime_xor a0 a1 a2 a3

/-- The column map of `MixColumns` is injective on columns of bytes. -/
theorem mixCol_inj (a0 a1 a2 a3 b0 b1 b2 b3 : Nat) (ha0 : a0 < 256) (ha1 : a1 < 256)
    (ha2 : a2 < 256) (ha3 : a3 < 256) (hb0 : b0 < 256) (hb1 : b1 < 256) (hb2 : b2 < 256)
    (hb3 : b3 < 256) (h : mixCol (a0, a1, a2, a3) = mixCol (b0, b1, b2, b3)) :
    (a0, a1, a2, a3) = (b0, b1, b2, b3) := by
  rw [← mixCol_four a0 a1 a2 a3 ha0 ha1 ha2 ha3, ← mixCol_four b0 b1 b2 b3 hb0 hb1 hb2 hb3, h]

/-! ## Every step of `AES_Encrypt_Block` is injective on blocks -/

theorem blockInj_comp {f g : List Nat → Option (List Nat)} (hf : BlockInj f)
    (hg : BlockInj g) : BlockInj (fun s => (f s).bind g) := by
  refine ⟨?_, ?_⟩
  · intro a ha
    obtain ⟨x, hx, bx⟩ := hf.1 a ha
    obtain ⟨y, hy, hby⟩ := hg.1 x bx
    exact ⟨y, by beta_reduce; rw [hx, Option.some_bind, hy], hby⟩
  · intro a b ha hb h
    obtain ⟨x, hx, bx⟩ := hf.1 a ha
    obtain ⟨y, hy, hby⟩ := hf.1 b hb
    beta_reduce at h
    rw [hx, hy, Option.some_bind, Option.some_bind] at h
    have e := hg.2 x y bx hby h
    exact hf.2 a b ha hb (by rw [hx, hy, e])

theorem blockInj_forLoop (body : Nat → List Nat → Option (List Nat)) :
    ∀ (n i : Nat), (∀ j, i ≤ j → j < i + n → BlockInj (body j)) →
      BlockInj (fun s => forLoop body n i s) := by
  intro n
  induction n with
  | zero =>
    intro i _
    refine ⟨fun a ha => ⟨a, forLoop_zero body i a, ha⟩, ?_⟩
    intro a b _ _ h
    beta_reduce at h
    rw [forLoop_zero, forLoop_zero] at h
    exact Option.some.inj h
  | succ n ih =>
    intro i h
    have e : (fun s => forLoop body (n + 1) i s) =
        fun s => (body i s).bind (fun t => forLoop body n (i + 1) t) := by
      funext s
      rw [forLoop_succ]
    rw [e]
    exact blockInj_comp (h i (Nat.le_refl i) (by omega))
      (ih (i + 1) (fun j hj hj' => h j (by omega) (by omega)))

/-- `SubBytes` is injective on blocks. -/
theorem SubBytes_inj : BlockInj SubBytes := by
  refine ⟨SubBytes_ok, ?_⟩
  intro a b ha hb h
  obtain ⟨x, hx, -, px⟩ := SubBytes_eq a ha
  obtain ⟨y, hy, -, py⟩ := SubBytes_eq b hb
  rw [hx, hy] at h
  have e := Option.some.inj h
  apply list_eq_of_byteAt (by rw [ha.1, hb.1])
  intro i hi
  rw [ha.1] at hi
  apply sbox_inj _ _ (ha.2.byteAt i) (hb.2.byteAt i)
  rw [← px i hi, ← py i hi, e]

/-- `AddRoundKey` with a fixed round key is injective on blocks. -/
theorem AddRoundKey_inj (rk : List Nat) (hl : 16 ≤ rk.length) (hb : IsBytes rk) :
    BlockInj (fun s => AddRoundKey s rk) := by
  refine ⟨fun a ha => AddRoundKey_ok a rk ha hl hb, ?_⟩
  intro a b ha hb h
  obtain ⟨x, hx, -, px⟩ := AddRoundKey_eq a rk ha.1 hl
  obtain ⟨y, hy, -, py⟩ := AddRoundKey_eq b rk hb.1 hl
  beta_reduce at h
  rw [hx, hy] at h
  have e := Option.some.inj h
  apply list_eq_of_byteAt (by rw [ha.1, hb.1])
  intro i hi
  rw [ha.1] at hi
  apply Nat.xor_left_injective (n := byteAt rk (i % 4 * 4 + i / 4))
  beta_reduce
  rw [← px i hi, ← py i hi, e]

/-- `ShiftRows` is injective on blocks. -/
theorem ShiftRows_inj : BlockInj ShiftRows := by
  refine ⟨ShiftRows_ok, ?_⟩
  intro a b ha hb h
  obtain ⟨a0, a1, a2, a3, a4, a5, a6, a7, a8, a9, a10, a11, a12, a13, a14, a15, rfl⟩ :=
    list16 a ha.1
  obtain ⟨b0, b1, b2, b3, b4, b5, b6, b7, b8, b9, b10, b11, b12, b13, b14, b15, rfl⟩ :=
    list16 b hb.1
  rw [ShiftRows_eq, ShiftRows_eq] at h
  simp only [Option.some.injEq, List.cons.injEq, and_true] at h
  obtain ⟨rfl, rfl, rfl, rfl, rfl, rfl, rfl, rfl, rfl, rfl, rfl, rfl, rfl, rfl, rfl, rfl⟩ := h
  rfl

/-- `MixColumns` is injective on blocks. -/
theorem MixColumns_inj : BlockInj MixColumns := by
  refine ⟨MixColumns_ok, ?_⟩
  intro a b ha hb h
  obtain ⟨x, hx, -, px⟩ := MixColumns_eq a ha.1
  obtain ⟨y, hy, -, py⟩ := MixColumns_eq b hb.1
  rw [hx, hy] at h
  have e := Option.some.inj h
  have hrow : ∀ r c, r < 4 → c < 4 →
      mixRow r (byteAt a (0 * 4 + c)) (byteAt a (1 * 4 + c)) (byteAt a (2 * 4 + c))
          (byteAt a (3 * 4 + c)) =
        mixRow r (byteAt b (0 * 4 + c)) (byteAt b (1 * 4 + c)) (byteAt b (2 * 4 + c))
          (byteAt b (3 * 4 + c)) := by
    intro r c hr hc
    have h1 := px (r * 4 + c) (by omega)
    have h2 := py (r * 4 + c) (by omega)
    rw [show (r * 4 + c) % 4 = c by omega, show (r * 4 + c) / 4 = r by omega] at h1 h2
    rw [← h1, ← h2, e]
  have hcol : ∀ c, c < 4 →
      (byteAt a (0 * 4 + c), byteAt a (1 * 4 + c), byteAt a (2 * 4 + c), byteAt a (3 * 4 + c)) =
        (byteAt b (0 * 4 + c), byteAt b (1 * 4 + c), byteAt b (2 * 4 + c),
          byteAt b (3 * 4 + c)) := by
    intro c hc
    apply mixCol_inj _ _ _ _ _ _ _ _ (ha.2.byteAt _) (ha.2.byteAt _) (ha.2.byteAt _)
      (ha.2.byteAt _) (hb.2.byteAt _) (hb.2.byteAt _) (hb.2.byteAt _) (hb.2.byteAt _)
    unfold mixCol
    dsimp only
    rw [hrow 0 c (by decide) hc, hrow 1 c (by decide) hc, hrow 2 c (by decide) hc,
      hrow 3 c (by decide) hc]
  apply list_eq_of_byteAt (by rw [ha.1, hb.1])
  intro i hi
  rw [ha.1] at hi
  have hc := hcol (i % 4) (Nat.mod_lt _ (by decide))
  simp only [Prod.mk.injEq] at hc
  obtain ⟨e0, e1, e2, e3⟩ := hc
  have hi4 : i = 0 * 4 + i % 4 ∨ i = 1 * 4 + i % 4 ∨ i = 2 * 4 + i % 4 ∨ i = 3 * 4 + i % 4 := by
    omega
  rcases hi4 with h' | h' | h' | h'
  · rw [h']; exact e0
  · rw [h']; exact e1
  · rw [h']; exact e2
  · rw [h']; exact e3

/-- The first loop of `AES_Encrypt_Block` is injective on blocks. -/
theorem AES_load_inj : BlockInj AES_load := by
  refine ⟨AES_load_ok, ?_⟩
  intro a b ha hb h
  rw [AES_load_eq a ha.1, AES_load_eq b hb.1] at h
  exact storeImage_inj a b ha.1 hb.1 (Option.some.inj h)

/-- The last loop of `AES_Encrypt_Block` is injective on blocks. -/
theorem AES_store_inj (out : List Nat) (ho : out.length = 16) :
    BlockInj (fun s => AES_store s out) := by
  refine ⟨fun a ha => ⟨_, AES_store_eq a out ha.1 ho, storeImage_block a ha.2⟩, ?_⟩
  intro a b ha hb h
  beta_reduce at h
  rw [AES_store_eq a out ha.1 ho, AES_store_eq b out hb.1 ho] at h
  exact storeImage_inj a b ha.1 hb.1 (Option.some.inj h)

/-- A round of `AES_Encrypt_Block` is injective on blocks. -/
theorem AES_round_inj (rk : List Nat) (hrk : rk.length = 176) (hb : IsBytes rk) (round : Nat)
    (hr : round ≤ 10) : BlockInj (AES_round rk round) :=
  blockInj_comp SubBytes_inj (blockInj_comp ShiftRows_inj (blockInj_comp MixColumns_inj
    (AddRoundKey_inj (rk.drop (round * 16)) (by rw [List.length_drop]; omega)
      (isBytes_drop hb _))))

/-- For a fixed schedule, `AES_Encrypt_Block` is injective on blocks. -/
theorem AES_Encrypt_Block_inj (rk out : List Nat) (hrk : rk.length = 176) (hb : IsBytes rk)
    (ho : out.length = 16) : BlockInj (fun inp => AES_Encrypt_Block inp out rk) :=
  blockInj_comp AES_load_inj
    (blockInj_comp (AddRoundKey_inj rk (by omega) hb)
      (blockInj_comp
        (blockInj_forLoop (AES_round rk) 9 1
          (fun j _ hj => AES_round_inj rk hrk hb j (by omega)))
        (blockInj_comp SubBytes_inj (blockInj_comp ShiftRows_inj
          (blockInj_comp
            (AddRoundKey_inj (rk.drop (10 * 16)) (by rw [List.length_drop]; omega)
              (isBytes_drop hb _))
            (AES_store_inj out ho))))))

theorem rk3_block : rk3.length = 176 ∧ IsBytes rk3 := by
  obtain ⟨rk, h, hl, hb⟩ := KeyExpansion_ok key3 (List.replicate 176 0) key3_length
    key3_isBytes (List.length_replicate 176 0) isBytes_zeros176
  rw [key3_schedule] at h
  rw [Option.some.inj h]
  exact ⟨hl, hb⟩

theorem size_of_short (a : List Nat) (h : a.length ≤ 15) : a.length + 15 < 2 ^ 64 := by
  have : (30 : Nat) < 2 ^ 64 := by norm_num
  omega

/-! ## The claims on injectivity -/

/-- C21. For every 176-byte round-key schedule of bytes, `AES_Encrypt_Block` is injective
on 16-byte blocks of bytes: it returns a block for each of two input blocks, and two
different input blocks never give the same output block.  Moreover `sbox` is a permutation
of the 256 byte values (no two bytes share an entry, every byte is an entry), and
`ShiftRows`, `MixColumns` and `AddRoundKey` with each of the 11 round keys are injective on
blocks. -/
theorem AES_Encrypt_Block_injective (rk B1 B2 out1 out2 : List Nat) (hrk : rk.length = 176)
    (hb : IsBytes rk) (h1 : Block B1) (h2 : Block B2) (ho1 : out1.length = 16)
    (ho2 : out2.length = 16) :
    (∃ X1 X2, AES_Encrypt_Block B1 out1 rk = some X1 ∧
      AES_Encrypt_Block B2 out2 rk = some X2 ∧ (B1 ≠ B2 → X1 ≠ X2)) ∧
    ((∀ a b, a < 256 → b < 256 → byteAt sbox a = byteAt sbox b → a = b) ∧
      ∀ y, y < 256 → ∃ x, x < 256 ∧ byteAt sbox x = y) ∧
    BlockInj ShiftRows ∧ BlockInj MixColumns ∧
    ∀ round, round ≤ 10 → BlockInj (fun s => AddRoundKey s (rk.drop (round * 16))) := by
  refine ⟨?_, ⟨sbox_inj, sbox_surj⟩, ShiftRows_inj, MixColumns_inj, ?_⟩
  · obtain ⟨X1, -, hX1⟩ := AES_Encrypt_Block_ok B1 rk h1 hrk hb
    obtain ⟨X2, -, hX2⟩ := AES_Encrypt_Block_ok B2 rk h2 hrk hb
    refine ⟨X1, X2, hX1 out1 ho1, hX2 out2 ho2, ?_⟩
    intro hne e
    apply hne
    apply (AES_Encrypt_Block_inj rk block16 hrk hb block16_length).2 B1 B2 h1 h2
    beta_reduce
    rw [hX1 block16 block16_length, hX2 block16 block16_length, e]
  · intro round hr
    exact AddRoundKey_inj _ (by rw [List.length_drop]; omega) (isBytes_drop hb _)

/-- C22. The padding that `CMAC` applies to an incomplete last block is injective: for any
two strings `a` and `b` of lengths 0 .. 15 (possibly of different lengths), the padded
block is the string, then `0x80`, then zero bytes up to 16 bytes, and equal padded blocks
mean `a = b`; under one subkey `K2`, `CMAC` forms a last block `M_last` for each of them,
and different strings give different `M_last`.  For messages of any length with an
incomplete last block, equal `M_last` means equal incomplete tails. -/
theorem CMAC_padding_injective (a b K1 K1' K2 : List Nat) (ha : a.length ≤ 15)
    (hb : b.length ≤ 15) (hK : K2.length = 16) :
    (padBlock a = a ++ 0x80 :: List.replicate (15 - a.length) 0 ∧
      padBlock b = b ++ 0x80 :: List.replicate (15 - b.length) 0 ∧
      (padBlock a = padBlock b → a = b)) ∧
    (∃ Ma Mb, CMAC_M_last a a.length K1 K2 = some Ma ∧
      CMAC_M_last b b.length K1' K2 = some Mb ∧ (a ≠ b → Ma ≠ Mb)) ∧
    ∀ m1 m2 : List Nat, (m1.length = 0 ∨ m1.length % 16 ≠ 0) →
      (m2.length = 0 ∨ m2.length % 16 ≠ 0) → m1.length + 15 < 2 ^ 64 →
      m2.length + 15 < 2 ^ 64 →
      CMAC_M_last m1 m1.length K1 K2 = CMAC_M_last m2 m2.length K1' K2 →
      m1.drop (m1.length - m1.length % 16) = m2.drop (m2.length - m2.length % 16) := by
  refine ⟨⟨padBlock_short a ha, padBlock_short b hb, padBlock_inj a b ha hb⟩, ?_, ?_⟩
  · refine ⟨_, _,
      CMAC_M_last_padded a K1 K2 (by omega) (size_of_short a ha) hK,
      CMAC_M_last_padded b K1' K2 (by omega) (size_of_short b hb) hK, ?_⟩
    intro hne e
    apply hne
    exact padBlock_inj a b ha hb
      (xorBlock_inj _ _ K2 (padBlock_length a) (padBlock_length b) hK e)
  · intro m1 m2 hm1 hm2 hs1 hs2 e
    rw [CMAC_M_last_padded m1 K1 K2 hm1 hs1 hK, CMAC_M_last_padded m2 K1' K2 hm2 hs2 hK] at e
    exact padBlock_tail_inj m1 m2
      (xorBlock_inj _ _ K2 (padBlock_length m1) (padBlock_length m2) hK (Option.some.inj e))

/-- C23. The subkey step of `GenerateSubkeys` (`LeftShiftBlock`, then XOR of `0x87` into
byte 15 when the most-significant bit of the input is set) is injective on 16-byte blocks
of bytes: from two blocks `B1`, `B2` it yields `K1 = dbl B1`, `K1' = dbl B2`, and from
those `K2`, `K2'`; different `B1`, `B2` give different `K1`, `K1'`, and different `K1`,
`K1'` give different `K2`, `K2'`. -/
theorem GenerateSubkeys_step_injective (B1 B2 tmp1 tmp2 : List Nat) (h1 : Block B1)
    (h2 : Block B2) (ht1 : tmp1.length = 16) (ht2 : tmp2.length = 16) :
    ∃ K1 K1' K2 K2', GenerateSubkeys_step B1 tmp1 = some K1 ∧
      GenerateSubkeys_step B2 tmp2 = some K1' ∧
      (∀ t, t.length = 16 → GenerateSubkeys_step K1 t = some K2) ∧
      (∀ t, t.length = 16 → GenerateSubkeys_step K1' t = some K2') ∧
      K1 = dbl B1 ∧ K1' = dbl B2 ∧
      (B1 ≠ B2 → K1 ≠ K1') ∧ (K1 ≠ K1' → K2 ≠ K2') := by
  refine ⟨dbl B1, dbl B2, dbl (dbl B1), dbl (dbl B2),
    GenerateSubkeys_step_eq B1 tmp1 h1 ht1, GenerateSubkeys_step_eq B2 tmp2 h2 ht2,
    fun t ht => GenerateSubkeys_step_eq (dbl B1) t (dbl_block B1) ht,
    fun t ht => GenerateSubkeys_step_eq (dbl B2) t (dbl_block B2) ht, rfl, rfl, ?_, ?_⟩
  · intro hne e
    exact hne (dbl_inj B1 B2 h1 h2 e)
  · intro hne e
    exact hne (dbl_inj (dbl B1) (dbl B2) (dbl_block B1) (dbl_block B2) e)

/-! ## The injectivity claims at concrete inputs -/

/-- C21 at the schedule of `key3` and the blocks `key3` and the zero block. -/
theorem AES_Encrypt_Block_injective_witness :
    (∃ X1 X2, AES_Encrypt_Block key3 block16 rk3 = some X1 ∧
      AES_Encrypt_Block block16 block16 rk3 = some X2 ∧ (key3 ≠ block16 → X1 ≠ X2)) ∧
    ((∀ a b, a < 256 → b < 256 → byteAt sbox a = byteAt sbox b → a = b) ∧
      ∀ y, y < 256 → ∃ x, x < 256 ∧ byteAt sbox x = y) ∧
    BlockInj ShiftRows ∧ BlockInj MixColumns ∧
    ∀ round, round ≤ 10 → BlockInj (fun s => AddRoundKey s (rk3.drop (round * 16))) :=
  AES_Encrypt_Block_injective rk3 key3 block16 block16 block16 rk3_block.1 rk3_block.2
    ⟨key3_length, key3_isBytes⟩ block16_block block16_length block16_length

/-- C22 at the strings `[0x80]` and `[]`, whose padded blocks differ in byte 1, with the
zero block in the place of the subkeys. -/
theorem CMAC_padding_injective_witness :
    (padBlock [0x80] = [0x80] ++ 0x80 :: List.replicate (15 - [0x80].length) 0 ∧
      padBlock [] = [] ++ 0x80 :: List.replicate (15 - ([] : List Nat).length) 0 ∧
      (padBlock [0x80] = padBlock [] → [0x80] = [])) ∧
    (∃ Ma Mb, CMAC_M_last [0x80] [0x80].length block16 block16 = some Ma ∧
      CMAC_M_last [] ([] : List Nat).length block16 block16 = some Mb ∧
      ([0x80] ≠ [] → Ma ≠ Mb)) ∧
    ∀ m1 m2 : List Nat, (m1.length = 0 ∨ m1.length % 16 ≠ 0) →
      (m2.length = 0 ∨ m2.length % 16 ≠ 0) → m1.length + 15 < 2 ^ 64 →
      m2.length + 15 < 2 ^ 64 →
      CMAC_M_last m1 m1.length block16 block16 = CMAC_M_last m2 m2.length block16 block16 →
      m1.drop (m1.length - m1.length % 16) = m2.drop (m2.length - m2.length % 16) :=
  CMAC_padding_injective [0x80] [] block16 block16 block16 (by decide) (by decide)
    block16_length

/-- C23 at the blocks `key3` and the zero block. -/
theorem GenerateSubkeys_step_injective_witness :
    ∃ K1 K1' K2 K2', GenerateSubkeys_step key3 block16 = some K1 ∧
      GenerateSubkeys_step block16 block16 = some K1' ∧
      (∀ t, t.length = 16 → GenerateSubkeys_step K1 t = some K2) ∧
      (∀ t, t.length = 16 → GenerateSubkeys_step K1' t = some K2') ∧
      K1 = dbl key3 ∧ K1' = dbl block16 ∧
      (key3 ≠ block16 → K1 ≠ K1') ∧ (K1 ≠ K1' → K2 ≠ K2') :=
  GenerateSubkeys_step_injective key3 block16 block16 block16 ⟨key3_length, key3_isBytes⟩
    block16_block block16_length block16_length

end AESCMAC
